import Mathlib

/-!
# GraphPlay — verification of the graph-algorithm engines

Shallow embedding of the algorithmic cores of the GraphPlay mini-games:

* `CycleDetector` (tri-color DFS cycle detection, directed and undirected),
  from `src/components/games/MazeSolver.tsx` (`detectCycle`, `dfs`,
  `handleCanvasClick` of the `CycleDetector` component);
* the BFS/DFS maze solver (`runBFS`, `runDFS` in `MazeSolver.tsx`);
* Dijkstra's algorithm of the PathFinder game (`runDijkstra`,
  `handleCanvasClick`, `initializeGrid`);
* Kruskal's MST with union-find (`findMST` in `NetworkConnector.tsx`);
* greedy graph coloring (`autoSolve`, `checkConflicts` in
  `GraphColoring.tsx`).

JavaScript peculiarities that matter are modelled explicitly: `Array.sort`
is stable and coerces a `NaN` comparator result (such as
`Infinity - Infinity`) to `0`; `x || y` falls through on the falsy value
`0`; `Map.set` overwrites earlier bindings.  React state setters are
modelled by returning the final values of the affected state variables.
-/

namespace GraphPlay

/-- A JavaScript `x || y` on optional numbers: a present value `0` is falsy
and falls through to the right operand. -/
def jsOrOpt (x y : Option Nat) : Option Nat :=
  match x with
  | some v => if v = 0 then y else some v
  | none => y

/-! ## Cycle detector (`CycleDetector` component in `MazeSolver.tsx`)

Nodes are `0, …, n-1`; an edge is a pair `(from, to)`.  The component
stores edges in a list and renders cycle edges by their index in that
list. -/

/-- The adjacency list built by `detectCycle`: for each edge in list
order, `edge.to` is pushed onto `adjacencyList[edge.from]`, and in
undirected mode `edge.from` is also pushed onto `adjacencyList[edge.to]`. -/
def adjacencyList (edges : List (Nat × Nat)) (isDirected : Bool) (v : Nat) : List Nat :=
  edges.foldl (fun acc e =>
    let acc := if e.1 = v then acc ++ [e.2] else acc
    if ¬isDirected ∧ e.2 = v then acc ++ [e.1] else acc) []

/-- The `edgeMap` of `detectCycle`: key `(a, b)` maps to the index of the
last edge inserted under that key (`Map.set` overwrites).  In undirected
mode each edge is inserted under both orientations. -/
def edgeMapGet (edges : List (Nat × Nat)) (isDirected : Bool) (a b : Nat) : Option Nat :=
  edges.enum.foldl (fun acc (p : Nat × (Nat × Nat)) =>
    let acc := if p.2.1 = a ∧ p.2.2 = b then some p.1 else acc
    if ¬isDirected ∧ p.2.1 = b ∧ p.2.2 = a then some p.1 else acc) none

/-- Run-local state of `detectCycle`: the `visited` and `recursionStack`
sets, the collected `cycleEdgeSet` (edge indices), and the `foundCycle`
flag. -/
structure CDState where
  visited : List Nat
  recStack : List Nat
  cycleEdgeSet : List Nat
  foundCycle : Bool
deriving DecidableEq, Repr

/-- Add an optional edge index to the `cycleEdgeSet` and raise
`foundCycle` (the code raises the flag whether or not the index lookup
succeeded). -/
def cdFlagCycle (idx : Option Nat) (st : CDState) : CDState :=
  let st := { st with foundCycle := true }
  match idx with
  | some i => { st with cycleEdgeSet := st.cycleEdgeSet ++ [i] }
  | none => st

mutual

/-- The recursive `dfs(nodeId, parent)` of `detectCycle`.  Marks the node
visited and in-progress, scans its adjacency list, and on exit removes it
from the recursion stack.  `fuel` bounds the recursion depth; `none`
means the fuel ran out. -/
def cdDfs (adj : Nat → List Nat) (isDirected : Bool)
    (eIdx : Nat → Nat → Option Nat) :
    Nat → Nat → Int → CDState → Option (Bool × CDState)
  | 0, _, _, _ => none
  | fuel + 1, nodeId, parent, st =>
    let st1 : CDState :=
      { st with visited := st.visited ++ [nodeId], recStack := st.recStack ++ [nodeId] }
    match cdScan adj isDirected eIdx fuel nodeId parent (adj nodeId) st1 with
    | none => none
    | some (true, st2) => some (true, st2)
    | some (false, st2) =>
        some (false, { st2 with recStack := st2.recStack.erase nodeId })

/-- The `for (const neighbor of adjacencyList[nodeId])` loop body of
`dfs`, with early `return true` on a detected cycle.  The fuel is spent
on every call, so any fuel at least the total number of calls of a run
is enough. -/
def cdScan (adj : Nat → List Nat) (isDirected : Bool)
    (eIdx : Nat → Nat → Option Nat) :
    Nat → Nat → Int → List Nat → CDState → Option (Bool × CDState)
  | 0, _, _, _, _ => none
  | _ + 1, _, _, [], st => some (false, st)
  | fuel + 1, nodeId, parent, nb :: rest, st =>
    if isDirected then
      if nb ∈ st.recStack then
        some (true, cdFlagCycle (eIdx nodeId nb) st)
      else if nb ∉ st.visited then
        match cdDfs adj isDirected eIdx fuel nb (Int.ofNat nodeId) st with
        | none => none
        | some (true, st') => some (true, st')
        | some (false, st') => cdScan adj isDirected eIdx fuel nodeId parent rest st'
      else cdScan adj isDirected eIdx fuel nodeId parent rest st
    else
      if (Int.ofNat nb) ≠ parent then
        if nb ∈ st.visited then
          some (true, cdFlagCycle (jsOrOpt (eIdx nodeId nb) (eIdx nb nodeId)) st)
        else
          match cdDfs adj isDirected eIdx fuel nb (Int.ofNat nodeId) st with
          | none => none
          | some (true, st') => some (true, st')
          | some (false, st') => cdScan adj isDirected eIdx fuel nodeId parent rest st'
      else cdScan adj isDirected eIdx fuel nodeId parent rest st

end

/-- The `for (let i = 0; i < nodes.length; i++)` driver of `detectCycle`:
run `dfs(i)` from every still-unvisited node, breaking on the first
detected cycle. -/
def cdRoots (adj : Nat → List Nat) (isDirected : Bool)
    (eIdx : Nat → Nat → Option Nat) (fuel : Nat) :
    List Nat → CDState → Option CDState
  | [], st => some st
  | i :: rest, st =>
    if i ∈ st.visited then cdRoots adj isDirected eIdx fuel rest st
    else
      match cdDfs adj isDirected eIdx fuel i (-1) st with
      | none => none
      | some (true, st') => some st'
      | some (false, st') => cdRoots adj isDirected eIdx fuel rest st'

/-- `detectCycle` on `n` nodes: returns the final `(hasCycle,
cycleEdges)` pair published through `setHasCycle` / `setCycleEdges`.
`none` models the early return on an empty edge list (which publishes
nothing) and fuel exhaustion. -/
def detectCycle (n : Nat) (edges : List (Nat × Nat)) (isDirected : Bool) :
    Option (Bool × List Nat) :=
  if edges.length = 0 then none
  else
    (cdRoots (adjacencyList edges isDirected) isDirected
        (edgeMapGet edges isDirected) ((n + 1) * (2 * edges.length + 2) + n + 1)
        (List.range n) ⟨[], [], [], false⟩).map
      (fun st => (st.foundCycle, st.cycleEdgeSet))

/-- The claim's reading of a `detectCycle` outcome: a cycle is reported
and the reported cycle-edge set contains all of the given edge indices. -/
def reportsCycleCovering (r : Option (Bool × List Nat)) (idxs : List Nat) : Prop :=
  ∃ p, r = some p ∧ p.1 = true ∧ ∀ i ∈ idxs, i ∈ p.2

instance (r : Option (Bool × List Nat)) (idxs : List Nat) :
    Decidable (reportsCycleCovering r idxs) := by
  unfold reportsCycleCovering
  cases r with
  | none => exact .isFalse (by simp)
  | some p =>
      exact decidable_of_iff (p.1 = true ∧ ∀ i ∈ idxs, i ∈ p.2) (by simp)

/-! ## Cycle-detector graph builder (`handleCanvasClick`, `CycleDetector`)

A click either misses every node or lands on one.  The builder keeps an
optional selected node; clicking a second node adds the edge unless an
equivalent edge already exists. -/

/-- Builder state: the edge list and the currently selected node. -/
structure CDBuilder where
  edges : List (Nat × Nat)
  selectedNode : Option Nat
deriving DecidableEq, Repr

/-- The duplicate test of `handleCanvasClick`: an equivalent edge is the
same ordered pair, or, in undirected mode, the same pair in either
orientation. -/
def edgeEquiv (isDirected : Bool) (e e' : Nat × Nat) : Prop :=
  e = e' ∨ (isDirected = false ∧ e = (e'.2, e'.1))

instance (isDirected : Bool) (e e' : Nat × Nat) :
    Decidable (edgeEquiv isDirected e e') := by
  unfold edgeEquiv; infer_instance

/-- One canvas click of the cycle-detector builder while no run is
active.  `clicked = none` models a click that hits no node. -/
def cdClick (isDirected : Bool) (st : CDBuilder) (clicked : Option Nat) : CDBuilder :=
  match clicked with
  | none => st
  | some c =>
    match st.selectedNode with
    | none => { st with selectedNode := some c }
    | some s =>
      if s = c then { st with selectedNode := none }
      else
        if st.edges.any (fun e =>
            (e.1 == s && e.2 == c) || (!isDirected && e.1 == c && e.2 == s)) then
          { st with selectedNode := none }
        else { edges := st.edges ++ [(s, c)], selectedNode := none }

/-- A sequence of clicks, applied left to right. -/
def cdClicks (isDirected : Bool) (clicks : List (Option Nat)) (st : CDBuilder) : CDBuilder :=
  clicks.foldl (cdClick isDirected) st

/-- No two entries of the edge list are equivalent in the relevant
orientation. -/
def NoDupEdges (isDirected : Bool) (edges : List (Nat × Nat)) : Prop :=
  edges.Pairwise (fun e e' => ¬ edgeEquiv isDirected e e')

theorem cdClick_noDup (isDirected : Bool) (st : CDBuilder) (clicked : Option Nat)
    (h : NoDupEdges isDirected st.edges) :
    NoDupEdges isDirected (cdClick isDirected st clicked).edges := by
  unfold cdClick
  cases clicked with
  | none => exact h
  | some c =>
    cases hs : st.selectedNode with
    | none => exact h
    | some s =>
      dsimp only
      by_cases hsc : s = c
      · simpa [hsc] using h
      · rw [if_neg hsc]
        cases hex : st.edges.any (fun e =>
            (e.1 == s && e.2 == c) || (!isDirected && e.1 == c && e.2 == s)) with
        | true => simpa using h
        | false =>
          simp only [Bool.false_eq_true, if_false]
          unfold NoDupEdges at h ⊢
          rw [List.pairwise_append]
          refine ⟨h, List.pairwise_singleton _ _, ?_⟩
          intro e he e' he'
          simp only [List.mem_singleton] at he'
          subst he'
          have hf := (List.any_eq_false.mp hex) e he
          intro hequiv
          rcases hequiv with h1 | h2
          · rw [h1] at hf; simp at hf
          · rw [h2.2] at hf; simp [h2.1] at hf

/-- Starting from the empty graph, any click sequence keeps the edge
list free of duplicates. -/
theorem cdClicks_noDup_aux (isDirected : Bool) (clicks : List (Option Nat)) :
    ∀ st : CDBuilder, NoDupEdges isDirected st.edges →
      NoDupEdges isDirected (cdClicks isDirected clicks st).edges := by
  induction clicks with
  | nil => intro st h; exact h
  | cons c rest ih =>
      intro st h
      exact ih _ (cdClick_noDup isDirected st c h)

/-- **C1, counterexample.**  On the directed edge list A→B, B→C, C→A
(nodes 0, 1, 2; edge indices 0, 1, 2) the detector does *not* report a
cycle-edge set covering all three edges: only the back edge C→A (index
2) is flagged. -/
theorem cycleDetector_triangle_not_covering_all :
    ¬ reportsCycleCovering (detectCycle 3 [(0, 1), (1, 2), (2, 0)] true) [0, 1, 2] := by
  decide

/-- **C1, amended.**  On the directed triangle A→B, B→C, C→A the run
terminates reporting that a cycle exists, with the cycle-edge set
consisting of exactly the back edge C→A (index 2); with C→A removed it
reports no cycle; and the same two remaining edges in undirected mode
also report no cycle. -/
theorem cycleDetector_triangle_scenarios :
    detectCycle 3 [(0, 1), (1, 2), (2, 0)] true = some (true, [2]) ∧
    detectCycle 3 [(0, 1), (1, 2)] true = some (false, []) ∧
    detectCycle 3 [(0, 1), (1, 2)] false = some (false, []) := by
  decide

/-- **C10.**  In the cycle-detector graph builder, a click that would add
an edge equivalent to an existing one (same ordered pair when directed,
either orientation when undirected) leaves the edge list unchanged, and
after every sequence of clicks from the initial empty graph the edge
list holds no two equivalent edges. -/
theorem cycleBuilder_no_duplicate_edges (isDirected : Bool)
    (clicks : List (Option Nat)) :
    NoDupEdges isDirected (cdClicks isDirected clicks ⟨[], none⟩).edges ∧
    ∀ (st : CDBuilder) (s c : Nat), st.selectedNode = some s → s ≠ c →
      (∃ e ∈ st.edges, edgeEquiv isDirected e (s, c)) →
      (cdClick isDirected st (some c)).edges = st.edges := by
  constructor
  · exact cdClicks_noDup_aux isDirected clicks ⟨[], none⟩ List.Pairwise.nil
  · intro st s c hsel hne hex
    rcases hex with ⟨e, he, hequiv⟩
    have hany : st.edges.any (fun e =>
        (e.1 == s && e.2 == c) || (!isDirected && e.1 == c && e.2 == s)) = true := by
      rw [List.any_eq_true]
      refine ⟨e, he, ?_⟩
      rcases hequiv with h1 | h2
      · rw [h1]; simp
      · rw [h2.2]; simp [h2.1]
    unfold cdClick
    rw [hsel]
    dsimp only
    rw [if_neg hne, if_pos hany]

/-- **C10, witness.**  A concrete instantiation: after the click
sequence selecting node 0, clicking node 1 twice in a row (the second
add is blocked as a duplicate), the edge list is exactly `[(0, 1)]`, and
a duplicate add on a concrete state is a no-op. -/
theorem cycleBuilder_no_duplicate_edges_witness :
    NoDupEdges true (cdClicks true [some 0, some 1] ⟨[], none⟩).edges ∧
    (cdClick true ⟨[(0, 1)], some 0⟩ (some 1)).edges = [(0, 1)] :=
  ⟨(cycleBuilder_no_duplicate_edges true [some 0, some 1]).1,
   (cycleBuilder_no_duplicate_edges true []).2 ⟨[(0, 1)], some 0⟩ 0 1 rfl
     (by decide) ⟨(0, 1), by simp, Or.inl rfl⟩⟩

/-! ## Union-find (`find` / `union` in `findMST`, `NetworkConnector.tsx`)

`parent` and `rank` are arrays indexed by node id, modelled as
functions.  `find` uses path compression and returns the updated parent
array along with the root; `union` is union by rank and reports whether
the two sets were distinct.  The recursion of `find` is bounded by
`fuel`; any fuel exceeding the longest parent chain gives the exact
behaviour of the source (whose chains are finite by construction). -/

/-- Path-compressing `find`.  Returns the result of `find(x)` and the
parent array after compression. -/
def ufFind (fuel : Nat) (p : Nat → Nat) (x : Nat) : Nat × (Nat → Nat) :=
  match fuel with
  | 0 => (p x, p)
  | fuel + 1 =>
    if p x = x then (x, p)
    else
      let r := ufFind fuel p (p x)
      (r.1, Function.update r.2 x r.1)

/-- Union-find state: the `parent` and `rank` arrays of `findMST`. -/
structure UF where
  parent : Nat → Nat
  rank : Nat → Nat

/-- The initial state built by `findMST`: every node is its own parent
with rank `0`. -/
def ufInit : UF := ⟨fun i => i, fun _ => 0⟩

/-- `union(x, y)`: find both roots (with compression), return `false` if
they agree, otherwise link by rank — the lower-ranked root is attached
to the higher-ranked one, and on a tie `rootY` is attached to `rootX`,
whose rank increments. -/
def ufUnion (fuel : Nat) (st : UF) (x y : Nat) : Bool × UF :=
  let fx := ufFind fuel st.parent x
  let fy := ufFind fuel fx.2 y
  let rootX := fx.1
  let rootY := fy.1
  if rootX = rootY then (false, { st with parent := fy.2 })
  else if st.rank rootX < st.rank rootY then
    (true, { st with parent := Function.update fy.2 rootX rootY })
  else if st.rank rootY < st.rank rootX then
    (true, { st with parent := Function.update fy.2 rootY rootX })
  else
    (true, { parent := Function.update fy.2 rootY rootX,
             rank := Function.update st.rank rootX (st.rank rootX + 1) })

/-- **C8.**  From the all-singletons state, after `union(a, b)` and then
`union(b, c)`, `find(a)` and `find(c)` return the same root (for any
recursion fuel at least `3`, which covers every parent chain these
states can hold). -/
theorem uf_union_union_find (a b c fuel : Nat) (hf : 3 ≤ fuel) :
    (ufFind fuel ((ufUnion fuel ((ufUnion fuel ufInit a b).2) b c).2).parent a).1 =
    (ufFind fuel ((ufUnion fuel ((ufUnion fuel ufInit a b).2) b c).2).parent c).1 := by
  obtain ⟨k, rfl⟩ : ∃ k, fuel = k + 3 := ⟨fuel - 3, by omega⟩
  by_cases hab : a = b
  · subst hab
    by_cases hac : a = c
    · subst hac; rfl
    · simp [ufUnion, ufFind, ufInit, Function.update_apply, hac, Ne.symm hac]
  · by_cases hbc : b = c
    · subst hbc
      simp [ufUnion, ufFind, ufInit, Function.update_apply, hab, Ne.symm hab]
    · by_cases hac : a = c
      · subst hac
        simp [ufUnion, ufFind, ufInit, Function.update_apply, hab, Ne.symm hab, hbc,
          Ne.symm hbc]
      · simp [ufUnion, ufFind, ufInit, Function.update_apply, hab, Ne.symm hab, hbc,
          Ne.symm hbc, hac, Ne.symm hac]

/-- **C8, witness.**  The theorem applied at `a = 0`, `b = 1`, `c = 2`,
fuel `3`. -/
theorem uf_union_union_find_witness :
    (ufFind 3 ((ufUnion 3 ((ufUnion 3 ufInit 0 1).2) 1 2).2).parent 0).1 =
    (ufFind 3 ((ufUnion 3 ((ufUnion 3 ufInit 0 1).2) 1 2).2).parent 2).1 :=
  uf_union_union_find 0 1 2 3 (by decide)

/-! ## Greedy coloring (`autoSolve` / `checkConflicts`, `GraphColoring.tsx`)

Nodes are `0, …, n-1`; `nbrs i` is node `i`'s neighbor list; a coloring
maps a node id to its `color` field (`-1` = uncolored, palette indices
`0 … 7` for the eight `COLORS`).  The node ids, positions and neighbor
lists never change during `autoSolve`, so the mutable part of the node
array is exactly the coloring. -/

/-- The `usedColors` set of `autoSolve`: colors of already-colored
neighbors. -/
def usedColors (nbrs : Nat → List Nat) (col : Nat → Int) (i : Nat) : List Int :=
  (nbrs i).filterMap (fun j => if col j ≠ -1 then some (col j) else none)

/-- The `for (let color = 0; color < COLORS.length; color++)` search for
the first free palette index. -/
def firstFree (used : List Int) : Option Nat :=
  (List.range 8).find? (fun c => !(used.contains (Int.ofNat c)))

/-- One `newNodes.forEach` iteration of `autoSolve` at node `i`: assign
the first free color, or leave the node uncolored when all eight are
taken. -/
def greedyStep (nbrs : Nat → List Nat) (col : Nat → Int) (i : Nat) : Nat → Int :=
  match firstFree (usedColors nbrs col i) with
  | some c => Function.update col i (Int.ofNat c)
  | none => col

/-- `autoSolve` on `n` nodes: reset every color to `-1`, then process the
nodes in ascending id. -/
def autoSolve (n : Nat) (nbrs : Nat → List Nat) : Nat → Int :=
  (List.range n).foldl (greedyStep nbrs) (fun _ => -1)

/-- JavaScript `Set.add` on a list kept duplicate-free. -/
def addNew (l : List Nat) (x : Nat) : List Nat :=
  if x ∈ l then l else l ++ [x]

/-- `checkConflicts`: every colored node adds itself and the neighbor to
the conflict set for each neighbor sharing its color. -/
def checkConflicts (n : Nat) (nbrs : Nat → List Nat) (col : Nat → Int) : List Nat :=
  (List.range n).foldl (fun acc i =>
    if col i ≠ -1 then
      (nbrs i).foldl (fun acc2 j =>
        if col j = col i then addNew (addNew acc2 i) j else acc2) acc
    else acc) []

/-- The partial run of `autoSolve` over the first `k` nodes. -/
def greedyUpTo (nbrs : Nat → List Nat) (k : Nat) : Nat → Int :=
  (List.range k).foldl (greedyStep nbrs) (fun _ => -1)

theorem greedyUpTo_succ (nbrs : Nat → List Nat) (k : Nat) :
    greedyUpTo nbrs (k + 1) = greedyStep nbrs (greedyUpTo nbrs k) k := by
  unfold greedyUpTo
  rw [List.range_succ, List.foldl_append]
  rfl

/-- A fold that never changes its accumulator returns it unchanged. -/
theorem foldl_id {α β : Type} (f : α → β → α) (l : List β) (a : α)
    (h : ∀ a' x, x ∈ l → f a' x = a') : l.foldl f a = a := by
  induction l generalizing a with
  | nil => rfl
  | cons x xs ih =>
      rw [List.foldl_cons, h a x (by simp)]
      exact ih a (fun a' y hy => h a' y (by simp [hy]))

/-- Invariant of the greedy pass after the first `k` nodes: processed
nodes carry a palette index, unprocessed nodes are uncolored, and edges
between processed nodes are properly colored. -/
def GreedyInv (nbrs : Nat → List Nat) (k : Nat) (col : Nat → Int) : Prop :=
  (∀ i, i < k → ∃ c, c < 8 ∧ col i = Int.ofNat c) ∧
  (∀ i, k ≤ i → col i = -1) ∧
  (∀ i, i < k → ∀ j ∈ nbrs i, j < k → j ≠ i → col j ≠ col i)

theorem firstFree_isSome (used : List Int) (hlen : used.length ≤ 7) :
    ∃ c, firstFree used = some c := by
  by_contra h
  push_neg at h
  have hnone : firstFree used = none := by
    cases hf : firstFree used with
    | none => rfl
    | some c => exact absurd hf (h c)
  unfold firstFree at hnone
  rw [List.find?_eq_none] at hnone
  have hsub : ((List.range 8).map Int.ofNat) ⊆ used := by
    intro x hx
    simp only [List.mem_map, List.mem_range] at hx
    obtain ⟨c, hc, rfl⟩ := hx
    have := hnone c (by simpa using hc)
    simpa using this
  have hnodup : ((List.range 8).map Int.ofNat).Nodup :=
    (List.nodup_range 8).map (fun a b h => Int.ofNat.inj h)
  have hcard : ((List.range 8).map Int.ofNat).toFinset.card ≤ used.toFinset.card :=
    Finset.card_le_card (fun x hx => by
      rw [List.mem_toFinset] at hx ⊢
      exact hsub hx)
  rw [List.toFinset_card_of_nodup hnodup, List.length_map, List.length_range] at hcard
  have : used.toFinset.card ≤ used.length := used.toFinset_card_le
  omega

theorem greedyInv_step (nbrs : Nat → List Nat) (n k : Nat) (hk : k < n)
    (hdeg : ∀ i, i < n → (nbrs i).length + 1 ≤ 8)
    (hsym : ∀ i, i < n → ∀ j ∈ nbrs i, j < n ∧ i ∈ nbrs j ∧ j ≠ i)
    (col : Nat → Int) (hinv : GreedyInv nbrs k col) :
    GreedyInv nbrs (k + 1) (greedyStep nbrs col k) := by
  obtain ⟨hcolored, hfresh, hproper⟩ := hinv
  have hused_len : (usedColors nbrs col k).length ≤ 7 := by
    have h1 : (usedColors nbrs col k).length ≤ (nbrs k).length :=
      List.length_filterMap_le _ _
    have := hdeg k hk
    omega
  obtain ⟨c, hc⟩ := firstFree_isSome _ hused_len
  have hc' : (List.range 8).find?
      (fun c => !((usedColors nbrs col k).contains (Int.ofNat c))) = some c := hc
  have hc8 : c < 8 := List.mem_range.mp (List.mem_of_find?_eq_some hc')
  have hcfree : Int.ofNat c ∉ usedColors nbrs col k := by
    have := List.find?_some hc'
    simpa using this
  have hstep : greedyStep nbrs col k = Function.update col k (Int.ofNat c) := by
    unfold greedyStep
    rw [hc]
  rw [hstep]
  have hne_used : ∀ j ∈ nbrs k, col j ≠ -1 → col j ≠ Int.ofNat c := by
    intro j hj hcol heq
    apply hcfree
    rw [← heq]
    unfold usedColors
    rw [List.mem_filterMap]
    exact ⟨j, hj, by simp [hcol]⟩
  refine ⟨?_, ?_, ?_⟩
  · intro i hi
    rcases Nat.lt_succ_iff_lt_or_eq.mp hi with hlt | hik
    · obtain ⟨c', hc'', hcol⟩ := hcolored i hlt
      exact ⟨c', hc'', by rwa [Function.update_noteq (by omega)]⟩
    · subst hik
      exact ⟨c, hc8, by rw [Function.update_same]⟩
  · intro i hi
    rw [Function.update_noteq (by omega)]
    exact hfresh i (by omega)
  · intro i hi j hj hjk hji
    by_cases hik : i = k
    · -- i = k: the neighbor j < k was already colored, hence avoided
      have hjne : j ≠ k := by omega
      have hjlt : j < k := by omega
      rw [hik] at hj
      rw [hik, Function.update_noteq hjne, Function.update_same]
      obtain ⟨c', _, hcol⟩ := hcolored j hjlt
      exact hne_used j hj (by rw [hcol]; exact_mod_cast (by omega : (c' : Int) ≠ -1))
    · have hilt : i < k := by omega
      by_cases hjk' : j = k
      · -- j = k is freshly colored; i < k is an already-colored neighbor of k
        rw [hjk'] at hj
        rw [hjk', Function.update_same, Function.update_noteq hik]
        have hik' : i ∈ nbrs k := (hsym i (by omega) k hj).2.1
        obtain ⟨c', _, hcol⟩ := hcolored i hilt
        intro heq
        exact hne_used i hik' (by rw [hcol]; exact_mod_cast (by omega : (c' : Int) ≠ -1)) heq.symm
      · have hjlt : j < k := by omega
        rw [Function.update_noteq hjk', Function.update_noteq hik]
        exact hproper i hilt j hj hjlt hji

theorem greedyInv_upTo (nbrs : Nat → List Nat) (n : Nat)
    (hdeg : ∀ i, i < n → (nbrs i).length + 1 ≤ 8)
    (hsym : ∀ i, i < n → ∀ j ∈ nbrs i, j < n ∧ i ∈ nbrs j ∧ j ≠ i) :
    ∀ k, k ≤ n → GreedyInv nbrs k (greedyUpTo nbrs k) := by
  intro k
  induction k with
  | zero =>
      intro _
      exact ⟨fun i hi => absurd hi (by omega), fun _ _ => rfl,
        fun i hi => absurd hi (by omega)⟩
  | succ k ih =>
      intro hk
      rw [greedyUpTo_succ]
      exact greedyInv_step nbrs n k (by omega) hdeg hsym _ (ih (by omega))

/-- **C7.**  For every graph (symmetric, loop-free adjacency on nodes
`0 … n-1`) whose maximum degree plus one is at most the palette size 8,
the greedy `autoSolve` colors every node and the recomputed conflict set
is empty. -/
theorem autoSolve_colors_all_and_no_conflicts (n : Nat) (nbrs : Nat → List Nat)
    (hdeg : ∀ i, i < n → (nbrs i).length + 1 ≤ 8)
    (hsym : ∀ i, i < n → ∀ j ∈ nbrs i, j < n ∧ i ∈ nbrs j ∧ j ≠ i) :
    (∀ i, i < n → autoSolve n nbrs i ≠ -1) ∧
    checkConflicts n nbrs (autoSolve n nbrs) = [] := by
  have hinv := greedyInv_upTo nbrs n hdeg hsym n (le_refl n)
  have hauto : autoSolve n nbrs = greedyUpTo nbrs n := rfl
  obtain ⟨hcolored, _, hproper⟩ := hinv
  constructor
  · intro i hi
    rw [hauto]
    obtain ⟨c, _, hcol⟩ := hcolored i hi
    rw [hcol]
    exact fun h => by simpa using h
  · unfold checkConflicts
    apply foldl_id
    intro acc i hi
    rw [List.mem_range] at hi
    by_cases hcol : autoSolve n nbrs i ≠ -1
    · rw [if_pos hcol]
      apply foldl_id
      intro acc2 j hj
      rw [if_neg]
      rw [hauto]
      obtain ⟨hjn, _, hji⟩ := hsym i hi j hj
      exact hproper i hi j hj hjn hji
    · rw [if_neg hcol]

/-- **C7, witness.**  The star graph with center 0 and four leaves: the
degree bound `4 + 1 ≤ 8` holds, all five nodes get colored, and the
conflict set is empty. -/
theorem autoSolve_colors_all_and_no_conflicts_witness :
    (∀ i, i < 5 →
      autoSolve 5 (fun i => if i = 0 then [1, 2, 3, 4] else [0]) i ≠ -1) ∧
    checkConflicts 5 (fun i => if i = 0 then [1, 2, 3, 4] else [0])
      (autoSolve 5 (fun i => if i = 0 then [1, 2, 3, 4] else [0])) = [] :=
  autoSolve_colors_all_and_no_conflicts 5
    (fun i => if i = 0 then [1, 2, 3, 4] else [0])
    (by decide) (by decide)

/-! ## PathFinder grid and Dijkstra (`runDijkstra`, `part_001`)

A grid cell holds the persistent fields of `GridCell` (`isWall`,
`isStart`, `isEnd`, `weight`); the run-local fields (`isVisited`,
`distance`, `previous`, `isPath`) are reset by `runDijkstra` itself and
live in the run state.  Positions are `(x, y)` integer pairs as in the
source, where neighbor coordinates are computed with signed arithmetic
and bounds-checked. -/

/-- An `(x, y)` cell coordinate. -/
abbrev Pos := Int × Int

/-- Persistent fields of a PathFinder grid cell. -/
structure GridCell where
  isWall : Bool
  isStart : Bool
  isEnd : Bool
  weight : Nat
deriving DecidableEq, Repr

/-- A PathFinder grid: dimensions and per-cell data. -/
structure Grid where
  width : Nat
  height : Nat
  cell : Pos → GridCell

/-- In-bounds test `newX >= 0 && newX < gridWidth && …`. -/
def inBounds (g : Grid) (p : Pos) : Prop :=
  0 ≤ p.1 ∧ p.1 < (g.width : Int) ∧ 0 ≤ p.2 ∧ p.2 < (g.height : Int)

instance (g : Grid) (p : Pos) : Decidable (inBounds g p) :=
  inferInstanceAs (Decidable (0 ≤ p.1 ∧ p.1 < (g.width : Int) ∧ 0 ≤ p.2 ∧ p.2 < (g.height : Int)))

/-- The neighbor direction list `up, right, down, left`. -/
def dirs : List Pos := [(0, -1), (1, 0), (0, 1), (-1, 0)]

/-- All grid positions in row-major order (`y` outer, `x` inner), the
order in which `initializeGrid` and the unvisited-list construction
traverse the grid. -/
def allPositions (w h : Nat) : List Pos :=
  (List.range h).flatMap
    (fun (y : Nat) => (List.range w).map (fun (x : Nat) => ((x : Int), (y : Int))))

/-- `initializeGrid`: no walls, start at `(2, ⌊h/2⌋)`, end at
`(w−3, ⌊h/2⌋)`, weights from the random draw `wseed`. -/
def initializeGrid (w h : Nat) (wseed : Pos → Nat) : Grid :=
  ⟨w, h, fun p =>
    ⟨false,
     decide (p.1 = 2 ∧ p.2 = ((h / 2 : Nat) : Int)),
     decide (p.1 = (w : Int) - 3 ∧ p.2 = ((h / 2 : Nat) : Int)),
     wseed p⟩⟩

/-- The JavaScript comparator `a.distance - b.distance` as a total
preorder on optional distances: `none` is `Infinity`, and
`Infinity - Infinity` is `NaN`, which `Array.sort` treats as `0` (a
tie). -/
def distLE (d : Pos → Option Nat) (a b : Pos) : Bool :=
  match d a, d b with
  | some da, some db => da ≤ db
  | some _, none => true
  | none, some _ => false
  | none, none => true

/-- `distLE` as a decidable relation. -/
def distLEP (d : Pos → Option Nat) (a b : Pos) : Prop := distLE d a b = true

instance (d : Pos → Option Nat) : DecidableRel (distLEP d) := fun a b =>
  inferInstanceAs (Decidable (distLE d a b = true))

instance (d : Pos → Option Nat) : IsTotal Pos (distLEP d) where
  total a b := by
    unfold distLEP distLE
    cases d a <;> cases d b <;> simp <;> omega

instance (d : Pos → Option Nat) : IsTrans Pos (distLEP d) where
  trans a b c := by
    unfold distLEP distLE
    cases d a <;> cases d b <;> cases d c <;> simp <;> omega

/-- The per-iteration `unvisited.sort((a, b) => a.distance - b.distance)`:
a stable sort by current distance.  JavaScript's `Array.sort` is
required to be stable, and the stable sorted permutation under a total
preorder is unique, so the stable `insertionSort` computes exactly the
array produced by the source. -/
def sortByDist (d : Pos → Option Nat) (l : List Pos) : List Pos :=
  List.insertionSort (distLEP d) l

/-- Run-local state of `runDijkstra`: the unvisited array (in its
current order), the `distance`, `previous` and `isVisited` cell fields,
the visited counter, and the order in which cells were marked visited
(observable through the per-step grid snapshots). -/
structure DState where
  unvisited : List Pos
  dist : Pos → Option Nat
  previous : Pos → Option Pos
  visited : Pos → Bool
  visitedCount : Nat
  visitOrder : List Pos

/-- The React state variables read by a run but only written by earlier
code (`initializeGrid` resets them to `0` / `false`); a run that ends
without finding the end cell leaves them untouched. -/
structure PriorStats where
  visitedCount : Nat
  pathLength : Nat
  totalDistance : Nat
  gameCompleted : Bool
deriving DecidableEq, Repr

/-- The fresh statistics established by `initializeGrid`. -/
def freshStats : PriorStats := ⟨0, 0, 0, false⟩

/-- Observable outcome of a run: the final values of `visitedCount`,
`pathLength`, `totalDistance`, `gameCompleted`, `isRunning`, and the
sequence in which cells were shown as visited. -/
structure DOutcome where
  visitedCount : Nat
  pathLength : Nat
  totalDistance : Nat
  gameCompleted : Bool
  isRunningAfter : Bool
  visitOrder : List Pos
deriving DecidableEq, Repr

/-- The `while (pathNode)` reconstruction loop: walk `previous` pointers
from the end cell, counting cells and summing their weights (the start
cell's weight included, as in the source).  `fuel` bounds the walk;
every reachable run state has acyclic chains, proved below. -/
def reconstructPath (g : Grid) (prev : Pos → Option Pos) :
    Nat → Pos → Option (Nat × Nat)
  | 0, _ => none
  | fuel + 1, p =>
    match prev p with
    | none => some (1, (g.cell p).weight)
    | some q =>
        (reconstructPath g prev fuel q).map
          (fun r => (r.1 + 1, r.2 + (g.cell p).weight))

/-- The `directions.forEach` body of `runDijkstra`: relax the neighbor
of `current` (distance `d`) in direction `dir` — if it is in bounds,
non-wall and unvisited and its tentative distance improves, update its
distance and back-pointer. -/
def relaxOne (g : Grid) (current : Pos) (d : Nat) (visited : Pos → Bool)
    (dp : (Pos → Option Nat) × (Pos → Option Pos)) (dir : Pos) :
    (Pos → Option Nat) × (Pos → Option Pos) :=
  let n : Pos := (current.1 + dir.1, current.2 + dir.2)
  if inBounds g n ∧ ¬(g.cell n).isWall ∧ ¬visited n then
    let t := d + (g.cell n).weight
    match dp.1 n with
    | none => (Function.update dp.1 n (some t), Function.update dp.2 n (some current))
    | some dn =>
        if t < dn then
          (Function.update dp.1 n (some t), Function.update dp.2 n (some current))
        else dp
  else dp

/-- Relax the four neighbors of `current` in direction order. -/
def relaxAll (g : Grid) (current : Pos) (d : Nat) (visited : Pos → Bool)
    (dist : Pos → Option Nat) (prev : Pos → Option Pos) :
    (Pos → Option Nat) × (Pos → Option Pos) :=
  dirs.foldl (relaxOne g current d visited) (dist, prev)

/-- One iteration of the `while (unvisited.length > 0)` loop.  `inl` is
the next loop state; `inr (some out)` is a loop exit with outcome `out`;
`inr none` means the reconstruction walk ran out of fuel (impossible in
reachable states). -/
def dijkstraStep (g : Grid) (prior : PriorStats) (st : DState) :
    Sum DState (Option DOutcome) :=
  match sortByDist st.dist st.unvisited with
  | [] =>
      Sum.inr (some ⟨st.visitedCount, prior.pathLength, prior.totalDistance,
        prior.gameCompleted, false, st.visitOrder⟩)
  | current :: rest =>
    match st.dist current with
    | none =>
        Sum.inr (some ⟨st.visitedCount, prior.pathLength, prior.totalDistance,
          prior.gameCompleted, false, st.visitOrder⟩)
    | some d =>
      let visited' := Function.update st.visited current true
      let vc := st.visitedCount + 1
      let vo := st.visitOrder ++ [current]
      if (g.cell current).isEnd then
        match reconstructPath g st.previous vc current with
        | none => Sum.inr none
        | some r => Sum.inr (some ⟨vc, r.1, r.2, true, false, vo⟩)
      else
        let dp := relaxAll g current d visited' st.dist st.previous
        Sum.inl ⟨rest, dp.1, dp.2, visited', vc, vo⟩

/-- Iterate `dijkstraStep` while the loop continues; `none` on loop
exit.  Used to inspect intermediate loop states. -/
def dijkstraIter (g : Grid) (prior : PriorStats) : Nat → DState → Option DState
  | 0, st => some st
  | k + 1, st =>
    match dijkstraStep g prior st with
    | Sum.inl st' => dijkstraIter g prior k st'
    | Sum.inr _ => none

/-- Run the loop to completion with the given fuel. -/
def runDijkstraGo (g : Grid) (prior : PriorStats) : Nat → DState → Option DOutcome
  | 0, _ => none
  | fuel + 1, st =>
    match dijkstraStep g prior st with
    | Sum.inr r => r
    | Sum.inl st' => runDijkstraGo g prior fuel st'

/-- The run state set up at the top of `runDijkstra`: distances reset to
`Infinity` except `0` at start cells, no back-pointers, nothing visited,
and the unvisited array holding every non-wall cell in row-major
order. -/
def initDState (g : Grid) : DState :=
  { unvisited := (allPositions g.width g.height).filter (fun p => !(g.cell p).isWall),
    dist := fun p => if (g.cell p).isStart then some 0 else none,
    previous := fun _ => none,
    visited := fun _ => false,
    visitedCount := 0,
    visitOrder := [] }

/-- The `startCell` search: first start cell in row-major order. -/
def findStart (g : Grid) : Option Pos :=
  (allPositions g.width g.height).find? (fun p => (g.cell p).isStart)

/-- `runDijkstra`: the early return when no start cell exists leaves
every statistic untouched and the running flag raised; otherwise the
loop runs to an exit (the fuel `|unvisited| + 1` is exact, since every
iteration removes one cell). -/
def runDijkstra (g : Grid) (prior : PriorStats) : Option DOutcome :=
  match findStart g with
  | none =>
      some ⟨prior.visitedCount, prior.pathLength, prior.totalDistance,
        prior.gameCompleted, true, []⟩
  | some _ =>
      runDijkstraGo g prior ((initDState g).unvisited.length + 1) (initDState g)

/-- Row-major index `y * gridWidth + x` of a cell, the tie-break order
named by the specification. -/
def rowMajorIdx (g : Grid) (p : Pos) : Int := p.2 * (g.width : Int) + p.1

/-! ### Concrete grids exercising the Dijkstra claims -/

/-- A 2×1 all-weight-1 grid: start `(0,0)`, end `(1,0)`, adjacent. -/
def grid21 : Grid :=
  ⟨2, 1, fun p => ⟨false, decide (p = ((0 : Int), (0 : Int))),
    decide (p = ((1 : Int), (0 : Int))), 1⟩⟩

/-- Weights of the 4×2 tie-break grid: `3` at `(0,1)`, `9` on the rest
of the bottom row, `1` on the top row. -/
def tieWeights (p : Pos) : Nat :=
  if p = ((0 : Int), (1 : Int)) then 3
  else if p.2 = 1 then 9
  else 1

/-- A 4×2 grid, start `(0,0)`, end `(3,1)`: cells `(3,0)` and `(0,1)`
end up tied at distance 3, with `(0,1)` (row-major index 4) sorted
before `(3,0)` (row-major index 3) because `(0,1)` obtained a finite
distance earlier and the stable re-sort keeps it in front. -/
def grid42 : Grid :=
  ⟨4, 2, fun p => ⟨false, decide (p = ((0 : Int), (0 : Int))),
    decide (p = ((3 : Int), (1 : Int))), tieWeights p⟩⟩

/-- `distLE` is reflexive. -/
theorem distLE_refl (d : Pos → Option Nat) (a : Pos) : distLE d a a = true := by
  unfold distLE
  cases d a <;> simp

/-- **C3, amended.**  Each iteration's selection — the head of the
stable re-sort of the unvisited array — is a cell of minimal current
distance among the remaining unvisited cells (ties are resolved by the
current array order, not by row-major index; the run is the value of the
pure function `runDijkstra` of the grid). -/
theorem dijkstra_selects_minimum (d : Pos → Option Nat) (l : List Pos)
    (hl : l ≠ []) :
    ∃ c rest, sortByDist d l = c :: rest ∧ c ∈ l ∧
      ∀ x ∈ l, distLE d c x = true := by
  cases hs : sortByDist d l with
  | nil =>
      have hp := List.perm_insertionSort (distLEP d) l
      rw [show List.insertionSort (distLEP d) l = sortByDist d l from rfl, hs] at hp
      exact absurd hp.symm.eq_nil hl
  | cons c rest =>
      have hp := List.perm_insertionSort (distLEP d) l
      rw [show List.insertionSort (distLEP d) l = sortByDist d l from rfl, hs] at hp
      have hsorted := List.sorted_insertionSort (distLEP d) l
      rw [show List.insertionSort (distLEP d) l = sortByDist d l from rfl, hs] at hsorted
      obtain ⟨hhead, _⟩ := List.sorted_cons.mp hsorted
      refine ⟨c, rest, rfl, hp.subset (by simp), ?_⟩
      intro x hx
      have hx' : x ∈ c :: rest := hp.symm.subset hx
      rcases List.mem_cons.mp hx' with rfl | hxr
      · exact distLE_refl d x
      · exact hhead x hxr

/-- **C3, amended, witness.**  The selection lemma applied to the
singleton unvisited list of a one-cell grid. -/
theorem dijkstra_selects_minimum_witness :
    ∃ c rest,
      sortByDist (fun _ => some 0) [((0 : Int), (0 : Int))] = c :: rest ∧
      c ∈ [((0 : Int), (0 : Int))] ∧
      ∀ x ∈ [((0 : Int), (0 : Int))], distLE (fun _ => some 0) c x = true :=
  dijkstra_selects_minimum (fun _ => some 0) [((0 : Int), (0 : Int))] (by simp)

/-- **C3, counterexample.**  On `grid42` (4×2, start `(0,0)`, end
`(3,1)`, weights `tieWeights`), after three loop iterations the cells
`(3,0)` and `(0,1)` are both unvisited and tied at the minimal current
distance 3, yet the fourth iteration selects `(0,1)`, whose row-major
index 4 is larger than `(3,0)`'s index 3. -/
theorem dijkstra_tie_break_not_row_major :
    (dijkstraIter grid42 freshStats 3 (initDState grid42)).map
      (fun st =>
        (st.unvisited.contains ((3 : Int), (0 : Int)),
         st.dist ((3 : Int), (0 : Int)),
         st.dist ((0 : Int), (1 : Int)))) = some (true, some 3, some 3) ∧
    (dijkstraIter grid42 freshStats 3 (initDState grid42)).map
      (fun st =>
        ((sortByDist st.dist st.unvisited).head?,
         st.unvisited.all (fun x => distLE st.dist ((0 : Int), (1 : Int)) x),
         st.unvisited.all (fun x => distLE st.dist ((3 : Int), (0 : Int)) x))) =
      some (some ((0 : Int), (1 : Int)), true, true) ∧
    rowMajorIdx grid42 ((3 : Int), (0 : Int)) = 3 ∧
    rowMajorIdx grid42 ((0 : Int), (1 : Int)) = 4 := by
  refine ⟨by decide, by decide, by decide, by decide⟩

/-- **C2, counterexample.**  `grid21` has every weight 1 and its start
and end adjacent; the run completes with path length 2 but reported
total cost 2 — the sum of the weights of *both* path cells, not the
move count 1 = 2 − 1 predicted by the claim. -/
theorem dijkstra_cost_counterexample :
    (∀ p : Pos, (grid21.cell p).weight = 1) ∧
    runDijkstra grid21 freshStats =
      some ⟨2, 2, 2, true, false, [((0 : Int), (0 : Int)), ((1 : Int), (0 : Int))]⟩ ∧
    (2 : Nat) ≠ 2 - 1 :=
  ⟨fun _ => rfl, by decide, by decide⟩

/-! ## PathFinder edit clicks (`handleCanvasClick`, `part_001`) -/

/-- The `drawMode` toggle of the PathFinder toolbar. -/
inductive DrawMode where
  | wall
  | weight
deriving DecidableEq, Repr

/-- `handleCanvasClick`: ignored while a run is active; in-bounds clicks
on non-start, non-end cells either toggle the wall flag or, in weight
mode on non-wall cells, toggle the weight between 1 and 5.  (The wall
branch also clears the run-local `isVisited` / `isPath` display flags,
which are not part of the persistent grid.) -/
def handleCanvasClick (g : Grid) (isRunning : Bool) (mode : DrawMode)
    (x y : Int) : Grid :=
  if isRunning then g
  else if 0 ≤ x ∧ x < (g.width : Int) ∧ 0 ≤ y ∧ y < (g.height : Int) then
    let cell := g.cell (x, y)
    if ¬cell.isStart ∧ ¬cell.isEnd then
      match mode with
      | .wall =>
          let newCell := { cell with isWall := !cell.isWall }
          { g with cell := Function.update g.cell (x, y) newCell }
      | .weight =>
          if ¬cell.isWall then
            let newCell := { cell with weight := if cell.weight = 1 then 5 else 1 }
            { g with cell := Function.update g.cell (x, y) newCell }
          else g
    else g
  else g

/-- One recorded click: the running flag and draw mode at click time and
the clicked cell coordinates. -/
structure PFClick where
  running : Bool
  mode : DrawMode
  x : Int
  y : Int

/-- A sequence of edit clicks applied to a grid. -/
def applyClicks (g : Grid) (clicks : List PFClick) : Grid :=
  clicks.foldl (fun g c => handleCanvasClick g c.running c.mode c.x c.y) g

/-- There is exactly one in-bounds start cell. -/
def ExactlyOneStart (g : Grid) : Prop :=
  ∃! p : Pos, inBounds g p ∧ (g.cell p).isStart = true

/-- There is exactly one in-bounds end cell. -/
def ExactlyOneEnd (g : Grid) : Prop :=
  ∃! p : Pos, inBounds g p ∧ (g.cell p).isEnd = true

/-- A click never changes any cell's start or end marker, nor the grid
dimensions. -/
theorem handleCanvasClick_markers (g : Grid) (r : Bool) (m : DrawMode)
    (x y : Int) :
    ((handleCanvasClick g r m x y).width = g.width ∧
     (handleCanvasClick g r m x y).height = g.height) ∧
    ∀ p : Pos,
      ((handleCanvasClick g r m x y).cell p).isStart = (g.cell p).isStart ∧
      ((handleCanvasClick g r m x y).cell p).isEnd = (g.cell p).isEnd := by
  unfold handleCanvasClick
  cases r with
  | true => exact ⟨⟨rfl, rfl⟩, fun p => ⟨rfl, rfl⟩⟩
  | false =>
    simp only [Bool.false_eq_true, if_false]
    by_cases hb : 0 ≤ x ∧ x < (g.width : Int) ∧ 0 ≤ y ∧ y < (g.height : Int)
    · rw [if_pos hb]
      by_cases hse : ¬(g.cell (x, y)).isStart = true ∧ ¬(g.cell (x, y)).isEnd = true
      · rw [if_pos hse]
        cases m with
        | wall =>
            refine ⟨⟨rfl, rfl⟩, fun p => ?_⟩
            by_cases hp : p = (x, y)
            · subst hp; simp [Function.update_same]
            · simp [Function.update_noteq hp]
        | weight =>
            by_cases hw : ¬(g.cell (x, y)).isWall = true
            · rw [if_pos hw]
              refine ⟨⟨rfl, rfl⟩, fun p => ?_⟩
              by_cases hp : p = (x, y)
              · subst hp; simp [Function.update_same]
              · simp [Function.update_noteq hp]
            · rw [if_neg hw]
              exact ⟨⟨rfl, rfl⟩, fun p => ⟨rfl, rfl⟩⟩
      · rw [if_neg hse]
        exact ⟨⟨rfl, rfl⟩, fun p => ⟨rfl, rfl⟩⟩
    · rw [if_neg hb]
      exact ⟨⟨rfl, rfl⟩, fun p => ⟨rfl, rfl⟩⟩

theorem applyClicks_markers (clicks : List PFClick) :
    ∀ g : Grid,
      ((applyClicks g clicks).width = g.width ∧
       (applyClicks g clicks).height = g.height) ∧
      ∀ p : Pos,
        ((applyClicks g clicks).cell p).isStart = (g.cell p).isStart ∧
        ((applyClicks g clicks).cell p).isEnd = (g.cell p).isEnd := by
  induction clicks with
  | nil => exact fun g => ⟨⟨rfl, rfl⟩, fun p => ⟨rfl, rfl⟩⟩
  | cons c rest ih =>
      intro g
      have h1 := handleCanvasClick_markers g c.running c.mode c.x c.y
      have h2 := ih (handleCanvasClick g c.running c.mode c.x c.y)
      refine ⟨⟨?_, ?_⟩, fun p => ⟨?_, ?_⟩⟩
      · exact h2.1.1.trans h1.1.1
      · exact h2.1.2.trans h1.1.2
      · exact (h2.2 p).1.trans (h1.2 p).1
      · exact (h2.2 p).2.trans (h1.2 p).2

/-- **C9.**  From `initializeGrid` (width at least 6, height at least
1), every state reachable by edit clicks has exactly one start cell and
exactly one end cell; a click on the start or end cell leaves the grid
unchanged; and any click issued while a run is active leaves the grid
unchanged. -/
theorem pathfinder_click_invariants (w h : Nat) (hw : 6 ≤ w) (hh : 1 ≤ h)
    (wseed : Pos → Nat) (clicks : List PFClick) :
    (ExactlyOneStart (applyClicks (initializeGrid w h wseed) clicks) ∧
     ExactlyOneEnd (applyClicks (initializeGrid w h wseed) clicks)) ∧
    (∀ (g : Grid) (m : DrawMode) (x y : Int),
      ((g.cell (x, y)).isStart = true ∨ (g.cell (x, y)).isEnd = true) →
      handleCanvasClick g false m x y = g) ∧
    (∀ (g : Grid) (m : DrawMode) (x y : Int), handleCanvasClick g true m x y = g) := by
  refine ⟨?_, ?_, ?_⟩
  · have hm := applyClicks_markers clicks (initializeGrid w h wseed)
    have hdim := hm.1
    have hcell := hm.2
    have hb : ∀ p : Pos, inBounds (applyClicks (initializeGrid w h wseed) clicks) p ↔
        inBounds (initializeGrid w h wseed) p := by
      intro p
      unfold inBounds
      rw [hdim.1, hdim.2]
    constructor
    · refine ⟨((2 : Int), ((h / 2 : Nat) : Int)), ⟨?_, ?_⟩, ?_⟩
      · rw [hb]
        unfold inBounds
        dsimp only [initializeGrid]
        omega
      · rw [(hcell _).1]
        simp [initializeGrid]
      · rintro p ⟨hbp, hsp⟩
        rw [(hcell p).1] at hsp
        simp only [initializeGrid, decide_eq_true_eq] at hsp
        obtain ⟨h1, h2⟩ := hsp
        exact Prod.ext_iff.mpr ⟨h1, h2⟩
    · refine ⟨(((w : Int) - 3), ((h / 2 : Nat) : Int)), ⟨?_, ?_⟩, ?_⟩
      · rw [hb]
        unfold inBounds
        dsimp only [initializeGrid]
        omega
      · rw [(hcell _).2]
        simp [initializeGrid]
      · rintro p ⟨hbp, hsp⟩
        rw [(hcell p).2] at hsp
        simp only [initializeGrid, decide_eq_true_eq] at hsp
        obtain ⟨h1, h2⟩ := hsp
        exact Prod.ext_iff.mpr ⟨h1, h2⟩
  · intro g m x y hse
    unfold handleCanvasClick
    simp only [Bool.false_eq_true, if_false]
    by_cases hbnd : 0 ≤ x ∧ x < (g.width : Int) ∧ 0 ≤ y ∧ y < (g.height : Int)
    · rw [if_pos hbnd, if_neg (by tauto)]
    · rw [if_neg hbnd]
  · intro g m x y
    rfl

/-- **C9, witness.**  The invariants instantiated on the desktop 20×12
grid with the empty click sequence. -/
theorem pathfinder_click_invariants_witness :
    (ExactlyOneStart (applyClicks (initializeGrid 20 12 (fun _ => 1)) []) ∧
     ExactlyOneEnd (applyClicks (initializeGrid 20 12 (fun _ => 1)) [])) ∧
    (∀ (g : Grid) (m : DrawMode) (x y : Int),
      ((g.cell (x, y)).isStart = true ∨ (g.cell (x, y)).isEnd = true) →
      handleCanvasClick g false m x y = g) ∧
    (∀ (g : Grid) (m : DrawMode) (x y : Int), handleCanvasClick g true m x y = g) :=
  pathfinder_click_invariants 20 12 (by decide) (by decide) (fun _ => 1) []

/-! ### Back-pointer chains

`chainWalk` is the abstract `while (pathNode) pathNode = pathNode.previous`
walk; `reconstructPath` additionally counts cells and sums weights.  The
run invariants below show every chain arising in a run is finite. -/

/-- Follow back-pointers, collecting the chain (walk origin first). -/
def chainWalk (prev : Pos → Option Pos) : Nat → Pos → Option (List Pos)
  | 0, _ => none
  | fuel + 1, p =>
    match prev p with
    | none => some [p]
    | some q => (chainWalk prev fuel q).map (p :: ·)

theorem chainWalk_mono (prev : Pos → Option Pos) :
    ∀ fuel fuel' p ch, fuel ≤ fuel' → chainWalk prev fuel p = some ch →
      chainWalk prev fuel' p = some ch := by
  intro fuel
  induction fuel with
  | zero => intro fuel' p ch _ h; simp [chainWalk] at h
  | succ n ih =>
      intro fuel' p ch hle h
      obtain ⟨m, rfl⟩ : ∃ m, fuel' = m + 1 := ⟨fuel' - 1, by omega⟩
      rw [chainWalk] at h ⊢
      cases hp : prev p with
      | none =>
          rw [hp] at h
          exact h
      | some q =>
          rw [hp] at h
          dsimp only at h ⊢
          cases hc : chainWalk prev n q with
          | none => rw [hc] at h; simp at h
          | some ch' =>
              rw [hc] at h
              rw [ih m q ch' (by omega) hc]
              exact h

theorem chainWalk_congr (prev prev' : Pos → Option Pos) :
    ∀ fuel p ch, chainWalk prev fuel p = some ch →
      (∀ x ∈ ch, prev' x = prev x) →
      chainWalk prev' fuel p = some ch := by
  intro fuel
  induction fuel with
  | zero => intro p ch h; simp [chainWalk] at h
  | succ n ih =>
      intro p ch h hagree
      rw [chainWalk] at h ⊢
      cases hp : prev p with
      | none =>
          rw [hp] at h
          dsimp only at h
          have hmem : p ∈ ch := by
            cases h; exact List.mem_singleton_self p
          rw [hagree p hmem, hp]
          exact h
      | some q =>
          rw [hp] at h
          dsimp only at h
          cases hc : chainWalk prev n q with
          | none => rw [hc] at h; simp at h
          | some ch' =>
              rw [hc] at h
              simp at h
              have hmem : p ∈ ch := by rw [← h]; simp
              rw [hagree p hmem, hp]
              dsimp only
              have hsub : ∀ x ∈ ch', x ∈ ch := by
                intro x hx; rw [← h]; simp [hx]
              rw [ih q ch' hc (fun x hx => hagree x (hsub x hx))]
              rw [← h]
              rfl

/-- `reconstructPath` is the chain walk together with the cell count and
the weight sum over the chain. -/
theorem reconstructPath_eq_chainWalk (g : Grid) (prev : Pos → Option Pos) :
    ∀ fuel p,
      reconstructPath g prev fuel p =
        (chainWalk prev fuel p).map
          (fun ch => (ch.length, (ch.map (fun q => (g.cell q).weight)).sum)) := by
  intro fuel
  induction fuel with
  | zero => intro p; rfl
  | succ n ih =>
      intro p
      rw [reconstructPath, chainWalk]
      cases hp : prev p with
      | none => rfl
      | some q =>
          dsimp only
          rw [ih q]
          cases hc : chainWalk prev n q with
          | none => rfl
          | some ch => simp [Nat.add_comm]

/-- In a uniform-weight-1 grid the reconstructed total cost equals the
number of cells on the chain. -/
theorem reconstructPath_uniform (g : Grid) (hg : ∀ p : Pos, (g.cell p).weight = 1)
    (prev : Pos → Option Pos) (fuel : Nat) (p : Pos) (r : Nat × Nat)
    (h : reconstructPath g prev fuel p = some r) : r.2 = r.1 := by
  rw [reconstructPath_eq_chainWalk] at h
  cases hc : chainWalk prev fuel p with
  | none => rw [hc] at h; simp at h
  | some ch =>
      rw [hc] at h
      simp at h
      subst h
      dsimp only
      have : ch.map (fun q => (g.cell q).weight) = ch.map (fun _ => 1) := by
        apply List.map_congr_left
        intro q _
        exact hg q
      rw [this]
      simp [List.map_const]

/-! ### `relaxOne` / `relaxAll` lemmas -/

theorem relaxOne_keeps_finite (g : Grid) (current : Pos) (d : Nat)
    (visited : Pos → Bool) (dp : (Pos → Option Nat) × (Pos → Option Pos))
    (dir : Pos) (p : Pos) (h : dp.1 p ≠ none) :
    (relaxOne g current d visited dp dir).1 p ≠ none := by
  unfold relaxOne
  set n : Pos := (current.1 + dir.1, current.2 + dir.2) with hn
  by_cases hg : inBounds g n ∧ ¬(g.cell n).isWall = true ∧ ¬visited n = true
  · rw [if_pos hg]
    cases hd : dp.1 n with
    | none =>
        by_cases hpn : p = n
        · subst hpn; simp [Function.update_same]
        · simpa [Function.update_noteq hpn] using h
    | some dn =>
        by_cases hlt : d + (g.cell n).weight < dn
        · simp only [hlt, if_true]
          by_cases hpn : p = n
          · subst hpn; simp [Function.update_same]
          · simpa [Function.update_noteq hpn] using h
        · simpa [hlt] using h
  · rwa [if_neg hg]

theorem relaxFold_keeps_finite (g : Grid) (current : Pos) (d : Nat)
    (visited : Pos → Bool) (l : List Pos) :
    ∀ (dp : (Pos → Option Nat) × (Pos → Option Pos)) (p : Pos), dp.1 p ≠ none →
      (l.foldl (relaxOne g current d visited) dp).1 p ≠ none := by
  induction l with
  | nil => intro dp p h; exact h
  | cons dir rest ih =>
      intro dp p h
      rw [List.foldl_cons]
      exact ih _ p (relaxOne_keeps_finite g current d visited dp dir p h)

theorem relaxAll_keeps_finite (g : Grid) (current : Pos) (d : Nat)
    (visited : Pos → Bool) (dist : Pos → Option Nat) (prev : Pos → Option Pos)
    (p : Pos) (h : dist p ≠ none) :
    (relaxAll g current d visited dist prev).1 p ≠ none := by
  unfold relaxAll
  exact relaxFold_keeps_finite g current d visited dirs (dist, prev) p h

theorem relaxOne_sets_neighbor (g : Grid) (current : Pos) (d : Nat)
    (visited : Pos → Bool) (dp : (Pos → Option Nat) × (Pos → Option Pos))
    (dir : Pos)
    (hb : inBounds g (current.1 + dir.1, current.2 + dir.2))
    (hw : ¬(g.cell (current.1 + dir.1, current.2 + dir.2)).isWall = true)
    (hv : ¬visited (current.1 + dir.1, current.2 + dir.2) = true) :
    (relaxOne g current d visited dp dir).1 (current.1 + dir.1, current.2 + dir.2) ≠ none := by
  unfold relaxOne
  set n : Pos := (current.1 + dir.1, current.2 + dir.2) with hn
  rw [if_pos ⟨hb, hw, hv⟩]
  cases hd : dp.1 n with
  | none => simp [Function.update_same]
  | some dn =>
      by_cases hlt : d + (g.cell n).weight < dn
      · simp [hlt, Function.update_same]
      · simp [hlt, hd]

/-- After `relaxAll`, every in-bounds, non-wall, unvisited 4-neighbor of
`current` has a finite distance. -/
theorem relaxAll_neighbor_finite (g : Grid) (current : Pos) (d : Nat)
    (visited : Pos → Bool) (dist : Pos → Option Nat) (prev : Pos → Option Pos)
    (dir : Pos) (hdir : dir ∈ dirs)
    (hb : inBounds g (current.1 + dir.1, current.2 + dir.2))
    (hw : ¬(g.cell (current.1 + dir.1, current.2 + dir.2)).isWall = true)
    (hv : ¬visited (current.1 + dir.1, current.2 + dir.2) = true) :
    (relaxAll g current d visited dist prev).1
      (current.1 + dir.1, current.2 + dir.2) ≠ none := by
  unfold relaxAll
  have main : ∀ (l : List Pos) (dp : (Pos → Option Nat) × (Pos → Option Pos)),
      dir ∈ l → (l.foldl (relaxOne g current d visited) dp).1
        (current.1 + dir.1, current.2 + dir.2) ≠ none := by
    intro l
    induction l with
    | nil => intro dp h; cases h
    | cons dir0 rest ih =>
        intro dp hmem
        rw [List.foldl_cons]
        rcases List.mem_cons.mp hmem with heq | hmem'
        · subst heq
          exact relaxFold_keeps_finite g current d visited rest _ _
            (relaxOne_sets_neighbor g current d visited dp dir hb hw hv)
        · exact ih _ hmem'
  exact main dirs (dist, prev) hdir

theorem relaxOne_prev_cases (g : Grid) (current : Pos) (d : Nat)
    (visited : Pos → Bool) (dp : (Pos → Option Nat) × (Pos → Option Pos))
    (dir : Pos) (p : Pos) :
    (relaxOne g current d visited dp dir).2 p = dp.2 p ∨
    (relaxOne g current d visited dp dir).2 p = some current := by
  unfold relaxOne
  set n : Pos := (current.1 + dir.1, current.2 + dir.2) with hn
  by_cases hg : inBounds g n ∧ ¬(g.cell n).isWall = true ∧ ¬visited n = true
  · rw [if_pos hg]
    cases hd : dp.1 n with
    | none =>
        by_cases hpn : p = n
        · subst hpn; right; simp [Function.update_same]
        · left; simp [Function.update_noteq hpn]
    | some dn =>
        by_cases hlt : d + (g.cell n).weight < dn
        · simp only [hlt, if_true]
          by_cases hpn : p = n
          · subst hpn; right; simp [Function.update_same]
          · left; simp [Function.update_noteq hpn]
        · simp [hlt]
  · rw [if_neg hg]; left; rfl

theorem relaxAll_prev_cases (g : Grid) (current : Pos) (d : Nat)
    (visited : Pos → Bool) (dist : Pos → Option Nat) (prev : Pos → Option Pos)
    (p : Pos) :
    (relaxAll g current d visited dist prev).2 p = prev p ∨
    (relaxAll g current d visited dist prev).2 p = some current := by
  unfold relaxAll
  have main : ∀ (l : List Pos) (dp : (Pos → Option Nat) × (Pos → Option Pos)),
      (l.foldl (relaxOne g current d visited) dp).2 p = dp.2 p ∨
      (l.foldl (relaxOne g current d visited) dp).2 p = some current := by
    intro l
    induction l with
    | nil => intro dp; left; rfl
    | cons dir0 rest ih =>
        intro dp
        rw [List.foldl_cons]
        rcases ih (relaxOne g current d visited dp dir0) with h | h
        · rcases relaxOne_prev_cases g current d visited dp dir0 p with h' | h'
          · left; rw [h, h']
          · right; rw [h, h']
        · right; exact h
  exact main dirs (dist, prev)

/-- `relaxOne` only writes to unvisited cells. -/
theorem relaxOne_visited_unchanged (g : Grid) (current : Pos) (d : Nat)
    (visited : Pos → Bool) (dp : (Pos → Option Nat) × (Pos → Option Pos))
    (dir : Pos) (p : Pos) (hp : visited p = true) :
    (relaxOne g current d visited dp dir).1 p = dp.1 p ∧
    (relaxOne g current d visited dp dir).2 p = dp.2 p := by
  unfold relaxOne
  set n : Pos := (current.1 + dir.1, current.2 + dir.2) with hn
  by_cases hg : inBounds g n ∧ ¬(g.cell n).isWall = true ∧ ¬visited n = true
  · rw [if_pos hg]
    have hpn : p ≠ n := by
      intro he; rw [he] at hp; exact hg.2.2 hp
    cases hd : dp.1 n with
    | none => simp [Function.update_noteq hpn]
    | some dn =>
        by_cases hlt : d + (g.cell n).weight < dn
        · simp [hlt, Function.update_noteq hpn]
        · simp [hlt]
  · rw [if_neg hg]; exact ⟨rfl, rfl⟩

theorem relaxAll_visited_unchanged (g : Grid) (current : Pos) (d : Nat)
    (visited : Pos → Bool) (dist : Pos → Option Nat) (prev : Pos → Option Pos)
    (p : Pos) (hp : visited p = true) :
    (relaxAll g current d visited dist prev).1 p = dist p ∧
    (relaxAll g current d visited dist prev).2 p = prev p := by
  unfold relaxAll
  have main : ∀ (l : List Pos) (dp : (Pos → Option Nat) × (Pos → Option Pos)),
      (l.foldl (relaxOne g current d visited) dp).1 p = dp.1 p ∧
      (l.foldl (relaxOne g current d visited) dp).2 p = dp.2 p := by
    intro l
    induction l with
    | nil => intro dp; exact ⟨rfl, rfl⟩
    | cons dir0 rest ih =>
        intro dp
        rw [List.foldl_cons]
        have h1 := relaxOne_visited_unchanged g current d visited dp dir0 p hp
        have h2 := ih (relaxOne g current d visited dp dir0)
        exact ⟨h2.1.trans h1.1, h2.2.trans h1.2⟩
  exact main dirs (dist, prev)

/-! ### Dijkstra run invariants -/

theorem mem_allPositions (w h : Nat) (p : Pos) :
    p ∈ allPositions w h ↔
      0 ≤ p.1 ∧ p.1 < (w : Int) ∧ 0 ≤ p.2 ∧ p.2 < (h : Int) := by
  unfold allPositions
  rw [List.mem_flatMap]
  constructor
  · rintro ⟨y, hy, hm⟩
    rw [List.mem_map] at hm
    obtain ⟨x, hx, rfl⟩ := hm
    rw [List.mem_range] at hy hx
    refine ⟨?_, ?_, ?_, ?_⟩
    · dsimp only; omega
    · dsimp only; omega
    · dsimp only; omega
    · dsimp only; omega
  · rintro ⟨h1, h2, h3, h4⟩
    refine ⟨p.2.toNat, ?_, ?_⟩
    · rw [List.mem_range]; omega
    · rw [List.mem_map]
      refine ⟨p.1.toNat, by rw [List.mem_range]; omega, ?_⟩
      rw [Prod.ext_iff]
      exact ⟨Int.toNat_of_nonneg h1, Int.toNat_of_nonneg h3⟩

theorem allPositions_nodup (w h : Nat) : (allPositions w h).Nodup := by
  unfold allPositions
  rw [List.nodup_flatMap]
  constructor
  · intro y _
    exact (List.nodup_range w).map (fun a b hab => by simpa using hab)
  · apply (List.pairwise_lt_range h).imp
    intro y y' hlt
    intro a ha ha'
    rw [List.mem_map] at ha ha'
    obtain ⟨x, _, rfl⟩ := ha
    obtain ⟨x', _, heq⟩ := ha'
    have : (y' : Int) = (y : Int) := congrArg Prod.snd heq
    omega

/-- The invariants every reachable state of the `runDijkstra` loop
satisfies. -/
structure DInv (g : Grid) (st : DState) : Prop where
  nodupUnvisited : st.unvisited.Nodup
  visitedNotUnvisited : ∀ p, st.visited p = true → p ∉ st.unvisited
  coverage : ∀ p : Pos, inBounds g p → ¬(g.cell p).isWall = true →
    st.visited p = true ∨ p ∈ st.unvisited
  prevVisited : ∀ p q, st.previous p = some q → st.visited q = true
  visitedFinite : ∀ p, st.visited p = true → st.dist p ≠ none
  chainOK : ∀ p, st.visited p = true →
    ∃ ch, chainWalk st.previous st.visitedCount p = some ch ∧
      ∀ x ∈ ch, st.visited x = true
  frontierFinite : ∀ p, st.visited p = true → ∀ dir ∈ dirs,
    inBounds g (p.1 + dir.1, p.2 + dir.2) →
    ¬(g.cell (p.1 + dir.1, p.2 + dir.2)).isWall = true →
    st.visited (p.1 + dir.1, p.2 + dir.2) = true ∨
      st.dist (p.1 + dir.1, p.2 + dir.2) ≠ none
  noEndVisited : ∀ p, st.visited p = true → ¬(g.cell p).isEnd = true

theorem initDState_inv (g : Grid) : DInv g (initDState g) := by
  refine ⟨?_, ?_, ?_, ?_, ?_, ?_, ?_, ?_⟩
  · exact (allPositions_nodup g.width g.height).filter _
  · intro p hp; simp [initDState] at hp
  · intro p hb hw
    right
    simp only [initDState, List.mem_filter, Bool.not_eq_true']
    exact ⟨(mem_allPositions _ _ p).mpr ⟨hb.1, hb.2.1, hb.2.2.1, hb.2.2.2⟩,
      by simpa using hw⟩
  · intro p q hp; simp [initDState] at hp
  · intro p hp; simp [initDState] at hp
  · intro p hp; simp [initDState] at hp
  · intro p hp; simp [initDState] at hp
  · intro p hp; simp [initDState] at hp

/-- Characterization of a loop iteration that continues. -/
theorem dijkstraStep_inl_spec (g : Grid) (prior : PriorStats) (st st' : DState)
    (h : dijkstraStep g prior st = Sum.inl st') :
    ∃ current rest d,
      sortByDist st.dist st.unvisited = current :: rest ∧
      st.dist current = some d ∧
      (g.cell current).isEnd = false ∧
      st'.unvisited = rest ∧
      st'.visited = Function.update st.visited current true ∧
      st'.visitedCount = st.visitedCount + 1 ∧
      st'.visitOrder = st.visitOrder ++ [current] ∧
      st'.dist = (relaxAll g current d (Function.update st.visited current true)
        st.dist st.previous).1 ∧
      st'.previous = (relaxAll g current d (Function.update st.visited current true)
        st.dist st.previous).2 := by
  unfold dijkstraStep at h
  cases hs : sortByDist st.dist st.unvisited with
  | nil => rw [hs] at h; simp at h
  | cons current rest =>
      rw [hs] at h
      dsimp only at h
      cases hd : st.dist current with
      | none => rw [hd] at h; simp at h
      | some d =>
          rw [hd] at h
          dsimp only at h
          by_cases he : (g.cell current).isEnd = true
          · rw [if_pos he] at h
            cases hr : reconstructPath g st.previous (st.visitedCount + 1) current with
            | none => rw [hr] at h; simp at h
            | some r => rw [hr] at h; simp at h
          · rw [if_neg he] at h
            simp only [Sum.inl.injEq] at h
            refine ⟨current, rest, d, rfl, hd, by simpa using he, ?_, ?_, ?_, ?_, ?_, ?_⟩ <;>
              rw [← h]

theorem visited_mono (visited : Pos → Bool) (current p : Pos) (h : visited p = true) :
    Function.update visited current true p = true := by
  by_cases hp : p = current
  · subst hp; simp [Function.update_same]
  · rwa [Function.update_noteq hp]

/-- Walking the back-pointers from any cell succeeds within
`visitedCount + 1` steps in an invariant-respecting state. -/
theorem reconstruct_current_some (g : Grid) (st : DState) (hinv : DInv g st)
    (current : Pos) :
    reconstructPath g st.previous (st.visitedCount + 1) current ≠ none := by
  rw [reconstructPath_eq_chainWalk, chainWalk]
  cases hp : st.previous current with
  | none => simp
  | some q =>
      have hq := hinv.prevVisited current q hp
      obtain ⟨ch, hch, _⟩ := hinv.chainOK q hq
      dsimp only
      rw [hch]
      simp

/-- With the invariants in force, a loop iteration never gets stuck in
reconstruction. -/
theorem dijkstraStep_no_stuck (g : Grid) (prior : PriorStats) (st : DState)
    (hinv : DInv g st) : dijkstraStep g prior st ≠ Sum.inr none := by
  unfold dijkstraStep
  cases hs : sortByDist st.dist st.unvisited with
  | nil => simp
  | cons current rest =>
      dsimp only
      cases hd : st.dist current with
      | none => simp
      | some d =>
          dsimp only
          by_cases he : (g.cell current).isEnd = true
          · rw [if_pos he]
            cases hr : reconstructPath g st.previous (st.visitedCount + 1) current with
            | none => exact absurd hr (reconstruct_current_some g st hinv current)
            | some r => simp
          · rw [if_neg he]
            simp

/-- A continuing iteration preserves the invariants and shrinks the
unvisited list by exactly one cell. -/
theorem dijkstraStep_inl_inv (g : Grid) (prior : PriorStats) (st st' : DState)
    (hinv : DInv g st) (h : dijkstraStep g prior st = Sum.inl st') :
    DInv g st' ∧ st'.unvisited.length + 1 = st.unvisited.length := by
  obtain ⟨current, rest, d, hs, hd, hend, hu, hv, hc, ho, hdist, hprev⟩ :=
    dijkstraStep_inl_spec g prior st st' h
  have hperm : List.Perm (sortByDist st.dist st.unvisited) st.unvisited :=
    List.perm_insertionSort (distLEP st.dist) st.unvisited
  have hsnodup : (current :: rest).Nodup := by
    rw [← hs]
    exact (hperm.nodup_iff).mpr hinv.nodupUnvisited
  have hcur_mem : current ∈ st.unvisited := by
    apply hperm.subset
    rw [hs]
    exact List.mem_cons_self current rest
  have hrest_sub : ∀ x ∈ rest, x ∈ st.unvisited := by
    intro x hx
    apply hperm.subset
    rw [hs]
    exact List.mem_cons_of_mem _ hx
  have hcur_unvis : st.visited current = false := by
    cases hcv : st.visited current with
    | false => rfl
    | true => exact absurd hcur_mem (hinv.visitedNotUnvisited current hcv)
  have hVmono : ∀ p, st.visited p = true → st'.visited p = true := by
    intro p hp
    rw [hv]
    exact visited_mono st.visited current p hp
  have hVcases : ∀ p, st'.visited p = true → p = current ∨ st.visited p = true := by
    intro p hp
    rw [hv] at hp
    by_cases hpc : p = current
    · exact Or.inl hpc
    · right; rwa [Function.update_noteq hpc] at hp
  have hVnot : ∀ p, st'.visited p = true → p ≠ current → st.visited p = true := by
    intro p hp hpc
    rcases hVcases p hp with h' | h'
    · exact absurd h' hpc
    · exact h'
  have hDistKeep : ∀ p, st.dist p ≠ none → st'.dist p ≠ none := by
    intro p hp
    rw [hdist]
    exact relaxAll_keeps_finite g current d _ st.dist st.previous p hp
  have hVisUnch : ∀ p, st'.visited p = true →
      st'.dist p = st.dist p ∧ st'.previous p = st.previous p := by
    intro p hp
    rw [hdist, hprev]
    have hp' : Function.update st.visited current true p = true := by rw [← hv]; exact hp
    exact relaxAll_visited_unchanged g current d _ st.dist st.previous p hp'
  refine ⟨⟨?_, ?_, ?_, ?_, ?_, ?_, ?_, ?_⟩, ?_⟩
  · rw [hu]; exact hsnodup.of_cons
  · intro p hp
    rw [hu]
    rcases hVcases p hp with rfl | hpv
    · exact (List.nodup_cons.mp hsnodup).1
    · intro hmem
      exact hinv.visitedNotUnvisited p hpv (hrest_sub p hmem)
  · intro p hb hw
    rcases hinv.coverage p hb hw with hpv | hpm
    · exact Or.inl (hVmono p hpv)
    · have : p ∈ current :: rest := by rw [← hs]; exact hperm.symm.subset hpm
      rcases List.mem_cons.mp this with rfl | hpr
      · left; rw [hv]; simp [Function.update_same]
      · right; rw [hu]; exact hpr
  · intro p q hpq
    rw [hprev] at hpq
    rcases relaxAll_prev_cases g current d _ st.dist st.previous p with hcase | hcase
    · rw [hcase] at hpq
      exact hVmono q (hinv.prevVisited p q hpq)
    · rw [hcase] at hpq
      cases hpq
      rw [hv]; simp [Function.update_same]
  · intro p hp
    rcases hVcases p hp with rfl | hpv
    · rw [(hVisUnch p hp).1, hd]; simp
    · exact hDistKeep p (hinv.visitedFinite p hpv)
  · intro p hp
    rcases hVcases p hp with rfl | hpv
    · -- the freshly visited cell: the chain is itself prepended to its
      -- predecessor's chain
      have hpc : st'.previous p = st.previous p := (hVisUnch p hp).2
      cases hq : st.previous p with
      | none =>
          refine ⟨[p], ?_, by intro x hx; rw [List.mem_singleton] at hx; subst hx; exact hp⟩
          rw [hc, chainWalk, hpc, hq]
      | some q =>
          have hqv := hinv.prevVisited p q hq
          obtain ⟨ch, hch, hchv⟩ := hinv.chainOK q hqv
          have hch' : chainWalk st'.previous st.visitedCount q = some ch :=
            chainWalk_congr st.previous st'.previous st.visitedCount q ch hch
              (fun x hx => ((hVisUnch x (hVmono x (hchv x hx))).2).symm ▸ rfl)
          refine ⟨p :: ch, ?_, ?_⟩
          · rw [hc, chainWalk, hpc, hq]
            dsimp only
            rw [hch']
            rfl
          · intro x hx
            rcases List.mem_cons.mp hx with rfl | hxch
            · exact hp
            · exact hVmono x (hchv x hxch)
    · obtain ⟨ch, hch, hchv⟩ := hinv.chainOK p hpv
      have hch' : chainWalk st'.previous st.visitedCount p = some ch :=
        chainWalk_congr st.previous st'.previous st.visitedCount p ch hch
          (fun x hx => ((hVisUnch x (hVmono x (hchv x hx))).2).symm ▸ rfl)
      refine ⟨ch, ?_, fun x hx => hVmono x (hchv x hx)⟩
      rw [hc]
      exact chainWalk_mono st'.previous st.visitedCount (st.visitedCount + 1) p ch
        (by omega) hch'
  · intro p hp dir hdir hb hw
    rcases hVcases p hp with rfl | hpv
    · by_cases hn : st'.visited (p.1 + dir.1, p.2 + dir.2) = true
      · exact Or.inl hn
      · right
        rw [hdist]
        apply relaxAll_neighbor_finite g p d _ st.dist st.previous dir hdir hb hw
        rw [← hv]
        simpa using hn
    · rcases hinv.frontierFinite p hpv dir hdir hb hw with hnv | hnd
      · exact Or.inl (hVmono _ hnv)
      · exact Or.inr (hDistKeep _ hnd)
  · intro p hp
    rcases hVcases p hp with rfl | hpv
    · simpa using hend
    · exact hinv.noEndVisited p hpv
  · rw [hu]
    have := hperm.length_eq
    rw [hs] at this
    simpa using this

/-- The loop terminates with an explicit outcome whenever the fuel
exceeds the unvisited count — in particular with the exact fuel
`runDijkstra` supplies. -/
theorem runDijkstraGo_some (g : Grid) (prior : PriorStats) :
    ∀ fuel st, DInv g st → st.unvisited.length < fuel →
      ∃ r, runDijkstraGo g prior fuel st = some r := by
  intro fuel
  induction fuel with
  | zero => intro st _ hlen; omega
  | succ n ih =>
      intro st hinv hlen
      rw [runDijkstraGo]
      cases hstep : dijkstraStep g prior st with
      | inr r =>
          cases r with
          | some out => exact ⟨out, rfl⟩
          | none => exact absurd hstep (dijkstraStep_no_stuck g prior st hinv)
      | inl st' =>
          obtain ⟨hinv', hlen'⟩ := dijkstraStep_inl_inv g prior st st' hinv hstep
          exact ih st' hinv' (by omega)

/-- Every `runDijkstra` run terminates in an explicit final state. -/
theorem runDijkstra_total (g : Grid) (prior : PriorStats) :
    ∃ r, runDijkstra g prior = some r := by
  unfold runDijkstra
  cases hf : findStart g with
  | none => exact ⟨_, rfl⟩
  | some s =>
      exact runDijkstraGo_some g prior ((initDState g).unvisited.length + 1)
        (initDState g) (initDState_inv g) (by omega)

/-! ### Completeness: a connected start–end pair is found -/

/-- One 4-directional move of the grid. -/
def adjStep (p n : Pos) : Prop :=
  ∃ dir ∈ dirs, n = (p.1 + dir.1, p.2 + dir.2)

instance (p n : Pos) : Decidable (adjStep p n) :=
  inferInstanceAs (Decidable (∃ dir ∈ dirs, n = (p.1 + dir.1, p.2 + dir.2)))

/-- A walk: nonempty, consecutive cells 4-adjacent, every cell in bounds
and unblocked. -/
def IsWalk (g : Grid) (l : List Pos) : Prop :=
  l ≠ [] ∧ l.Chain' adjStep ∧ ∀ p ∈ l, inBounds g p ∧ (g.cell p).isWall = false

instance (g : Grid) (l : List Pos) : Decidable (IsWalk g l) :=
  inferInstanceAs (Decidable
    (l ≠ [] ∧ l.Chain' adjStep ∧ ∀ p ∈ l, inBounds g p ∧ (g.cell p).isWall = false))

/-- The loop's progress witness: a walk to an end cell whose first cell
is still unvisited with a finite distance. -/
def WalkToEnd (g : Grid) (st : DState) : Prop :=
  ∃ l u e, IsWalk g l ∧ l.head? = some u ∧ l.getLast? = some e ∧
    u ∈ st.unvisited ∧ st.dist u ≠ none ∧ (g.cell e).isEnd = true

/-- Recover a witness from any walk to an end cell whose head is either
visited or ready: walk forward past the visited prefix. -/
theorem walk_witness_update (g : Grid) (st : DState) (hinv : DInv g st) :
    ∀ l : List Pos, IsWalk g l →
      (∀ e, l.getLast? = some e → (g.cell e).isEnd = true) →
      (∀ u, l.head? = some u →
        st.visited u = true ∨ (u ∈ st.unvisited ∧ st.dist u ≠ none)) →
      WalkToEnd g st := by
  intro l
  induction l with
  | nil => intro hw; exact absurd rfl hw.1
  | cons u l2 ih =>
      intro hw hend hhead
      rcases hhead u rfl with hvis | hgood
      · cases l2 with
        | nil => exact absurd (hend u rfl) (hinv.noEndVisited u hvis)
        | cons v l3 =>
            have hchain := hw.2.1
            rw [List.chain'_cons] at hchain
            obtain ⟨dir, hdir, hveq⟩ := hchain.1
            have hvmem : v ∈ u :: v :: l3 := by simp
            have hvcond := hw.2.2 v hvmem
            have hnext : st.visited v = true ∨ (v ∈ st.unvisited ∧ st.dist v ≠ none) := by
              have hff := hinv.frontierFinite u hvis dir hdir
                (by rw [← hveq]; exact hvcond.1)
                (by rw [← hveq]; simp [hvcond.2])
              rw [← hveq] at hff
              rcases hff with hv | hd
              · exact Or.inl hv
              · cases hvv : st.visited v with
                | true => exact Or.inl rfl
                | false =>
                    right
                    refine ⟨?_, hd⟩
                    rcases hinv.coverage v hvcond.1 (by simp [hvcond.2]) with hv' | hm
                    · rw [hvv] at hv'; cases hv'
                    · exact hm
            apply ih
            · refine ⟨by simp, hchain.2, ?_⟩
              intro p hp
              exact hw.2.2 p (by simp [hp])
            · intro e he
              apply hend
              rwa [List.getLast?_cons_cons]
            · intro u' hu'
              rw [List.head?_cons, Option.some.injEq] at hu'
              subst hu'
              exact hnext
      · obtain ⟨e, he⟩ : ∃ e, (u :: l2).getLast? = some e := by
          cases hl : (u :: l2).getLast? with
          | none => simp at hl
          | some e => exact ⟨e, rfl⟩
        exact ⟨u :: l2, u, e, hw, rfl, he, hgood.1, hgood.2, hend e he⟩

/-- Under the invariants and a progress witness, an iteration either
finds the end (with a successfully reconstructed path) or continues with
the witness maintained. -/
theorem dijkstraStep_progress (g : Grid) (prior : PriorStats) (st : DState)
    (hinv : DInv g st) (hwit : WalkToEnd g st) :
    (∃ out pr, dijkstraStep g prior st = Sum.inr (some out) ∧
      out.gameCompleted = true ∧ out.pathLength = pr.1 ∧ out.totalDistance = pr.2 ∧
      ∃ pv fl c, reconstructPath g pv fl c = some pr) ∨
    (∃ st', dijkstraStep g prior st = Sum.inl st' ∧ WalkToEnd g st') := by
  obtain ⟨l, u, e, hwalk, hhead, hlast, humem, hufin, hisend⟩ := hwit
  cases hs : sortByDist st.dist st.unvisited with
  | nil =>
      exfalso
      have hperm : List.Perm (sortByDist st.dist st.unvisited) st.unvisited :=
        List.perm_insertionSort (distLEP st.dist) st.unvisited
      rw [hs] at hperm
      rw [hperm.symm.eq_nil] at humem
      cases humem
  | cons c rest =>
      have hsorted := List.sorted_insertionSort (distLEP st.dist) st.unvisited
      rw [show List.insertionSort (distLEP st.dist) st.unvisited =
        sortByDist st.dist st.unvisited from rfl, hs] at hsorted
      have hperm : List.Perm (sortByDist st.dist st.unvisited) st.unvisited :=
        List.perm_insertionSort (distLEP st.dist) st.unvisited
      rw [hs] at hperm
      have humem' : u ∈ c :: rest := hperm.symm.subset humem
      have hcfin : st.dist c ≠ none := by
        rcases List.mem_cons.mp humem' with rfl | hur
        · exact hufin
        · have hle := (List.sorted_cons.mp hsorted).1 u hur
          unfold distLEP distLE at hle
          cases hdc : st.dist c with
          | none =>
              cases hdu : st.dist u with
              | none => exact absurd hdu hufin
              | some du => rw [hdc, hdu] at hle; simp at hle
          | some dc => simp
      obtain ⟨d, hd⟩ : ∃ d, st.dist c = some d := by
        cases hdc : st.dist c with
        | none => exact absurd hdc hcfin
        | some dc => exact ⟨dc, rfl⟩
      by_cases hce : (g.cell c).isEnd = true
      · left
        cases hr : reconstructPath g st.previous (st.visitedCount + 1) c with
        | none => exact absurd hr (reconstruct_current_some g st hinv c)
        | some pr =>
            refine ⟨⟨st.visitedCount + 1, pr.1, pr.2, true, false,
              st.visitOrder ++ [c]⟩, pr, ?_, rfl, rfl, rfl,
              st.previous, st.visitedCount + 1, c, hr⟩
            unfold dijkstraStep
            rw [hs]
            dsimp only
            rw [hd]
            dsimp only
            rw [if_pos hce, hr]
      · right
        set stNew : DState :=
          ⟨rest,
           (relaxAll g c d (Function.update st.visited c true) st.dist st.previous).1,
           (relaxAll g c d (Function.update st.visited c true) st.dist st.previous).2,
           Function.update st.visited c true,
           st.visitedCount + 1,
           st.visitOrder ++ [c]⟩ with hstNew
        have hstep : dijkstraStep g prior st = Sum.inl stNew := by
          unfold dijkstraStep
          rw [hs]
          dsimp only
          rw [hd]
          dsimp only
          rw [if_neg hce]
        refine ⟨stNew, hstep, ?_⟩
        have hinv' := (dijkstraStep_inl_inv g prior st stNew hinv hstep).1
        apply walk_witness_update g stNew hinv' l hwalk
        · intro e' he'
          rw [hlast] at he'
          cases he'
          exact hisend
        · intro u' hu'
          rw [hhead] at hu'
          cases hu'
          by_cases huc : u = c
          · left
            subst huc
            show Function.update st.visited u true u = true
            simp [Function.update_same]
          · right
            constructor
            · show u ∈ rest
              rcases List.mem_cons.mp humem' with h' | h'
              · exact absurd h' huc
              · exact h'
            · show (relaxAll g c d (Function.update st.visited c true)
                st.dist st.previous).1 u ≠ none
              exact relaxAll_keeps_finite g c d _ st.dist st.previous u hufin

/-- With a progress witness, the loop completes the game. -/
theorem runDijkstraGo_complete (g : Grid) (prior : PriorStats) :
    ∀ fuel st, DInv g st → WalkToEnd g st → st.unvisited.length < fuel →
      ∃ r pr, runDijkstraGo g prior fuel st = some r ∧ r.gameCompleted = true ∧
        r.pathLength = pr.1 ∧ r.totalDistance = pr.2 ∧
        ∃ pv fl c, reconstructPath g pv fl c = some pr := by
  intro fuel
  induction fuel with
  | zero => intro st _ _ hlen; omega
  | succ n ih =>
      intro st hinv hwit hlen
      rw [runDijkstraGo]
      rcases dijkstraStep_progress g prior st hinv hwit with
        ⟨out, pr, hstep, hgc, hlen', htot, hrec⟩ | ⟨st', hstep, hwit'⟩
      · rw [hstep]
        exact ⟨out, pr, rfl, hgc, hlen', htot, hrec⟩
      · rw [hstep]
        obtain ⟨hinv', hlen'⟩ := dijkstraStep_inl_inv g prior st st' hinv hstep
        exact ih st' hinv' hwit' (by omega)

/-- **C2, amended.**  On every grid whose cells all have weight 1 and
whose start and end are joined by an unblocked walk, the run completes
and reports a total cost equal to the path length — the sum of the
weights of *all* cells on the back-pointer chain, start included (so a
9-cell path has length 9 and cost 9, not 8). -/
theorem dijkstra_uniform_cost (g : Grid) (prior : PriorStats)
    (huni : ∀ p : Pos, (g.cell p).weight = 1)
    (hconn : ∃ l s e, IsWalk g l ∧ l.head? = some s ∧ (g.cell s).isStart = true ∧
      l.getLast? = some e ∧ (g.cell e).isEnd = true) :
    ∃ r, runDijkstra g prior = some r ∧ r.gameCompleted = true ∧
      r.totalDistance = r.pathLength := by
  obtain ⟨l, s, e, hwalk, hhead, hstart, hlast, hend⟩ := hconn
  have hsmem : s ∈ l := by
    cases l with
    | nil => simp at hhead
    | cons a l2 => rw [List.head?_cons, Option.some.injEq] at hhead; subst hhead; simp
  have hscond := hwalk.2.2 s hsmem
  have hfind : ∃ p, findStart g = some p := by
    cases hf : findStart g with
    | some p => exact ⟨p, rfl⟩
    | none =>
        exfalso
        unfold findStart at hf
        rw [List.find?_eq_none] at hf
        have hsmem2 : s ∈ allPositions g.width g.height :=
          (mem_allPositions _ _ s).mpr
            ⟨hscond.1.1, hscond.1.2.1, hscond.1.2.2.1, hscond.1.2.2.2⟩
        have h2 := hf s hsmem2
        rw [hstart] at h2
        simp at h2
  obtain ⟨p0, hp0⟩ := hfind
  have hwit : WalkToEnd g (initDState g) := by
    refine ⟨l, s, e, hwalk, hhead, hlast, ?_, ?_, hend⟩
    · simp only [initDState, List.mem_filter]
      exact ⟨(mem_allPositions _ _ s).mpr ⟨hscond.1.1, hscond.1.2.1,
        hscond.1.2.2.1, hscond.1.2.2.2⟩, by simp [hscond.2]⟩
    · simp only [initDState]
      rw [hstart]
      simp
  obtain ⟨r, pr, hgo, hgc, hplen, htot, pv, fl, c, hrec⟩ :=
    runDijkstraGo_complete g prior ((initDState g).unvisited.length + 1)
      (initDState g) (initDState_inv g) hwit (by omega)
  refine ⟨r, ?_, hgc, ?_⟩
  · unfold runDijkstra
    rw [hp0]
    exact hgo
  · rw [hplen, htot]
    exact reconstructPath_uniform g huni pv fl c pr hrec

/-- **C2, amended, witness.**  The 2×1 uniform grid: the walk
`[(0,0), (1,0)]` joins start and end; the run completes with equal cost
and length. -/
theorem dijkstra_uniform_cost_witness :
    ∃ r, runDijkstra grid21 freshStats = some r ∧ r.gameCompleted = true ∧
      r.totalDistance = r.pathLength :=
  dijkstra_uniform_cost grid21 freshStats (fun _ => rfl)
    ⟨[((0 : Int), (0 : Int)), ((1 : Int), (0 : Int))], ((0 : Int), (0 : Int)),
      ((1 : Int), (0 : Int)),
      ⟨by decide, by rw [List.chain'_pair]; decide, by decide⟩,
      rfl, by decide, by decide, by decide⟩

/-! ## Maze solver BFS / DFS (`runBFS` / `runDFS`, `MazeSolver.tsx`)

`runBFS` and `runDFS` are identical except for the side of the frontier
array they remove from (`queue.shift()` versus `stack.pop()`); they are
embedded as one function over that choice.  The search always begins at
cell `(1, 1)` as in the source. -/

/-- Persistent maze data: dimensions, walls and the end marker (the
start is the fixed cell `(1, 1)`). -/
structure Maze where
  width : Nat
  height : Nat
  isWall : Pos → Bool
  isEnd : Pos → Bool

/-- The maze bounds check of `getNeighbors`. -/
def mazeInBounds (m : Maze) (p : Pos) : Prop :=
  0 ≤ p.1 ∧ p.1 < (m.width : Int) ∧ 0 ≤ p.2 ∧ p.2 < (m.height : Int)

instance (m : Maze) (p : Pos) : Decidable (mazeInBounds m p) :=
  inferInstanceAs (Decidable
    (0 ≤ p.1 ∧ p.1 < (m.width : Int) ∧ 0 ≤ p.2 ∧ p.2 < (m.height : Int)))

/-- One `directions.forEach` iteration of `getNeighbors`: push the
in-direction neighbor if it is in bounds, non-wall and unvisited. -/
def nbStep (m : Maze) (visited : Pos → Bool) (c : Pos) (acc : List Pos) (dir : Pos) :
    List Pos :=
  let n : Pos := (c.1 + dir.1, c.2 + dir.2)
  if mazeInBounds m n ∧ ¬m.isWall n = true ∧ ¬visited n = true
  then acc ++ [n] else acc

/-- `getNeighbors`: the in-bounds, non-wall, unvisited 4-neighbors of a
cell, in the order up, right, down, left. -/
def mazeNeighbors (m : Maze) (visited : Pos → Bool) (c : Pos) : List Pos :=
  dirs.foldl (nbStep m visited c) []

/-- Run-local search state: the frontier array, parent map, visited
flags and visit counter. -/
structure SState where
  queue : List Pos
  parent : Pos → Option Pos
  visited : Pos → Bool
  visitedCount : Nat

/-- The maze statistics a run only overwrites on success. -/
structure MazePrior where
  pathLength : Nat
  gameCompleted : Bool
deriving DecidableEq, Repr

/-- Observable outcome of a search run: final `visitedCount`,
`pathLength`, `gameCompleted`, and the chain of cells marked `isPath`
(empty unless the end was reached, since the run resets them). -/
structure SOutcome where
  visitedCount : Nat
  pathLength : Nat
  gameCompleted : Bool
  path : List Pos
deriving DecidableEq, Repr

/-- The `neighbors.forEach` parent assignment: each pushed neighbor's
parent is set to the current cell. -/
def parentFold (current : Pos) (pr : Pos → Option Pos) (nbs : List Pos) :
    Pos → Option Pos :=
  nbs.foldl (fun pr nb => Function.update pr nb (some current)) pr

/-- One iteration of the BFS/DFS `while` loop.  `lifo = false` removes
from the front (`shift`, BFS); `lifo = true` removes from the back
(`pop`, DFS).  `inr none` marks a stuck back-pointer walk, shown
impossible below. -/
def searchStep (m : Maze) (lifo : Bool) (prior : MazePrior) (st : SState) :
    Sum SState (Option SOutcome) :=
  match st.queue with
  | [] => Sum.inr (some ⟨st.visitedCount, prior.pathLength, prior.gameCompleted, []⟩)
  | c :: cs =>
    let current := if lifo then (c :: cs).getLast (List.cons_ne_nil c cs) else c
    let rest := if lifo then (c :: cs).dropLast else cs
    if st.visited current then Sum.inl { st with queue := rest }
    else
      let visited' := Function.update st.visited current true
      let vc := st.visitedCount + 1
      if m.isEnd current then
        match chainWalk st.parent vc current with
        | none => Sum.inr none
        | some ch => Sum.inr (some ⟨vc, ch.length, true, ch⟩)
      else
        let nbs := mazeNeighbors m visited' current
        Sum.inl ⟨rest ++ nbs, parentFold current st.parent nbs, visited', vc⟩

/-- Run the search loop with the given fuel. -/
def runSearchGo (m : Maze) (lifo : Bool) (prior : MazePrior) :
    Nat → SState → Option SOutcome
  | 0, _ => none
  | fuel + 1, st =>
    match searchStep m lifo prior st with
    | Sum.inr r => r
    | Sum.inl st' => runSearchGo m lifo prior fuel st'

/-- An upper bound on the loop's iteration count (proved below). -/
def searchFuel (m : Maze) : Nat := 5 * (m.width * m.height) + 2

/-- The initial search state: frontier `[(1, 1)]`, no parents, nothing
visited. -/
def initSState : SState := ⟨[((1 : Int), (1 : Int))], fun _ => none, fun _ => false, 0⟩

/-- A full search run from `(1, 1)`. -/
def runSearch (m : Maze) (lifo : Bool) (prior : MazePrior) : Option SOutcome :=
  runSearchGo m lifo prior (searchFuel m) initSState

/-- `runBFS`: FIFO frontier. -/
def runBFS (m : Maze) (prior : MazePrior) : Option SOutcome := runSearch m false prior

/-- `runDFS`: LIFO frontier. -/
def runDFS (m : Maze) (prior : MazePrior) : Option SOutcome := runSearch m true prior

/-- A 3×3 maze whose only open cell is the start `(1, 1)`: the frontier
empties without reaching any end cell. -/
def mazeBlocked : Maze :=
  ⟨3, 3, fun p => decide (p ≠ ((1 : Int), (1 : Int))),
    fun p => decide (p = ((2 : Int), (2 : Int)))⟩

/-- A 3×1 grid whose middle cell is a wall: start `(0,0)`, end `(2,0)`
unreachable, so the loop breaks on an infinite minimum distance. -/
def gridBlocked : Grid :=
  ⟨3, 1, fun p =>
    ⟨decide (p = ((1 : Int), (0 : Int))), decide (p = ((0 : Int), (0 : Int))),
     decide (p = ((2 : Int), (0 : Int))), 1⟩⟩

/-! ### Search termination invariants -/

theorem mazeNeighbors_spec (m : Maze) (visited : Pos → Bool) (c : Pos) :
    (mazeNeighbors m visited c).length ≤ dirs.length ∧
    ∀ n ∈ mazeNeighbors m visited c,
      mazeInBounds m n ∧ m.isWall n = false ∧ visited n = false := by
  unfold mazeNeighbors
  have main : ∀ (l acc : List Pos),
      ((l.foldl (nbStep m visited c) acc).length ≤ acc.length + l.length) ∧
      ∀ n ∈ l.foldl (nbStep m visited c) acc, n ∈ acc ∨
        (mazeInBounds m n ∧ m.isWall n = false ∧ visited n = false) := by
    intro l
    induction l with
    | nil => intro acc; exact ⟨by simp, fun n hn => Or.inl hn⟩
    | cons dir rest ih =>
        intro acc
        rw [List.foldl_cons]
        constructor
        · calc ((rest.foldl (nbStep m visited c) (nbStep m visited c acc dir)).length)
              ≤ (nbStep m visited c acc dir).length + rest.length := (ih _).1
            _ ≤ acc.length + (dir :: rest).length := by
                have hlen : (nbStep m visited c acc dir).length ≤ acc.length + 1 := by
                  unfold nbStep
                  dsimp only
                  split
                  · simp
                  · simp
                simp only [List.length_cons]
                omega
        · intro n hn
          rcases (ih _).2 n hn with hacc | hgood
          · unfold nbStep at hacc
            dsimp only at hacc
            by_cases hg : mazeInBounds m (c.1 + dir.1, c.2 + dir.2) ∧
                ¬m.isWall (c.1 + dir.1, c.2 + dir.2) = true ∧
                ¬visited (c.1 + dir.1, c.2 + dir.2) = true
            · rw [if_pos hg] at hacc
              rcases List.mem_append.mp hacc with h' | h'
              · exact Or.inl h'
              · rw [List.mem_singleton] at h'
                subst h'
                exact Or.inr ⟨hg.1, by simpa using hg.2.1, by simpa using hg.2.2⟩
            · rw [if_neg hg] at hacc
              exact Or.inl hacc
          · exact Or.inr hgood
  refine ⟨by simpa using (main dirs []).1, ?_⟩
  intro n hn
  rcases (main dirs []).2 n hn with h | h
  · cases h
  · exact h

theorem parentFold_cases (current : Pos) (pr : Pos → Option Pos) (nbs : List Pos)
    (p : Pos) :
    parentFold current pr nbs p = pr p ∨ parentFold current pr nbs p = some current := by
  unfold parentFold
  induction nbs generalizing pr with
  | nil => exact Or.inl rfl
  | cons nb rest ih =>
      rw [List.foldl_cons]
      rcases ih (Function.update pr nb (some current)) with h | h
      · rw [h]
        by_cases hpn : p = nb
        · subst hpn; right; simp [Function.update_same]
        · left; simp [Function.update_noteq hpn]
      · exact Or.inr h

theorem parentFold_not_mem (current : Pos) (pr : Pos → Option Pos) (nbs : List Pos)
    (p : Pos) (hp : p ∉ nbs) : parentFold current pr nbs p = pr p := by
  unfold parentFold
  induction nbs generalizing pr with
  | nil => rfl
  | cons nb rest ih =>
      rw [List.foldl_cons]
      rw [ih (Function.update pr nb (some current)) (fun hx => hp (by simp [hx]))]
      have hpn : p ≠ nb := fun he => hp (by simp [he])
      simp [Function.update_noteq hpn]

/-- Removing one present element from the filtered count. -/
theorem length_filter_update (l : List Pos) (hnd : l.Nodup) (p0 : Pos)
    (hp0 : p0 ∈ l) (visited : Pos → Bool) (h : visited p0 = false) :
    (l.filter (fun p => !(Function.update visited p0 true p))).length + 1 =
    (l.filter (fun p => !visited p)).length := by
  induction l with
  | nil => cases hp0
  | cons x xs ih =>
      rw [List.nodup_cons] at hnd
      rcases List.mem_cons.mp hp0 with heq | hmem
      · rw [← heq] at hnd ⊢
        rw [List.filter_cons, List.filter_cons]
        have h1 : (!(Function.update visited p0 true p0)) = false := by
          simp [Function.update_same]
        have h2 : (!visited p0) = true := by simp [h]
        rw [h1, h2]
        simp only [if_false, Bool.false_eq_true, if_true, List.length_cons]
        have hsame : xs.filter (fun p => !(Function.update visited p0 true p)) =
            xs.filter (fun p => !visited p) := by
          apply List.filter_congr
          intro p hp
          have hpx : p ≠ p0 := fun he => hnd.1 (he ▸ hp)
          simp [Function.update_noteq hpx]
        rw [hsame]
      · rw [List.filter_cons, List.filter_cons]
        have hxp : x ≠ p0 := fun he => hnd.1 (he ▸ hmem)
        have heq : (!(Function.update visited p0 true x)) = (!visited x) := by
          simp [Function.update_noteq hxp]
        rw [heq]
        cases hvx : (!visited x) with
        | true => simpa using ih hnd.2 hmem
        | false => exact ih hnd.2 hmem

/-- Count of in-bounds cells not yet visited. -/
def uRem (m : Maze) (visited : Pos → Bool) : Nat :=
  ((allPositions m.width m.height).filter (fun p => !visited p)).length

/-- Loop measure: five per unvisited cell plus the frontier length. -/
def sMeasure (m : Maze) (st : SState) : Nat := 5 * uRem m st.visited + st.queue.length

/-- The invariants of every reachable search state. -/
structure SInv (m : Maze) (st : SState) : Prop where
  queueBounds : ∀ p ∈ st.queue, mazeInBounds m p
  parentVisited : ∀ p q, st.parent p = some q → st.visited q = true
  chainOK : ∀ p, st.visited p = true →
    ∃ ch, chainWalk st.parent st.visitedCount p = some ch ∧
      ∀ x ∈ ch, st.visited x = true

theorem initSState_inv (m : Maze) (hw : 2 ≤ m.width) (hh : 2 ≤ m.height) :
    SInv m initSState := by
  refine ⟨?_, ?_, ?_⟩
  · intro p hp
    simp only [initSState, List.mem_singleton] at hp
    subst hp
    exact ⟨by omega, by omega, by omega, by omega⟩
  · intro p q hp; simp [initSState] at hp
  · intro p hp; simp [initSState] at hp

/-- The back-pointer walk from any cell succeeds within
`visitedCount + 1` steps in an invariant-respecting search state. -/
theorem search_chain_some (st : SState) (hpv : ∀ p q, st.parent p = some q → st.visited q = true)
    (hch : ∀ p, st.visited p = true →
      ∃ ch, chainWalk st.parent st.visitedCount p = some ch ∧
        ∀ x ∈ ch, st.visited x = true)
    (current : Pos) :
    chainWalk st.parent (st.visitedCount + 1) current ≠ none := by
  rw [chainWalk]
  cases hp : st.parent current with
  | none => simp
  | some q =>
      obtain ⟨ch, hc, _⟩ := hch q (hpv current q hp)
      dsimp only
      rw [hc]
      simp

theorem searchStep_no_stuck (m : Maze) (lifo : Bool) (prior : MazePrior)
    (st : SState) (hinv : SInv m st) :
    searchStep m lifo prior st ≠ Sum.inr none := by
  unfold searchStep
  cases hq : st.queue with
  | nil => simp
  | cons c cs =>
      dsimp only
      by_cases hvis : st.visited (if lifo then (c :: cs).getLast (List.cons_ne_nil c cs) else c) = true
      · rw [if_pos hvis]; simp
      · rw [if_neg hvis]
        by_cases hend :
            m.isEnd (if lifo then (c :: cs).getLast (List.cons_ne_nil c cs) else c) = true
        · rw [if_pos hend]
          cases hcw : chainWalk st.parent (st.visitedCount + 1)
              (if lifo then (c :: cs).getLast (List.cons_ne_nil c cs) else c) with
          | none =>
              exact absurd hcw (search_chain_some st hinv.parentVisited hinv.chainOK _)
          | some ch => simp
        · rw [if_neg hend]; simp

theorem searchStep_inl (m : Maze) (lifo : Bool) (prior : MazePrior) (st st' : SState)
    (hinv : SInv m st) (h : searchStep m lifo prior st = Sum.inl st') :
    SInv m st' ∧ sMeasure m st' < sMeasure m st := by
  unfold searchStep at h
  cases hq : st.queue with
  | nil => rw [hq] at h; simp at h
  | cons c cs =>
      rw [hq] at h
      dsimp only at h
      set current : Pos := if lifo then (c :: cs).getLast (List.cons_ne_nil c cs) else c
        with hcur
      set rest : List Pos := if lifo then (c :: cs).dropLast else cs with hrest
      have hcm : current ∈ c :: cs := by
        rw [hcur]
        split
        · exact List.getLast_mem _
        · exact List.mem_cons_self c cs
      have hrsub : ∀ x ∈ rest, x ∈ c :: cs := by
        rw [hrest]
        split
        · exact fun x hx => (List.dropLast_sublist (c :: cs)).subset hx
        · exact fun x hx => List.mem_cons_of_mem c hx
      have hrlen : rest.length + 1 = (c :: cs).length := by
        rw [hrest]
        split
        · rw [List.length_dropLast]; simp
        · simp
      by_cases hvis : st.visited current = true
      · rw [if_pos hvis] at h
        simp only [Sum.inl.injEq] at h
        subst h
        refine ⟨⟨?_, hinv.parentVisited, hinv.chainOK⟩, ?_⟩
        · intro p hp
          exact hinv.queueBounds p (hq ▸ hrsub p hp)
        · unfold sMeasure
          rw [hq]
          simp only
          omega
      · rw [if_neg hvis] at h
        by_cases hend : m.isEnd current = true
        · rw [if_pos hend] at h
          cases hcw : chainWalk st.parent (st.visitedCount + 1) current with
          | none => rw [hcw] at h; simp at h
          | some ch => rw [hcw] at h; simp at h
        · rw [if_neg hend] at h
          simp only [Sum.inl.injEq] at h
          subst h
          have hnb := mazeNeighbors_spec m (Function.update st.visited current true) current
          have hnb_unvis : ∀ n ∈ mazeNeighbors m (Function.update st.visited current true)
              current, Function.update st.visited current true n = false :=
            fun n hn => (hnb.2 n hn).2.2
          have hVmono : ∀ p, st.visited p = true →
              Function.update st.visited current true p = true :=
            fun p hp => visited_mono st.visited current p hp
          have hParUnch : ∀ p, Function.update st.visited current true p = true →
              parentFold current st.parent
                (mazeNeighbors m (Function.update st.visited current true) current) p =
                st.parent p := by
            intro p hp
            apply parentFold_not_mem
            intro hmem
            rw [hnb_unvis p hmem] at hp
            cases hp
          refine ⟨⟨?_, ?_, ?_⟩, ?_⟩
          · intro p hp
            simp only at hp
            rcases List.mem_append.mp hp with hpr | hpn
            · exact hinv.queueBounds p (hq ▸ hrsub p hpr)
            · exact (hnb.2 p hpn).1
          · intro p q hp
            simp only at hp
            rcases parentFold_cases current st.parent _ p with hc' | hc'
            · rw [hc'] at hp
              exact hVmono q (hinv.parentVisited p q hp)
            · rw [hc'] at hp
              cases hp
              simp [Function.update_same]
          · intro p hp
            simp only at hp ⊢
            by_cases hpc : p = current
            · subst hpc
              have hself : Function.update st.visited current true current = true := by
                simp [Function.update_same]
              cases hpar : st.parent current with
              | none =>
                  refine ⟨[current], ?_, ?_⟩
                  · rw [chainWalk, hParUnch current hself, hpar]
                  · intro x hx
                    rw [List.mem_singleton] at hx
                    subst hx
                    exact hself
              | some q =>
                  obtain ⟨ch, hc', hcv⟩ :=
                    hinv.chainOK q (hinv.parentVisited current q hpar)
                  have hc'' : chainWalk (parentFold current st.parent
                      (mazeNeighbors m (Function.update st.visited current true) current))
                      st.visitedCount q = some ch := by
                    apply chainWalk_congr st.parent _ st.visitedCount q ch hc'
                    intro x hx
                    exact hParUnch x (hVmono x (hcv x hx))
                  refine ⟨current :: ch, ?_, ?_⟩
                  · rw [chainWalk, hParUnch current hself, hpar]
                    dsimp only
                    rw [hc'']
                    rfl
                  · intro x hx
                    rcases List.mem_cons.mp hx with rfl | hxc
                    · exact hself
                    · exact hVmono x (hcv x hxc)
            · have hpv : st.visited p = true := by
                have := hp
                rwa [Function.update_noteq hpc] at this
              obtain ⟨ch, hc', hcv⟩ := hinv.chainOK p hpv
              have hc'' : chainWalk (parentFold current st.parent
                  (mazeNeighbors m (Function.update st.visited current true) current))
                  st.visitedCount p = some ch := by
                apply chainWalk_congr st.parent _ st.visitedCount p ch hc'
                intro x hx
                exact hParUnch x (hVmono x (hcv x hx))
              refine ⟨ch, ?_, fun x hx => hVmono x (hcv x hx)⟩
              exact chainWalk_mono _ st.visitedCount (st.visitedCount + 1) p ch
                (by omega) hc''
          · -- the measure drops: one fewer unvisited cell, at most four pushes
            have hcur_in : current ∈ allPositions m.width m.height := by
              have hb := hinv.queueBounds current (hq ▸ hcm)
              exact (mem_allPositions _ _ current).mpr ⟨hb.1, hb.2.1, hb.2.2.1, hb.2.2.2⟩
            have hcur_unvis : st.visited current = false := by
              cases hcv : st.visited current with
              | false => rfl
              | true => exact absurd hcv hvis
            have hcnt := length_filter_update (allPositions m.width m.height)
              (allPositions_nodup m.width m.height) current hcur_in st.visited hcur_unvis
            have hnb_len : (mazeNeighbors m (Function.update st.visited current true)
                current).length ≤ 4 := by
              have := hnb.1
              simpa [dirs] using this
            simp only [List.length_cons] at hrlen
            unfold sMeasure uRem
            rw [hq]
            dsimp only
            simp only [List.length_append, List.length_cons]
            omega

theorem runSearchGo_some (m : Maze) (lifo : Bool) (prior : MazePrior) :
    ∀ fuel st, SInv m st → sMeasure m st < fuel →
      ∃ r, runSearchGo m lifo prior fuel st = some r := by
  intro fuel
  induction fuel with
  | zero => intro st _ hm; omega
  | succ n ih =>
      intro st hinv hm
      rw [runSearchGo]
      cases hstep : searchStep m lifo prior st with
      | inr r =>
          cases r with
          | some out => exact ⟨out, rfl⟩
          | none => exact absurd hstep (searchStep_no_stuck m lifo prior st hinv)
      | inl st' =>
          obtain ⟨hinv', hlt⟩ := searchStep_inl m lifo prior st st' hinv hstep
          exact ih st' hinv' (by omega)

theorem allPositions_length (w h : Nat) : (allPositions w h).length = h * w := by
  unfold allPositions
  rw [List.length_flatMap]
  have hmap : (List.range h).map
      (List.length ∘ (fun (y : Nat) =>
        (List.range w).map (fun (x : Nat) => ((x : Int), (y : Int))))) =
      (List.range h).map (fun _ => w) := by
    apply List.map_congr_left
    intro y _
    simp [Function.comp]
  rw [hmap, List.map_const', List.sum_replicate, List.length_range, smul_eq_mul]

/-- Both maze searches always terminate (for maze dimensions admitting
the fixed start `(1, 1)`). -/
theorem runSearch_total (m : Maze) (lifo : Bool) (prior : MazePrior)
    (hw : 2 ≤ m.width) (hh : 2 ≤ m.height) :
    ∃ r, runSearch m lifo prior = some r := by
  unfold runSearch
  apply runSearchGo_some m lifo prior (searchFuel m) initSState
    (initSState_inv m hw hh)
  unfold sMeasure uRem searchFuel initSState
  simp only [List.length_singleton]
  have h1 : ((allPositions m.width m.height).filter (fun p => !(false : Bool))).length =
      (allPositions m.width m.height).length := by
    rw [List.filter_eq_self.mpr]
    intro a _
    rfl
  rw [h1, allPositions_length]
  have := Nat.mul_comm m.height m.width
  omega

/-- **C4, counterexample.**  On a maze whose frontier empties without
reaching the end, and on a grid whose end is walled off (Dijkstra breaks
on an infinite minimum), the runs terminate but publish *no* explicit
"no path" / "unreachable" value: the completion flag and path statistics
merely keep whatever values they had before the run — even a stale
`gameCompleted = true` from an earlier success. -/
theorem no_explicit_no_path_result :
    runBFS mazeBlocked ⟨0, false⟩ = some ⟨1, 0, false, []⟩ ∧
    runBFS mazeBlocked ⟨7, true⟩ = some ⟨1, 7, true, []⟩ ∧
    runDFS mazeBlocked ⟨0, false⟩ = some ⟨1, 0, false, []⟩ ∧
    runDijkstra gridBlocked freshStats =
      some ⟨1, 0, 0, false, false, [((0 : Int), (0 : Int))]⟩ ∧
    runDijkstra gridBlocked ⟨3, 9, 9, true⟩ =
      some ⟨1, 9, 9, true, false, [((0 : Int), (0 : Int))]⟩ := by
  refine ⟨by decide, by decide, by decide, by decide, by decide⟩

/-- **C4, amended.**  Every run terminates in an explicitly represented
final state rather than a thrown fault or an unbounded loop (maze
dimensions at least 2 so the fixed start `(1, 1)` is on the board); but
when the frontier empties unfulfilled or Dijkstra's minimum remaining
distance is infinite, that final state carries no explicit "no path" or
"unreachable" marker — the prior statistics are simply left in place. -/
theorem runs_always_terminate :
    (∀ (m : Maze) (prior : MazePrior), 2 ≤ m.width → 2 ≤ m.height →
      (∃ r, runBFS m prior = some r) ∧ (∃ r, runDFS m prior = some r)) ∧
    (∀ (g : Grid) (prior : PriorStats), ∃ r, runDijkstra g prior = some r) :=
  ⟨fun m prior hw hh =>
    ⟨runSearch_total m false prior hw hh, runSearch_total m true prior hw hh⟩,
   runDijkstra_total⟩

/-- **C4, amended, witness.**  Termination applied to the concrete
blocked maze and grid. -/
theorem runs_always_terminate_witness :
    (∃ r, runBFS mazeBlocked ⟨0, false⟩ = some r) ∧
    (∃ r, runDFS mazeBlocked ⟨0, false⟩ = some r) ∧
    (∃ r, runDijkstra gridBlocked freshStats = some r) :=
  ⟨(runs_always_terminate.1 mazeBlocked ⟨0, false⟩ (by decide) (by decide)).1,
   (runs_always_terminate.1 mazeBlocked ⟨0, false⟩ (by decide) (by decide)).2,
   runs_always_terminate.2 gridBlocked freshStats⟩

/-! ### True shortest-path distance in a maze -/

/-- The hardcoded start cell `(1, 1)` of the maze runs. -/
def mazeStart : Pos := ((1 : Int), (1 : Int))

/-- A maze walk: nonempty, consecutive cells 4-adjacent, every cell in
bounds and unblocked. -/
def MazeWalk (m : Maze) (l : List Pos) : Prop :=
  l ≠ [] ∧ l.Chain' adjStep ∧ ∀ p ∈ l, mazeInBounds m p ∧ m.isWall p = false

/-- A maze walk from `a` to `b`. -/
def WalkFromTo (m : Maze) (a b : Pos) (l : List Pos) : Prop :=
  MazeWalk m l ∧ l.head? = some a ∧ l.getLast? = some b

/-- `MDist m a b k`: the true unweighted shortest-path distance from `a`
to `b` over unblocked 4-adjacent cells is `k` hops — some walk has
`k + 1` cells and no walk has fewer. -/
def MDist (m : Maze) (a b : Pos) (k : Nat) : Prop :=
  (∃ l, WalkFromTo m a b l ∧ l.length = k + 1) ∧
  ∀ l, WalkFromTo m a b l → k + 1 ≤ l.length

theorem dirs_sum (dir : Pos) (h : dir ∈ dirs) :
    dir.1 + dir.2 = 1 ∨ dir.1 + dir.2 = -1 := by
  simp only [dirs, List.mem_cons, List.mem_singleton, List.not_mem_nil, or_false] at h
  rcases h with h | h | h | h <;> subst h <;> norm_num

theorem adjStep_symm (p n : Pos) (h : adjStep p n) : adjStep n p := by
  obtain ⟨dir, hdir, hn⟩ := h
  refine ⟨(-dir.1, -dir.2), ?_, ?_⟩
  · simp only [dirs, List.mem_cons, List.mem_singleton, List.not_mem_nil, or_false] at hdir
    rcases hdir with h | h | h | h <;> subst h <;> decide
  · subst hn
    dsimp only
    rw [Prod.ext_iff]
    constructor <;> dsimp only <;> ring

theorem mdist_unique (m : Maze) (a b : Pos) (k k' : Nat)
    (h : MDist m a b k) (h' : MDist m a b k') : k = k' := by
  obtain ⟨⟨l, hl, hlen⟩, hmin⟩ := h
  obtain ⟨⟨l', hl', hlen'⟩, hmin'⟩ := h'
  have h1 := hmin l' hl'
  have h2 := hmin' l hl
  omega

theorem mdist_self (m : Maze) (a : Pos) (hin : mazeInBounds m a)
    (hnw : m.isWall a = false) : MDist m a a 0 := by
  refine ⟨⟨[a], ⟨⟨by simp, by simp, ?_⟩, by simp, by simp⟩, by simp⟩, ?_⟩
  · intro p hp
    rw [List.mem_singleton] at hp
    subst hp
    exact ⟨hin, hnw⟩
  · intro l hl
    have h1 : 1 ≤ l.length := List.length_pos.mpr hl.1.1
    omega

theorem mdist_zero (m : Maze) (a b : Pos) (h : MDist m a b 0) : b = a := by
  obtain ⟨⟨l, ⟨_, hh, ht⟩, hlen⟩, _⟩ := h
  obtain ⟨x, rfl⟩ := List.length_eq_one.mp hlen
  simp only [List.head?_cons, Option.some.injEq] at hh
  simp only [List.getLast?_singleton, Option.some.injEq] at ht
  rw [← hh, ← ht]

theorem mdist_cell (m : Maze) (a b : Pos) (k : Nat) (h : MDist m a b k) :
    mazeInBounds m b ∧ m.isWall b = false := by
  obtain ⟨⟨l, ⟨⟨_, _, hmem⟩, _, ht⟩, _⟩, _⟩ := h
  exact hmem b (List.mem_of_mem_getLast? (by rw [ht]; rfl))

theorem mdist_cell_head (m : Maze) (a b : Pos) (k : Nat) (h : MDist m a b k) :
    mazeInBounds m a ∧ m.isWall a = false := by
  obtain ⟨⟨l, ⟨⟨_, _, hmem⟩, hh, _⟩, _⟩, _⟩ := h
  exact hmem a (List.mem_of_mem_head? (by rw [hh]; rfl))

/-- Appending one adjacent unblocked cell to a walk. -/
theorem walk_snoc (m : Maze) (a b n : Pos) (l : List Pos) (h : WalkFromTo m a b l)
    (hadj : adjStep b n) (hin : mazeInBounds m n) (hnw : m.isWall n = false) :
    WalkFromTo m a n (l ++ [n]) := by
  obtain ⟨⟨hne, hch, hmem⟩, hh, ht⟩ := h
  refine ⟨⟨by simp, ?_, ?_⟩, ?_, by simp⟩
  · rw [List.chain'_append]
    refine ⟨hch, by simp, ?_⟩
    intro x hx y hy
    rw [ht] at hx
    cases hx
    cases hy
    exact hadj
  · intro p hp
    rcases List.mem_append.mp hp with h' | h'
    · exact hmem p h'
    · rw [List.mem_singleton] at h'
      subst h'
      exact ⟨hin, hnw⟩
  · rw [List.head?_append, hh]
    rfl

theorem mdist_exists (m : Maze) (a b : Pos) (h : ∃ l, WalkFromTo m a b l) :
    ∃ k, MDist m a b k := by
  classical
  obtain ⟨l0, hl0⟩ := h
  have hS : {n | ∃ l, WalkFromTo m a b l ∧ l.length = n}.Nonempty :=
    ⟨l0.length, l0, hl0, rfl⟩
  obtain ⟨l, hl, hlen⟩ := Nat.sInf_mem hS
  have hpos : 1 ≤ sInf {n | ∃ l, WalkFromTo m a b l ∧ l.length = n} := by
    rw [← hlen]
    exact List.length_pos.mpr hl.1.1
  refine ⟨sInf {n | ∃ l, WalkFromTo m a b l ∧ l.length = n} - 1, ⟨l, hl, by omega⟩, ?_⟩
  intro l' hl'
  have := Nat.sInf_le (show l'.length ∈ {n | ∃ l, WalkFromTo m a b l ∧ l.length = n}
    from ⟨l', hl', rfl⟩)
  omega

theorem mdist_extend (m : Maze) (a p n : Pos) (k : Nat) (h : MDist m a p k)
    (hadj : adjStep p n) (hin : mazeInBounds m n) (hnw : m.isWall n = false) :
    ∃ k', MDist m a n k' ∧ k' ≤ k + 1 := by
  obtain ⟨⟨l, hl, hlen⟩, _⟩ := h
  have hw : WalkFromTo m a n (l ++ [n]) := walk_snoc m a p n l hl hadj hin hnw
  obtain ⟨k', hk'⟩ := mdist_exists m a n ⟨_, hw⟩
  refine ⟨k', hk', ?_⟩
  have hb := hk'.2 _ hw
  rw [List.length_append, hlen] at hb
  simp only [List.length_singleton] at hb
  omega

/-- Grid parity: along any chain of 4-adjacent steps, the coordinate sum
changes by exactly one per step, so its difference matches the cell
count modulo two. -/
theorem chain_parity : ∀ (l : List Pos) (a b : Pos), l.Chain' adjStep →
    l.head? = some a → l.getLast? = some b →
    (b.1 + b.2 - a.1 - a.2 + (l.length : Int) - 1) % 2 = 0 := by
  intro l
  induction l with
  | nil => intro a b _ hh _; simp at hh
  | cons x xs ih =>
      intro a b hch hh ht
      have hx : x = a := by simpa using hh
      subst hx
      cases xs with
      | nil =>
          have hb : x = b := by simpa using ht
          subst hb
          simp
      | cons y ys =>
          rw [List.chain'_cons] at hch
          rw [List.getLast?_cons_cons] at ht
          have hih := ih y b hch.2 rfl ht
          obtain ⟨dir, hdir, hy⟩ := hch.1
          have hpm := dirs_sum dir hdir
          have hysum : y.1 + y.2 = x.1 + x.2 + (dir.1 + dir.2) := by
            rw [hy]
            dsimp only
            ring
          simp only [List.length_cons] at hih ⊢
          push_cast at hih ⊢
          omega

theorem mdist_parity (m : Maze) (a b : Pos) (k : Nat) (h : MDist m a b k) :
    (b.1 + b.2 - a.1 - a.2 + (k : Int)) % 2 = 0 := by
  obtain ⟨⟨l, ⟨⟨hne, hch, hmem⟩, hh, ht⟩, hlen⟩, _⟩ := h
  have hp := chain_parity l a b hch hh ht
  rw [hlen] at hp
  push_cast at hp ⊢
  omega

/-- Adjacent reachable cells sit on consecutive distance levels: the
grid graph is bipartite by coordinate-sum parity. -/
theorem mdist_adj (m : Maze) (a p n : Pos) (kp kn : Nat)
    (hp : MDist m a p kp) (hn : MDist m a n kn) (hadj : adjStep p n) :
    kn = kp + 1 ∨ kp = kn + 1 := by
  have hnc := mdist_cell m a n kn hn
  have hpc := mdist_cell m a p kp hp
  obtain ⟨k1, hk1, hle1⟩ := mdist_extend m a p n kp hp hadj hnc.1 hnc.2
  have he1 : k1 = kn := mdist_unique m a n k1 kn hk1 hn
  obtain ⟨k2, hk2, hle2⟩ :=
    mdist_extend m a n p kn hn (adjStep_symm p n hadj) hpc.1 hpc.2
  have he2 : k2 = kp := mdist_unique m a p k2 kp hk2 hp
  have h1 := mdist_parity m a p kp hp
  have h2 := mdist_parity m a n kn hn
  obtain ⟨dir, hdir, hy⟩ := hadj
  have hpm := dirs_sum dir hdir
  have hsum : n.1 + n.2 = p.1 + p.2 + (dir.1 + dir.2) := by
    rw [hy]
    dsimp only
    ring
  omega

/-- A cell at distance `k + 1` has a neighbor at distance `k`. -/
theorem mdist_pred (m : Maze) (a b : Pos) (k : Nat) (h : MDist m a b (k + 1)) :
    ∃ p, adjStep p b ∧ MDist m a p k := by
  obtain ⟨l, hl, hlen⟩ := h.1
  obtain ⟨⟨hne, hch, hmem⟩, hh, ht⟩ := hl
  have hdl : l.dropLast ++ [l.getLast hne] = l := List.dropLast_append_getLast hne
  have hlast : l.getLast hne = b := by
    have hg := List.getLast?_eq_getLast l hne
    rw [ht] at hg
    exact (Option.some.injEq _ _).mp hg.symm
  have hl'len : l.dropLast.length = k + 1 := by
    rw [List.length_dropLast, hlen]
    omega
  have hl'ne : l.dropLast ≠ [] := by
    intro h0
    rw [h0] at hl'len
    simp at hl'len
  have hch2 : l.dropLast.Chain' adjStep ∧ adjStep (l.dropLast.getLast hl'ne) b := by
    rw [← hdl] at hch
    rw [List.chain'_append] at hch
    refine ⟨hch.1, ?_⟩
    apply hch.2.2 (l.dropLast.getLast hl'ne) ?_ b ?_
    · rw [List.getLast?_eq_getLast l.dropLast hl'ne]
      rfl
    · rw [hlast]
      rfl
  have hhead : l.dropLast.head? = some a := by
    cases l with
    | nil => exact absurd rfl hne
    | cons x xs =>
        cases xs with
        | nil =>
            simp only [List.length_cons, List.length_nil] at hlen
            omega
        | cons y ys =>
            simp only [List.dropLast_cons₂, List.head?_cons]
            simpa using hh
  have hwp : WalkFromTo m a (l.dropLast.getLast hl'ne) l.dropLast := by
    refine ⟨⟨hl'ne, hch2.1, ?_⟩, hhead, List.getLast?_eq_getLast l.dropLast hl'ne⟩
    intro q hq
    exact hmem q (by rw [← hdl]; exact List.mem_append_left _ hq)
  obtain ⟨kp, hkp⟩ := mdist_exists m a (l.dropLast.getLast hl'ne) ⟨_, hwp⟩
  have h1 := hkp.2 _ hwp
  rw [hl'len] at h1
  have hbc := mdist_cell m a b (k + 1) h
  obtain ⟨kb, hkb, hkble⟩ :=
    mdist_extend m a (l.dropLast.getLast hl'ne) b kp hkp hch2.2 hbc.1 hbc.2
  have he : kb = k + 1 := mdist_unique m a b kb (k + 1) hkb h
  have hkpk : kp = k := by omega
  exact ⟨l.dropLast.getLast hl'ne, hch2.2, hkpk ▸ hkp⟩

/-! ### Structure of reconstructed back-pointer chains -/

/-- A successful back-pointer walk starts at its argument, follows
`prev` links, and ends at a cell with no parent. -/
theorem chainWalk_spec (prev : Pos → Option Pos) :
    ∀ fuel p ch, chainWalk prev fuel p = some ch →
      ch.head? = some p ∧ ch.Chain' (fun x y => prev x = some y) ∧
      ∃ t, ch.getLast? = some t ∧ prev t = none := by
  intro fuel
  induction fuel with
  | zero => intro p ch h; simp [chainWalk] at h
  | succ n ih =>
      intro p ch h
      rw [chainWalk] at h
      cases hp : prev p with
      | none =>
          rw [hp] at h
          dsimp only at h
          cases h
          exact ⟨rfl, by simp, p, by simp, hp⟩
      | some q =>
          rw [hp] at h
          dsimp only at h
          cases hc : chainWalk prev n q with
          | none => rw [hc] at h; simp at h
          | some ch' =>
              rw [hc] at h
              simp only [Option.map_some', Option.some.injEq] at h
              obtain ⟨hh', hch', t, ht', hnone⟩ := ih q ch' hc
              subst h
              refine ⟨by simp, ?_, t, ?_, hnone⟩
              · rw [List.chain'_cons']
                refine ⟨?_, hch'⟩
                intro y hy
                rw [hh'] at hy
                cases hy
                exact hp
              · cases ch' with
                | nil => simp at hh'
                | cons c0 cr => rw [List.getLast?_cons_cons]; exact ht'

/-- Every element of a chain is related to a successor or is the last
element. -/
theorem chain_mem_rel (R : Pos → Pos → Prop) :
    ∀ (l : List Pos), l.Chain' R → ∀ x ∈ l, (∃ y, R x y) ∨ l.getLast? = some x := by
  intro l
  induction l with
  | nil => intro _ x hx; cases hx
  | cons a rest ih =>
      intro hch x hx
      cases rest with
      | nil =>
          rw [List.mem_singleton] at hx
          subst hx
          right
          simp
      | cons b r2 =>
          rw [List.chain'_cons] at hch
          rcases List.mem_cons.mp hx with heq | hmem
          · subst heq
            exact Or.inl ⟨b, hch.1⟩
          · rcases ih hch.2 x hmem with h | h
            · exact Or.inl h
            · right
              rw [List.getLast?_cons_cons]
              exact h

theorem parentFold_mem (current : Pos) (pr : Pos → Option Pos) (nbs : List Pos)
    (p : Pos) (hp : p ∈ nbs) : parentFold current pr nbs p = some current := by
  induction nbs generalizing pr with
  | nil => cases hp
  | cons nb rest ih =>
      show parentFold current (Function.update pr nb (some current)) rest p = some current
      rcases List.mem_cons.mp hp with heq | hmem
      · subst heq
        by_cases hrest : p ∈ rest
        · exact ih _ hrest
        · rw [parentFold_not_mem current _ rest p hrest, Function.update_same]
      · exact ih _ hmem

/-- Every produced neighbor is 4-adjacent to the center cell. -/
theorem mazeNeighbors_adj (m : Maze) (visited : Pos → Bool) (c : Pos) :
    ∀ n ∈ mazeNeighbors m visited c, adjStep c n := by
  unfold mazeNeighbors
  have main : ∀ (l acc : List Pos), (∀ x ∈ acc, adjStep c x) → (∀ d ∈ l, d ∈ dirs) →
      ∀ n ∈ l.foldl (nbStep m visited c) acc, adjStep c n := by
    intro l
    induction l with
    | nil => intro acc hacc _ n hn; exact hacc n hn
    | cons dir rest ih =>
        intro acc hacc hsub n hn
        rw [List.foldl_cons] at hn
        refine ih _ ?_ (fun d hd => hsub d (List.mem_cons_of_mem dir hd)) n hn
        intro x hx
        unfold nbStep at hx
        dsimp only at hx
        split at hx
        · rcases List.mem_append.mp hx with h' | h'
          · exact hacc x h'
          · rw [List.mem_singleton] at h'
            subst h'
            exact ⟨dir, hsub dir (List.mem_cons_self dir rest), rfl⟩
        · exact hacc x hx
  exact main dirs [] (fun x hx => absurd hx (List.not_mem_nil x)) (fun d hd => hd)

/-- Every in-bounds, unblocked, unvisited 4-neighbor is produced. -/
theorem mazeNeighbors_complete (m : Maze) (visited : Pos → Bool) (c n : Pos)
    (hadj : adjStep c n) (hin : mazeInBounds m n) (hnw : m.isWall n = false)
    (hnv : visited n = false) : n ∈ mazeNeighbors m visited c := by
  obtain ⟨dir, hdir, hn⟩ := hadj
  unfold mazeNeighbors
  have mono : ∀ (l acc : List Pos) (x : Pos), x ∈ acc →
      x ∈ l.foldl (nbStep m visited c) acc := by
    intro l
    induction l with
    | nil => intro acc x hx; exact hx
    | cons d r ih =>
        intro acc x hx
        rw [List.foldl_cons]
        apply ih
        unfold nbStep
        dsimp only
        split
        · exact List.mem_append_left _ hx
        · exact hx
  have step : ∀ (l acc : List Pos), dir ∈ l → n ∈ l.foldl (nbStep m visited c) acc := by
    intro l
    induction l with
    | nil => intro acc h0; cases h0
    | cons d r ih =>
        intro acc hdl
        rw [List.foldl_cons]
        rcases List.mem_cons.mp hdl with heq | hmem
        · subst heq
          apply mono
          unfold nbStep
          dsimp only
          rw [← hn]
          rw [if_pos ⟨hin, by simp [hnw], by simp [hnv]⟩]
          exact List.mem_append_right _ (List.mem_singleton_self n)
        · exact ih _ hmem
  exact step dirs [] hdir

/-! ### Generic search invariants: parents record real maze steps -/

theorem mazeStart_inBounds (m : Maze) (hw : 2 ≤ m.width) (hh : 2 ≤ m.height) :
    mazeInBounds m mazeStart := by
  have h1 : (1 : Int) < (m.width : Int) := by exact_mod_cast (by omega : 1 < m.width)
  have h2 : (1 : Int) < (m.height : Int) := by exact_mod_cast (by omega : 1 < m.height)
  exact ⟨by norm_num [mazeStart], by simpa [mazeStart] using h1,
    by norm_num [mazeStart], by simpa [mazeStart] using h2⟩

/-- Invariants of a search state after the first visit: the start is
visited without a parent, queue entries have parents, and every parent
link records a real adjacent, in-bounds, unblocked step from a visited
cell. -/
structure GRun (m : Maze) (st : SState) : Prop where
  startVisited : st.visited mazeStart = true
  queueParent : ∀ e ∈ st.queue, st.parent e ≠ none
  parentFacts : ∀ p q, st.parent p = some q → st.visited q = true ∧ adjStep q p ∧
    mazeInBounds m p ∧ m.isWall p = false
  parentStart : st.parent mazeStart = none
  visitedParent : ∀ v, st.visited v = true → v = mazeStart ∨ st.parent v ≠ none

/-- Every reachable search state is initial or satisfies `GRun`. -/
def GReach (m : Maze) (st : SState) : Prop := st = initSState ∨ GRun m st

/-- The first loop iteration, evaluated. -/
theorem searchStep_init (m : Maze) (lifo : Bool) (prior : MazePrior) :
    searchStep m lifo prior initSState =
      if m.isEnd mazeStart = true then
        Sum.inr (some ⟨1, 1, true, [mazeStart]⟩)
      else
        Sum.inl ⟨mazeNeighbors m (Function.update initSState.visited mazeStart true)
            mazeStart,
          parentFold mazeStart initSState.parent
            (mazeNeighbors m (Function.update initSState.visited mazeStart true) mazeStart),
          Function.update initSState.visited mazeStart true, 1⟩ := by
  cases lifo <;> rfl

theorem searchStep_grun (m : Maze) (lifo : Bool) (prior : MazePrior) (st st' : SState)
    (hgr : GRun m st) (h : searchStep m lifo prior st = Sum.inl st') : GRun m st' := by
  unfold searchStep at h
  cases hq : st.queue with
  | nil => rw [hq] at h; simp at h
  | cons c cs =>
      rw [hq] at h
      dsimp only at h
      set current := if lifo then (c :: cs).getLast (List.cons_ne_nil c cs) else c
        with hcur
      set rest := if lifo then (c :: cs).dropLast else cs with hrest
      have hcm : current ∈ c :: cs := by
        rw [hcur]
        split
        · exact List.getLast_mem _
        · exact List.mem_cons_self c cs
      have hrsub : ∀ x ∈ rest, x ∈ c :: cs := by
        rw [hrest]
        split
        · exact fun x hx => (List.dropLast_sublist (c :: cs)).subset hx
        · exact fun x hx => List.mem_cons_of_mem c hx
      by_cases hvis : st.visited current = true
      · rw [if_pos hvis] at h
        simp only [Sum.inl.injEq] at h
        subst h
        exact ⟨hgr.startVisited, fun e he => hgr.queueParent e (hq ▸ hrsub e he),
          hgr.parentFacts, hgr.parentStart, hgr.visitedParent⟩
      · rw [if_neg hvis] at h
        by_cases hend : m.isEnd current = true
        · rw [if_pos hend] at h
          cases hcw : chainWalk st.parent (st.visitedCount + 1) current with
          | none => rw [hcw] at h; simp at h
          | some ch => rw [hcw] at h; simp at h
        · rw [if_neg hend] at h
          simp only [Sum.inl.injEq] at h
          subst h
          have hnb := mazeNeighbors_spec m (Function.update st.visited current true) current
          have hnb_unvis : ∀ n ∈ mazeNeighbors m (Function.update st.visited current true)
              current, Function.update st.visited current true n = false :=
            fun n hn => (hnb.2 n hn).2.2
          have hVmono : ∀ p, st.visited p = true →
              Function.update st.visited current true p = true :=
            fun p hp => visited_mono st.visited current p hp
          have hcv : st.parent current ≠ none := hgr.queueParent current (hq ▸ hcm)
          have hcur_notnb :
              current ∉ mazeNeighbors m (Function.update st.visited current true) current := by
            intro hmem
            have h0 := hnb_unvis current hmem
            rw [Function.update_same] at h0
            cases h0
          refine ⟨?_, ?_, ?_, ?_, ?_⟩
          · exact hVmono mazeStart hgr.startVisited
          · intro e he
            dsimp only at he ⊢
            rcases List.mem_append.mp he with hpr | hpn
            · rcases parentFold_cases current st.parent _ e with hc' | hc'
              · rw [hc']
                exact hgr.queueParent e (hq ▸ hrsub e hpr)
              · rw [hc']
                simp
            · rw [parentFold_mem current st.parent _ e hpn]
              simp
          · intro p q hp
            dsimp only at hp ⊢
            by_cases hpm : p ∈ mazeNeighbors m (Function.update st.visited current true) current
            · rw [parentFold_mem current st.parent _ p hpm] at hp
              cases hp
              exact ⟨by rw [Function.update_same], mazeNeighbors_adj m _ current p hpm,
                (hnb.2 p hpm).1, (hnb.2 p hpm).2.1⟩
            · rw [parentFold_not_mem current st.parent _ p hpm] at hp
              obtain ⟨h1, h2, h3, h4⟩ := hgr.parentFacts p q hp
              exact ⟨hVmono q h1, h2, h3, h4⟩
          · have hsnb : mazeStart ∉
                mazeNeighbors m (Function.update st.visited current true) current := by
              intro hmem
              have h0 := hnb_unvis mazeStart hmem
              have h1 := hVmono mazeStart hgr.startVisited
              rw [h0] at h1
              cases h1
            dsimp only
            rw [parentFold_not_mem current st.parent _ mazeStart hsnb]
            exact hgr.parentStart
          · intro v hv
            dsimp only at hv ⊢
            by_cases hvc : v = current
            · subst hvc
              right
              rw [parentFold_not_mem current st.parent _ current hcur_notnb]
              exact hcv
            · have hov : st.visited v = true := by
                rwa [Function.update_noteq hvc] at hv
              rcases hgr.visitedParent v hov with h0 | h0
              · exact Or.inl h0
              · right
                rcases parentFold_cases current st.parent _ v with hc' | hc'
                · rw [hc']
                  exact h0
                · rw [hc']
                  simp

theorem searchStep_greach (m : Maze) (lifo : Bool) (prior : MazePrior) (st st' : SState)
    (hg : GReach m st) (h : searchStep m lifo prior st = Sum.inl st') : GReach m st' := by
  right
  rcases hg with rfl | hgr
  · rw [searchStep_init] at h
    by_cases hend : m.isEnd mazeStart = true
    · rw [if_pos hend] at h
      simp at h
    · rw [if_neg hend] at h
      simp only [Sum.inl.injEq] at h
      subst h
      have hnb := mazeNeighbors_spec m
        (Function.update initSState.visited mazeStart true) mazeStart
      have hstartnotnb : mazeStart ∉ mazeNeighbors m
          (Function.update initSState.visited mazeStart true) mazeStart := by
        intro hmem
        have h0 := (hnb.2 mazeStart hmem).2.2
        rw [Function.update_same] at h0
        cases h0
      refine ⟨by dsimp only; rw [Function.update_same], ?_, ?_, ?_, ?_⟩
      · intro e he
        dsimp only at he ⊢
        rw [parentFold_mem mazeStart initSState.parent _ e he]
        simp
      · intro p q hp
        dsimp only at hp ⊢
        by_cases hpm : p ∈ mazeNeighbors m
            (Function.update initSState.visited mazeStart true) mazeStart
        · rw [parentFold_mem mazeStart initSState.parent _ p hpm] at hp
          cases hp
          exact ⟨by rw [Function.update_same], mazeNeighbors_adj m _ mazeStart p hpm,
            (hnb.2 p hpm).1, (hnb.2 p hpm).2.1⟩
        · rw [parentFold_not_mem mazeStart initSState.parent _ p hpm] at hp
          exact absurd hp (by simp [initSState])
      · dsimp only
        rw [parentFold_not_mem mazeStart initSState.parent _ mazeStart hstartnotnb]
        rfl
      · intro v hv
        dsimp only at hv ⊢
        by_cases hvc : v = mazeStart
        · exact Or.inl hvc
        · rw [Function.update_noteq hvc] at hv
          exact absurd hv (by simp [initSState])
  · exact searchStep_grun m lifo prior st st' hgr h

/-- A found outcome's path is a maze walk from the start to an end
cell, listed end cell first. -/
theorem searchStep_found_walk (m : Maze) (lifo : Bool) (prior : MazePrior)
    (st : SState) (out : SOutcome)
    (hsin : mazeInBounds m mazeStart) (hsw : m.isWall mazeStart = false)
    (hinv : SInv m st) (hg : GReach m st)
    (h : searchStep m lifo prior st = Sum.inr (some out)) (hne : out.path ≠ []) :
    ∃ e, out.path.head? = some e ∧ m.isEnd e = true ∧
      WalkFromTo m mazeStart e out.path.reverse ∧
      out.pathLength = out.path.length := by
  rcases hg with rfl | hgr
  · rw [searchStep_init] at h
    by_cases hend : m.isEnd mazeStart = true
    · rw [if_pos hend] at h
      simp only [Sum.inr.injEq, Option.some.injEq] at h
      subst h
      refine ⟨mazeStart, rfl, hend, ⟨⟨by simp, by simp, ?_⟩, by simp, by simp⟩, rfl⟩
      intro p hp
      simp only [List.reverse_singleton, List.mem_singleton] at hp
      subst hp
      exact ⟨hsin, hsw⟩
    · rw [if_neg hend] at h
      simp at h
  · unfold searchStep at h
    cases hq : st.queue with
    | nil =>
        rw [hq] at h
        simp only [Sum.inr.injEq, Option.some.injEq] at h
        subst h
        exact absurd rfl hne
    | cons c cs =>
        rw [hq] at h
        dsimp only at h
        set current := if lifo then (c :: cs).getLast (List.cons_ne_nil c cs) else c
          with hcur
        have hcm : current ∈ c :: cs := by
          rw [hcur]
          split
          · exact List.getLast_mem _
          · exact List.mem_cons_self c cs
        by_cases hvis : st.visited current = true
        · rw [if_pos hvis] at h
          simp at h
        · rw [if_neg hvis] at h
          by_cases hend : m.isEnd current = true
          · rw [if_pos hend] at h
            have hcq : st.parent current ≠ none := hgr.queueParent current (hq ▸ hcm)
            cases hpar : st.parent current with
            | none => exact absurd hpar hcq
            | some q =>
                obtain ⟨hqvis, hqadj, hqin, hqnw⟩ := hgr.parentFacts current q hpar
                obtain ⟨chq, hchq, hchqv⟩ := hinv.chainOK q hqvis
                have hfull : chainWalk st.parent (st.visitedCount + 1) current =
                    some (current :: chq) := by
                  rw [chainWalk, hpar]
                  dsimp only
                  rw [hchq]
                  rfl
                rw [hfull] at h
                dsimp only at h
                simp only [Sum.inr.injEq, Option.some.injEq] at h
                subst h
                obtain ⟨hh2, hchain, t, ht, htnone⟩ :=
                  chainWalk_spec st.parent (st.visitedCount + 1) current
                    (current :: chq) hfull
                have hqspec := chainWalk_spec st.parent st.visitedCount q chq hchq
                have htm : t = mazeStart := by
                  cases chq with
                  | nil => exact absurd hqspec.1 (by simp)
                  | cons q0 qr =>
                      rw [List.getLast?_cons_cons] at ht
                      have htmem : t ∈ q0 :: qr :=
                        List.mem_of_mem_getLast? (by rw [ht]; rfl)
                      have htvis := hchqv t htmem
                      rcases hgr.visitedParent t htvis with h0 | h0
                      · exact h0
                      · exact absurd htnone h0
                subst htm
                refine ⟨current, rfl, hend, ⟨⟨by simp, ?_, ?_⟩, ?_, ?_⟩, rfl⟩
                · rw [List.chain'_reverse]
                  apply List.Chain'.imp ?_ hchain
                  intro x y h'
                  exact (hgr.parentFacts x y h').2.1
                · intro p hp
                  rw [List.mem_reverse] at hp
                  rcases chain_mem_rel _ _ hchain p hp with ⟨y, hy⟩ | hlast
                  · exact ⟨(hgr.parentFacts p y hy).2.2.1, (hgr.parentFacts p y hy).2.2.2⟩
                  · rw [ht] at hlast
                    have : mazeStart = p := by
                      simpa using hlast
                    subst this
                    exact ⟨hsin, hsw⟩
                · rw [List.head?_reverse]
                  exact ht
                · rw [List.getLast?_reverse]
                  rfl
          · rw [if_neg hend] at h
            simp at h

theorem runSearchGo_found_walk (m : Maze) (lifo : Bool) (prior : MazePrior)
    (hsin : mazeInBounds m mazeStart) (hsw : m.isWall mazeStart = false) :
    ∀ fuel st out, SInv m st → GReach m st →
      runSearchGo m lifo prior fuel st = some out → out.path ≠ [] →
      ∃ e, out.path.head? = some e ∧ m.isEnd e = true ∧
        WalkFromTo m mazeStart e out.path.reverse ∧
        out.pathLength = out.path.length := by
  intro fuel
  induction fuel with
  | zero =>
      intro st out _ _ hrun
      simp [runSearchGo] at hrun
  | succ n ih =>
      intro st out hinv hg hrun hne
      rw [runSearchGo] at hrun
      cases hstep : searchStep m lifo prior st with
      | inr r =>
          rw [hstep] at hrun
          dsimp only at hrun
          subst hrun
          exact searchStep_found_walk m lifo prior st out hsin hsw hinv hg hstep hne
      | inl st' =>
          rw [hstep] at hrun
          dsimp only at hrun
          exact ih st' out (searchStep_inl m lifo prior st st' hinv hstep).1
            (searchStep_greach m lifo prior st st' hg hstep) hrun hne

/-- Any found search outcome (BFS or DFS) reports the cell count of a
real walk from the start to the end cell it reached. -/
theorem runSearch_found_walk (m : Maze) (lifo : Bool) (prior : MazePrior)
    (out : SOutcome) (hw : 2 ≤ m.width) (hh : 2 ≤ m.height)
    (hsw : m.isWall mazeStart = false)
    (h : runSearch m lifo prior = some out) (hne : out.path ≠ []) :
    ∃ e, out.path.head? = some e ∧ m.isEnd e = true ∧
      WalkFromTo m mazeStart e out.path.reverse ∧
      out.pathLength = out.path.length :=
  runSearchGo_found_walk m lifo prior (mazeStart_inBounds m hw hh) hsw
    (searchFuel m) initSState out (initSState_inv m hw hh) (Or.inl rfl) h hne

/-! ### BFS level invariants -/

theorem bool_eq_false (b : Bool) (h : ¬b = true) : b = false := by
  cases b
  · rfl
  · exact absurd rfl h

theorem update_false_elim (visited : Pos → Bool) (c e : Pos)
    (h : Function.update visited c true e = false) : visited e = false ∧ e ≠ c := by
  by_cases hec : e = c
  · subst hec
    rw [Function.update_same] at h
    cases h
  · rw [Function.update_noteq hec] at h
    exact ⟨h, hec⟩

/-- Parent-map updates of a visit leave the chain of a visited cell
unchanged (same fuel). -/
theorem chainWalk_keep (m : Maze) (st : SState) (c : Pos) (hinv : SInv m st)
    (v : Pos) (ch : List Pos) (hv : st.visited v = true)
    (hch : chainWalk st.parent st.visitedCount v = some ch) :
    chainWalk (parentFold c st.parent
        (mazeNeighbors m (Function.update st.visited c true) c))
      st.visitedCount v = some ch := by
  obtain ⟨ch2, hch2, hch2v⟩ := hinv.chainOK v hv
  rw [hch] at hch2
  have hcheq : ch = ch2 := by injection hch2
  subst hcheq
  apply chainWalk_congr st.parent _ st.visitedCount v ch hch
  intro x hx
  apply parentFold_not_mem
  intro hmem
  have hxf := (mazeNeighbors_spec m (Function.update st.visited c true) c).2 x hmem
  have hxv := visited_mono st.visited c x (hch2v x hx)
  rw [hxf.2.2] at hxv
  cases hxv

theorem chainWalk_update (m : Maze) (st : SState) (c : Pos) (hinv : SInv m st)
    (v : Pos) (ch : List Pos) (hv : st.visited v = true)
    (hch : chainWalk st.parent st.visitedCount v = some ch) :
    chainWalk (parentFold c st.parent
        (mazeNeighbors m (Function.update st.visited c true) c))
      (st.visitedCount + 1) v = some ch :=
  chainWalk_mono _ st.visitedCount (st.visitedCount + 1) v ch (by omega)
    (chainWalk_keep m st c hinv v ch hv hch)

/-- The chain of a freshly visited cell extends its parent's chain. -/
theorem chainWalk_visit (m : Maze) (st : SState) (c q : Pos) (chq : List Pos)
    (hinv : SInv m st) (hpar : st.parent c = some q) (hqvis : st.visited q = true)
    (hchq : chainWalk st.parent st.visitedCount q = some chq) :
    chainWalk (parentFold c st.parent
        (mazeNeighbors m (Function.update st.visited c true) c))
      (st.visitedCount + 1) c = some (c :: chq) := by
  have hagree : parentFold c st.parent
      (mazeNeighbors m (Function.update st.visited c true) c) c = st.parent c := by
    apply parentFold_not_mem
    intro hmem
    have hxf := (mazeNeighbors_spec m (Function.update st.visited c true) c).2 c hmem
    rw [Function.update_same] at hxf
    exact absurd hxf.2.2 (by simp)
  rw [chainWalk, hagree, hpar]
  dsimp only
  rw [chainWalk_keep m st c hinv q chq hqvis hchq]
  rfl

/-- The BFS loop body, evaluated on a nonempty frontier. -/
theorem searchStep_bfs (m : Maze) (prior : MazePrior) (st : SState) (c : Pos)
    (cs : List Pos) (hq : st.queue = c :: cs) :
    searchStep m false prior st =
      if st.visited c then Sum.inl { st with queue := cs }
      else if m.isEnd c then
        match chainWalk st.parent (st.visitedCount + 1) c with
        | none => Sum.inr none
        | some ch => Sum.inr (some ⟨st.visitedCount + 1, ch.length, true, ch⟩)
      else
        Sum.inl ⟨cs ++ mazeNeighbors m (Function.update st.visited c true) c,
          parentFold c st.parent (mazeNeighbors m (Function.update st.visited c true) c),
          Function.update st.visited c true, st.visitedCount + 1⟩ := by
  unfold searchStep
  rw [hq]
  rfl

/-- BFS frontier-layer invariants.  `K` is the current level: all cells
strictly closer than `K` are visited, the queue splits as `A ++ B` with
`A` at levels at most `K` and `B` exactly at level `K + 1`, every
unvisited level-`K` cell sits in `A`, every unvisited level-`K + 1` cell
sits in `B` or still has an unvisited level-`K` neighbor, every visited
cell's back-pointer chain has its distance plus one cells, and no
visited cell is an end cell. -/
structure BRun (m : Maze) (st : SState) (K : Nat) (A B : List Pos) : Prop where
  split : st.queue = A ++ B
  visitedDist : ∀ v, st.visited v = true → ∃ k, MDist m mazeStart v k ∧ k ≤ K
  complete : ∀ u k, MDist m mazeStart u k → k < K → st.visited u = true
  memA : ∀ e ∈ A, ∃ k, MDist m mazeStart e k ∧ k ≤ K
  memB : ∀ e ∈ B, MDist m mazeStart e (K + 1)
  coverA : ∀ u, MDist m mazeStart u K → st.visited u = false → u ∈ A
  coverB : ∀ u, MDist m mazeStart u (K + 1) → st.visited u = false →
    u ∈ B ∨ ∃ p, adjStep p u ∧ MDist m mazeStart p K ∧ st.visited p = false
  chainLen : ∀ v, st.visited v = true → ∃ k ch, MDist m mazeStart v k ∧
    chainWalk st.parent st.visitedCount v = some ch ∧ ch.length = k + 1
  noEnd : ∀ v, st.visited v = true → m.isEnd v = false

/-- Every reachable BFS state is initial or in some layer configuration. -/
def BReach (m : Maze) (st : SState) : Prop :=
  st = initSState ∨ ∃ K A B, BRun m st K A B

theorem bfs_init_brun (m : Maze) (hsin : mazeInBounds m mazeStart)
    (hsw : m.isWall mazeStart = false) (hend : m.isEnd mazeStart = false) :
    BRun m ⟨mazeNeighbors m (Function.update initSState.visited mazeStart true) mazeStart,
      parentFold mazeStart initSState.parent
        (mazeNeighbors m (Function.update initSState.visited mazeStart true) mazeStart),
      Function.update initSState.visited mazeStart true, 1⟩
      0 []
      (mazeNeighbors m (Function.update initSState.visited mazeStart true) mazeStart) := by
  have hnb := mazeNeighbors_spec m
    (Function.update initSState.visited mazeStart true) mazeStart
  have hs0 : MDist m mazeStart mazeStart 0 := mdist_self m mazeStart hsin hsw
  have hvis_iff : ∀ v, Function.update initSState.visited mazeStart true v = true →
      v = mazeStart := by
    intro v hv
    by_cases h0 : v = mazeStart
    · exact h0
    · rw [Function.update_noteq h0] at hv
      exact absurd hv (by simp [initSState])
  refine ⟨rfl, ?_, ?_, ?_, ?_, ?_, ?_, ?_, ?_⟩
  · intro v hv
    dsimp only at hv
    rw [hvis_iff v hv]
    exact ⟨0, hs0, le_refl 0⟩
  · intro u k _ hk
    omega
  · intro e he
    exact absurd he (List.not_mem_nil e)
  · intro e he
    have hef := hnb.2 e he
    have hadj := mazeNeighbors_adj m _ mazeStart e he
    obtain ⟨ke, hke, hle⟩ := mdist_extend m mazeStart mazeStart e 0 hs0 hadj hef.1 hef.2.1
    rcases mdist_adj m mazeStart mazeStart e 0 ke hs0 hke hadj with h1 | h1
    · rw [← h1]
      exact hke
    · omega
  · intro u hu hvf
    dsimp only at hvf
    have hu0 := mdist_zero m mazeStart u hu
    rw [hu0, Function.update_same] at hvf
    cases hvf
  · intro u hu hvf
    dsimp only at hvf
    left
    obtain ⟨p, hpadj, hp0⟩ := mdist_pred m mazeStart u 0 hu
    have hps := mdist_zero m mazeStart p hp0
    rw [hps] at hpadj
    have hcell := mdist_cell m mazeStart u 1 hu
    exact mazeNeighbors_complete m _ mazeStart u hpadj hcell.1 hcell.2 hvf
  · intro v hv
    dsimp only at hv ⊢
    rw [hvis_iff v hv]
    refine ⟨0, [mazeStart], hs0, ?_, rfl⟩
    have hsnb : mazeStart ∉ mazeNeighbors m
        (Function.update initSState.visited mazeStart true) mazeStart := by
      intro hmem
      have h0 := (hnb.2 mazeStart hmem).2.2
      rw [Function.update_same] at h0
      cases h0
    have hpn : parentFold mazeStart initSState.parent
        (mazeNeighbors m (Function.update initSState.visited mazeStart true) mazeStart)
        mazeStart = none := by
      rw [parentFold_not_mem mazeStart initSState.parent _ mazeStart hsnb]
      rfl
    rw [show (1 : Nat) = 0 + 1 from rfl, chainWalk, hpn]
  · intro v hv
    dsimp only at hv
    rw [hvis_iff v hv]
    exact hend

/-- Visiting an unvisited level-`K` frontier cell preserves the layer
invariants at level `K`. -/
theorem breach_visit (m : Maze) (st : SState) (c : Pos) (cs A' B : List Pos) (K : Nat)
    (hinv : SInv m st) (hgr : GRun m st) (hb : BRun m st K (c :: A') B)
    (hq : st.queue = c :: cs) (hcs : cs = A' ++ B)
    (hvf : st.visited c = false) (hend : m.isEnd c = false) :
    BRun m ⟨cs ++ mazeNeighbors m (Function.update st.visited c true) c,
      parentFold c st.parent (mazeNeighbors m (Function.update st.visited c true) c),
      Function.update st.visited c true, st.visitedCount + 1⟩
      K A' (B ++ mazeNeighbors m (Function.update st.visited c true) c) := by
  have hnb := mazeNeighbors_spec m (Function.update st.visited c true) c
  have hadjnb := mazeNeighbors_adj m (Function.update st.visited c true) c
  obtain ⟨kc, hkc, hkcle⟩ := hb.memA c (List.mem_cons_self c A')
  have hkcK : kc = K := by
    by_contra hne
    have := hb.complete c kc hkc (by omega)
    rw [hvf] at this
    cases this
  rw [hkcK] at hkc
  have hnbdist : ∀ e ∈ mazeNeighbors m (Function.update st.visited c true) c,
      MDist m mazeStart e (K + 1) := by
    intro e he
    have hef := hnb.2 e he
    obtain ⟨hef0, hefc⟩ := update_false_elim st.visited c e hef.2.2
    have hadj := hadjnb e he
    obtain ⟨ke, hke, hle⟩ := mdist_extend m mazeStart c e K hkc hadj hef.1 hef.2.1
    rcases mdist_adj m mazeStart c e K ke hkc hke hadj with h1 | h1
    · rw [← h1]
      exact hke
    · have := hb.complete e ke hke (by omega)
      rw [hef0] at this
      cases this
  refine ⟨?_, ?_, ?_, ?_, ?_, ?_, ?_, ?_, ?_⟩
  · dsimp only
    rw [hcs, List.append_assoc]
  · intro v hv
    dsimp only at hv
    by_cases hvc : v = c
    · subst hvc
      exact ⟨K, hkc, le_refl K⟩
    · rw [Function.update_noteq hvc] at hv
      exact hb.visitedDist v hv
  · intro u k hu hk
    dsimp only
    exact visited_mono st.visited c u (hb.complete u k hu hk)
  · intro e he
    exact hb.memA e (List.mem_cons_of_mem c he)
  · intro e he
    rcases List.mem_append.mp he with h0 | h0
    · exact hb.memB e h0
    · exact hnbdist e h0
  · intro u hu hvf'
    dsimp only at hvf'
    obtain ⟨hu0, huc⟩ := update_false_elim st.visited c u hvf'
    have := hb.coverA u hu hu0
    rcases List.mem_cons.mp this with h0 | h0
    · exact absurd h0 huc
    · exact h0
  · intro u hu hvf'
    dsimp only at hvf' ⊢
    obtain ⟨hu0, huc⟩ := update_false_elim st.visited c u hvf'
    rcases hb.coverB u hu hu0 with h0 | ⟨p, hpadj, hpK, hpv⟩
    · exact Or.inl (List.mem_append_left _ h0)
    · by_cases hpc : p = c
      · subst hpc
        left
        apply List.mem_append_right
        have hcell := mdist_cell m mazeStart u (K + 1) hu
        exact mazeNeighbors_complete m _ p u hpadj hcell.1 hcell.2 hvf'
      · right
        exact ⟨p, hpadj, hpK, by rw [Function.update_noteq hpc]; exact hpv⟩
  · intro v hv
    dsimp only at hv ⊢
    by_cases hvc : v = c
    · subst hvc
      cases hpar : st.parent v with
      | none =>
          exact absurd hpar
            (hgr.queueParent v (by rw [hq]; exact List.mem_cons_self v cs))
      | some q =>
          obtain ⟨hqvis, hqadj, _, _⟩ := hgr.parentFacts v q hpar
          obtain ⟨kq, hkq, hkqle⟩ := hb.visitedDist q hqvis
          rcases mdist_adj m mazeStart q v kq K hkq hkc hqadj with h1 | h1
          · obtain ⟨kq2, chq, hkq2, hchq, hlen⟩ := hb.chainLen q hqvis
            have hkqeq : kq2 = kq := mdist_unique m mazeStart q kq2 kq hkq2 hkq
            refine ⟨K, v :: chq, hkc, ?_, ?_⟩
            · exact chainWalk_visit m st v q chq hinv hpar hqvis hchq
            · simp only [List.length_cons]
              omega
          · omega
    · rw [Function.update_noteq hvc] at hv
      obtain ⟨k, ch, hk, hch, hlen⟩ := hb.chainLen v hv
      exact ⟨k, ch, hk, chainWalk_update m st c hinv v ch hv hch, hlen⟩
  · intro v hv
    dsimp only at hv
    by_cases hvc : v = c
    · subst hvc
      exact hend
    · rw [Function.update_noteq hvc] at hv
      exact hb.noEnd v hv

/-- When `A` is exhausted, visiting the first level-`K + 1` cell bumps
the layer invariants to level `K + 1`. -/
theorem breach_bump (m : Maze) (st : SState) (c : Pos) (cs : List Pos) (K : Nat)
    (hinv : SInv m st) (hgr : GRun m st) (hb : BRun m st K [] (c :: cs))
    (hq : st.queue = c :: cs)
    (hvf : st.visited c = false) (hend : m.isEnd c = false) :
    BRun m ⟨cs ++ mazeNeighbors m (Function.update st.visited c true) c,
      parentFold c st.parent (mazeNeighbors m (Function.update st.visited c true) c),
      Function.update st.visited c true, st.visitedCount + 1⟩
      (K + 1) cs (mazeNeighbors m (Function.update st.visited c true) c) := by
  have hnb := mazeNeighbors_spec m (Function.update st.visited c true) c
  have hadjnb := mazeNeighbors_adj m (Function.update st.visited c true) c
  have hkc : MDist m mazeStart c (K + 1) := hb.memB c (List.mem_cons_self c cs)
  have hKdone : ∀ u, MDist m mazeStart u K → st.visited u = true := by
    intro u hu
    by_cases h0 : st.visited u = true
    · exact h0
    · exact absurd (hb.coverA u hu (bool_eq_false _ h0)) (List.not_mem_nil u)
  have hcomp' : ∀ u k, MDist m mazeStart u k → k < K + 1 → st.visited u = true := by
    intro u k hu hk
    by_cases hkK : k = K
    · exact hKdone u (hkK ▸ hu)
    · exact hb.complete u k hu (by omega)
  have hnbdist : ∀ e ∈ mazeNeighbors m (Function.update st.visited c true) c,
      MDist m mazeStart e (K + 2) := by
    intro e he
    have hef := hnb.2 e he
    obtain ⟨hef0, hefc⟩ := update_false_elim st.visited c e hef.2.2
    have hadj := hadjnb e he
    obtain ⟨ke, hke, hle⟩ :=
      mdist_extend m mazeStart c e (K + 1) hkc hadj hef.1 hef.2.1
    rcases mdist_adj m mazeStart c e (K + 1) ke hkc hke hadj with h1 | h1
    · have h2 : ke = K + 2 := by omega
      rw [← h2]
      exact hke
    · have hek : ke = K := by omega
      rw [hek] at hke
      have := hKdone e hke
      rw [hef0] at this
      cases this
  refine ⟨?_, ?_, ?_, ?_, ?_, ?_, ?_, ?_, ?_⟩
  · dsimp only
  · intro v hv
    dsimp only at hv
    by_cases hvc : v = c
    · subst hvc
      exact ⟨K + 1, hkc, le_refl _⟩
    · rw [Function.update_noteq hvc] at hv
      obtain ⟨k, hk, hkle⟩ := hb.visitedDist v hv
      exact ⟨k, hk, by omega⟩
  · intro u k hu hk
    dsimp only
    exact visited_mono st.visited c u (hcomp' u k hu hk)
  · intro e he
    exact ⟨K + 1, hb.memB e (List.mem_cons_of_mem c he), le_refl _⟩
  · intro e he
    exact hnbdist e he
  · intro u hu hvf'
    dsimp only at hvf'
    obtain ⟨hu0, huc⟩ := update_false_elim st.visited c u hvf'
    rcases hb.coverB u hu hu0 with h0 | ⟨p, _, hpK, hpv⟩
    · rcases List.mem_cons.mp h0 with h1 | h1
      · exact absurd h1 huc
      · exact h1
    · have := hKdone p hpK
      rw [hpv] at this
      cases this
  · intro u hu hvf'
    dsimp only at hvf' ⊢
    obtain ⟨hu0, huc⟩ := update_false_elim st.visited c u hvf'
    obtain ⟨p0, hp0adj, hp0⟩ := mdist_pred m mazeStart u (K + 1) hu
    by_cases hp0v : st.visited p0 = true
    · obtain ⟨k0, hk0, hk0le⟩ := hb.visitedDist p0 hp0v
      have := mdist_unique m mazeStart p0 k0 (K + 1) hk0 hp0
      omega
    · by_cases hp0c : p0 = c
      · subst hp0c
        left
        have hcell := mdist_cell m mazeStart u (K + 1 + 1) hu
        exact mazeNeighbors_complete m _ p0 u hp0adj hcell.1 hcell.2 hvf'
      · right
        exact ⟨p0, hp0adj, hp0,
          by rw [Function.update_noteq hp0c]; exact bool_eq_false _ hp0v⟩
  · intro v hv
    dsimp only at hv ⊢
    by_cases hvc : v = c
    · subst hvc
      cases hpar : st.parent v with
      | none =>
          exact absurd hpar
            (hgr.queueParent v (by rw [hq]; exact List.mem_cons_self v cs))
      | some q =>
          obtain ⟨hqvis, hqadj, _, _⟩ := hgr.parentFacts v q hpar
          obtain ⟨kq, hkq, hkqle⟩ := hb.visitedDist q hqvis
          rcases mdist_adj m mazeStart q v kq (K + 1) hkq hkc hqadj with h1 | h1
          · obtain ⟨kq2, chq, hkq2, hchq, hlen⟩ := hb.chainLen q hqvis
            have hkqeq : kq2 = kq := mdist_unique m mazeStart q kq2 kq hkq2 hkq
            refine ⟨K + 1, v :: chq, hkc, ?_, ?_⟩
            · exact chainWalk_visit m st v q chq hinv hpar hqvis hchq
            · simp only [List.length_cons]
              omega
          · omega
    · rw [Function.update_noteq hvc] at hv
      obtain ⟨k, ch, hk, hch, hlen⟩ := hb.chainLen v hv
      exact ⟨k, ch, hk, chainWalk_update m st c hinv v ch hv hch, hlen⟩
  · intro v hv
    dsimp only at hv
    by_cases hvc : v = c
    · subst hvc
      exact hend
    · rw [Function.update_noteq hvc] at hv
      exact hb.noEnd v hv

theorem searchStep_breach (m : Maze) (prior : MazePrior) (st st' : SState)
    (hsin : mazeInBounds m mazeStart) (hsw : m.isWall mazeStart = false)
    (hinv : SInv m st) (hg : GReach m st) (hb : BReach m st)
    (h : searchStep m false prior st = Sum.inl st') : BReach m st' := by
  right
  rcases hg with rfl | hgr
  · rw [searchStep_init] at h
    by_cases hend : m.isEnd mazeStart = true
    · rw [if_pos hend] at h
      simp at h
    · rw [if_neg hend] at h
      simp only [Sum.inl.injEq] at h
      subst h
      exact ⟨0, [], _, bfs_init_brun m hsin hsw (bool_eq_false _ hend)⟩
  · obtain ⟨K, A, B, hb⟩ : ∃ K A B, BRun m st K A B := by
      rcases hb with rfl | h0
      · have := hgr.startVisited
        simp [initSState] at this
      · exact h0
    cases hq : st.queue with
    | nil =>
        unfold searchStep at h
        rw [hq] at h
        simp at h
    | cons c cs =>
        rw [searchStep_bfs m prior st c cs hq] at h
        have hsplit := hb.split
        rw [hq] at hsplit
        by_cases hvis : st.visited c = true
        · rw [if_pos hvis] at h
          simp only [Sum.inl.injEq] at h
          subst h
          cases hA : A with
          | nil =>
              rw [hA, List.nil_append] at hsplit
              refine ⟨K, [], cs, rfl, hb.visitedDist, hb.complete, ?_, ?_, ?_, ?_,
                hb.chainLen, hb.noEnd⟩
              · intro e he
                exact absurd he (List.not_mem_nil e)
              · intro e he
                exact hb.memB e (by rw [← hsplit]; exact List.mem_cons_of_mem c he)
              · intro u hu hvf'
                have h0 := hb.coverA u hu hvf'
                rw [hA] at h0
                exact absurd h0 (List.not_mem_nil u)
              · intro u hu hvf'
                rcases hb.coverB u hu hvf' with h0 | h0
                · rw [← hsplit] at h0
                  rcases List.mem_cons.mp h0 with h1 | h1
                  · rw [h1] at hvf'
                    rw [hvf'] at hvis
                    cases hvis
                  · exact Or.inl h1
                · exact Or.inr h0
          | cons a A' =>
              rw [hA, List.cons_append] at hsplit
              have hca : c = a := ((List.cons.injEq _ _ _ _).mp hsplit).1
              have hcs : cs = A' ++ B := ((List.cons.injEq _ _ _ _).mp hsplit).2
              refine ⟨K, A', B, hcs, hb.visitedDist, hb.complete, ?_, hb.memB, ?_, ?_,
                hb.chainLen, hb.noEnd⟩
              · intro e he
                exact hb.memA e (by rw [hA]; exact List.mem_cons_of_mem a he)
              · intro u hu hvf'
                have h0 := hb.coverA u hu hvf'
                rw [hA] at h0
                rcases List.mem_cons.mp h0 with h1 | h1
                · rw [← hca] at h1
                  rw [h1] at hvf'
                  rw [hvf'] at hvis
                  cases hvis
                · exact h1
              · intro u hu hvf'
                exact hb.coverB u hu hvf'
        · rw [if_neg hvis] at h
          by_cases hend : m.isEnd c = true
          · rw [if_pos hend] at h
            cases hcw : chainWalk st.parent (st.visitedCount + 1) c with
            | none => rw [hcw] at h; simp at h
            | some ch => rw [hcw] at h; simp at h
          · rw [if_neg hend] at h
            simp only [Sum.inl.injEq] at h
            subst h
            cases hA : A with
            | nil =>
                rw [hA, List.nil_append] at hsplit
                rw [hA, ← hsplit] at hb
                exact ⟨K + 1, cs, _, breach_bump m st c cs K hinv hgr hb hq
                  (bool_eq_false _ hvis) (bool_eq_false _ hend)⟩
            | cons a A' =>
                rw [hA, List.cons_append] at hsplit
                have hca : c = a := ((List.cons.injEq _ _ _ _).mp hsplit).1
                have hcs : cs = A' ++ B := ((List.cons.injEq _ _ _ _).mp hsplit).2
                rw [hA, ← hca] at hb
                exact ⟨K, A', _, breach_visit m st c cs A' B K hinv hgr hb hq hcs
                  (bool_eq_false _ hvis) (bool_eq_false _ hend)⟩

/-- When BFS finds an end cell, the reconstructed chain has exactly the
end cell's distance plus one cells, and no reachable end cell is
closer. -/
theorem searchStep_bfound (m : Maze) (prior : MazePrior) (st : SState) (out : SOutcome)
    (hsin : mazeInBounds m mazeStart) (hsw : m.isWall mazeStart = false)
    (hinv : SInv m st) (hg : GReach m st) (hb : BReach m st)
    (h : searchStep m false prior st = Sum.inr (some out)) (hne : out.path ≠ []) :
    ∃ e k, out.path.head? = some e ∧ m.isEnd e = true ∧ MDist m mazeStart e k ∧
      out.pathLength = k + 1 ∧
      ∀ e' k', m.isEnd e' = true → MDist m mazeStart e' k' → k ≤ k' := by
  rcases hg with rfl | hgr
  · rw [searchStep_init] at h
    by_cases hend : m.isEnd mazeStart = true
    · rw [if_pos hend] at h
      simp only [Sum.inr.injEq, Option.some.injEq] at h
      subst h
      exact ⟨mazeStart, 0, rfl, hend, mdist_self m mazeStart hsin hsw, rfl,
        fun e' k' _ _ => Nat.zero_le k'⟩
    · rw [if_neg hend] at h
      simp at h
  · obtain ⟨K, A, B, hb⟩ : ∃ K A B, BRun m st K A B := by
      rcases hb with rfl | h0
      · have := hgr.startVisited
        simp [initSState] at this
      · exact h0
    cases hq : st.queue with
    | nil =>
        unfold searchStep at h
        rw [hq] at h
        simp only [Sum.inr.injEq, Option.some.injEq] at h
        subst h
        exact absurd rfl hne
    | cons c cs =>
        rw [searchStep_bfs m prior st c cs hq] at h
        have hsplit := hb.split
        rw [hq] at hsplit
        by_cases hvis : st.visited c = true
        · rw [if_pos hvis] at h
          simp at h
        · rw [if_neg hvis] at h
          by_cases hend : m.isEnd c = true
          · rw [if_pos hend] at h
            have hvf := bool_eq_false _ hvis
            have hcq : st.parent c ≠ none :=
              hgr.queueParent c (by rw [hq]; exact List.mem_cons_self c cs)
            cases hpar : st.parent c with
            | none => exact absurd hpar hcq
            | some q =>
                obtain ⟨hqvis, hqadj, _, _⟩ := hgr.parentFacts c q hpar
                obtain ⟨kq, chq, hkq, hchq, hlenq⟩ := hb.chainLen q hqvis
                have hfull : chainWalk st.parent (st.visitedCount + 1) c =
                    some (c :: chq) := by
                  rw [chainWalk, hpar]
                  dsimp only
                  rw [hchq]
                  rfl
                rw [hfull] at h
                dsimp only at h
                simp only [Sum.inr.injEq, Option.some.injEq] at h
                subst h
                have hckc : ∃ kc, MDist m mazeStart c kc ∧
                    (kc = K ∨ (kc = K + 1 ∧
                      ∀ u, MDist m mazeStart u K → st.visited u = true)) := by
                  cases hA : A with
                  | nil =>
                      rw [hA, List.nil_append] at hsplit
                      refine ⟨K + 1,
                        hb.memB c (by rw [← hsplit]; exact List.mem_cons_self c cs),
                        Or.inr ⟨rfl, ?_⟩⟩
                      intro u hu
                      by_cases h0 : st.visited u = true
                      · exact h0
                      · have h1 := hb.coverA u hu (bool_eq_false _ h0)
                        rw [hA] at h1
                        exact absurd h1 (List.not_mem_nil u)
                  | cons a A' =>
                      rw [hA, List.cons_append] at hsplit
                      have hca : c = a := ((List.cons.injEq _ _ _ _).mp hsplit).1
                      obtain ⟨kc, hkc, hkcle⟩ := hb.memA c
                        (by rw [hA, ← hca]; exact List.mem_cons_self c _)
                      have hkcK : kc = K := by
                        by_contra hne2
                        have := hb.complete c kc hkc (by omega)
                        rw [hvf] at this
                        cases this
                      rw [hkcK] at hkc
                      exact ⟨K, hkc, Or.inl rfl⟩
                obtain ⟨kc, hkc, hkcase⟩ := hckc
                rcases mdist_adj m mazeStart q c kq kc hkq hkc hqadj with h1 | h1
                · refine ⟨c, kc, rfl, hend, hkc, ?_, ?_⟩
                  · dsimp only
                    simp only [List.length_cons]
                    omega
                  · intro e' k' hend' hk'
                    by_contra hlt
                    push_neg at hlt
                    rcases hkcase with hkcK | ⟨hkcK1, hdone⟩
                    · have h2 := hb.noEnd e' (hb.complete e' k' hk' (by omega))
                      rw [hend'] at h2
                      cases h2
                    · by_cases hk'K : k' = K
                      · have h2 := hb.noEnd e' (hdone e' (hk'K ▸ hk'))
                        rw [hend'] at h2
                        cases h2
                      · have h2 := hb.noEnd e' (hb.complete e' k' hk' (by omega))
                        rw [hend'] at h2
                        cases h2
                · have hkqle : kq ≤ K := by
                    obtain ⟨kq1, hkq1, hkq1le⟩ := hb.visitedDist q hqvis
                    have := mdist_unique m mazeStart q kq kq1 hkq hkq1
                    omega
                  rcases hkcase with hkcK | ⟨hkcK1, _⟩ <;> omega
          · rw [if_neg hend] at h
            simp at h

theorem runSearchGo_bfound (m : Maze) (prior : MazePrior)
    (hsin : mazeInBounds m mazeStart) (hsw : m.isWall mazeStart = false) :
    ∀ fuel st out, SInv m st → GReach m st → BReach m st →
      runSearchGo m false prior fuel st = some out → out.path ≠ [] →
      ∃ e k, out.path.head? = some e ∧ m.isEnd e = true ∧ MDist m mazeStart e k ∧
        out.pathLength = k + 1 ∧
        ∀ e' k', m.isEnd e' = true → MDist m mazeStart e' k' → k ≤ k' := by
  intro fuel
  induction fuel with
  | zero =>
      intro st out _ _ _ hrun
      simp [runSearchGo] at hrun
  | succ n ih =>
      intro st out hinv hg hb hrun hne
      rw [runSearchGo] at hrun
      cases hstep : searchStep m false prior st with
      | inr r =>
          rw [hstep] at hrun
          dsimp only at hrun
          subst hrun
          exact searchStep_bfound m prior st out hsin hsw hinv hg hb hstep hne
      | inl st' =>
          rw [hstep] at hrun
          dsimp only at hrun
          exact ih st' out (searchStep_inl m false prior st st' hinv hstep).1
            (searchStep_greach m false prior st st' hg hstep)
            (searchStep_breach m prior st st' hsin hsw hinv hg hb hstep) hrun hne

/-- A 2×2 maze with no walls and end `(1, 0)`: both searches find it,
BFS with 2 path cells, DFS with 4. -/
def maze3 : Maze :=
  ⟨2, 2, fun _ => false, fun p => decide (p = ((1 : Int), (0 : Int)))⟩

/-- **C5.**  For every maze whose start `(1, 1)` is open, if BFS (from
the hardcoded start) reaches an end cell then its reconstructed path is
a true shortest path: its reported length counts `k + 1` cells where
`k` is the minimum hop distance over unblocked 4-adjacent cells to the
end cell it reports — so its hop count `pathLength - 1` equals the true
shortest-path length; and whenever DFS also finds a path on the same
maze, BFS's reported path length is at most DFS's. -/
theorem bfs_shortest_dfs_longer (m : Maze) (priorB priorD : MazePrior)
    (rB rD : SOutcome) (hw : 2 ≤ m.width) (hh : 2 ≤ m.height)
    (hsw : m.isWall mazeStart = false)
    (hB : runBFS m priorB = some rB) (hBf : rB.path ≠ []) :
    (∃ e k, rB.path.head? = some e ∧ m.isEnd e = true ∧
      MDist m mazeStart e k ∧ rB.pathLength = k + 1) ∧
    (runDFS m priorD = some rD → rD.path ≠ [] → rB.pathLength ≤ rD.pathLength) := by
  have hsin := mazeStart_inBounds m hw hh
  obtain ⟨e, k, hhead, hend, hk, hlen, hmin⟩ :=
    runSearchGo_bfound m priorB hsin hsw (searchFuel m) initSState rB
      (initSState_inv m hw hh) (Or.inl rfl) (Or.inl rfl) hB hBf
  refine ⟨⟨e, k, hhead, hend, hk, hlen⟩, ?_⟩
  intro hD hDf
  obtain ⟨e', hhead', hend', hwalk', hlen'⟩ :=
    runSearch_found_walk m true priorD rD hw hh hsw hD hDf
  obtain ⟨k', hk'⟩ := mdist_exists m mazeStart e' ⟨_, hwalk'⟩
  have hbound := hk'.2 _ hwalk'
  rw [List.length_reverse] at hbound
  have hmin' := hmin e' k' hend' hk'
  omega

set_option maxHeartbeats 2000000 in
theorem bfs_shortest_dfs_longer_witness :
    ∃ rB rD : SOutcome, runBFS maze3 ⟨0, false⟩ = some rB ∧
      runDFS maze3 ⟨0, false⟩ = some rD ∧
      (∃ e k, rB.path.head? = some e ∧ maze3.isEnd e = true ∧
        MDist maze3 mazeStart e k ∧ rB.pathLength = k + 1) ∧
      rB.pathLength ≤ rD.pathLength := by
  refine ⟨⟨2, 2, true, [((1 : Int), (0 : Int)), ((1 : Int), (1 : Int))]⟩,
    ⟨4, 4, true, [((1 : Int), (0 : Int)), ((0 : Int), (0 : Int)), ((0 : Int), (1 : Int)),
      ((1 : Int), (1 : Int))]⟩, by decide, by decide, ?_, ?_⟩
  · exact (bfs_shortest_dfs_longer maze3 ⟨0, false⟩ ⟨0, false⟩ _
      ⟨4, 4, true, [((1 : Int), (0 : Int)), ((0 : Int), (0 : Int)), ((0 : Int), (1 : Int)),
        ((1 : Int), (1 : Int))]⟩ (by decide) (by decide)
      (by decide) (by decide) (by decide)).1
  · exact (bfs_shortest_dfs_longer maze3 ⟨0, false⟩ ⟨0, false⟩ _
      ⟨4, 4, true, [((1 : Int), (0 : Int)), ((0 : Int), (0 : Int)), ((0 : Int), (1 : Int)),
        ((1 : Int), (1 : Int))]⟩ (by decide) (by decide)
      (by decide) (by decide) (by decide)).2 (by decide) (by decide)

/-! ### C6: `findMST` (Kruskal) -/

/-- An edge of the network graph: `from`/`to` node indices (`from` is a
Lean keyword, renamed `src`/`dst`) and a weight. -/
structure MEdge where
  src : Nat
  dst : Nat
  weight : Nat
deriving DecidableEq, Repr

/-- The comparator `(a, b) => a.weight - b.weight`: ascending weight. -/
def wLE (a b : MEdge) : Prop := a.weight ≤ b.weight

instance : DecidableRel wLE :=
  fun a b => inferInstanceAs (Decidable (a.weight ≤ b.weight))

instance : IsTotal MEdge wLE := ⟨fun a b => Nat.le_total a.weight b.weight⟩

instance : IsTrans MEdge wLE := ⟨fun _ _ _ h1 h2 => Nat.le_trans h1 h2⟩

/-- `[...edges].sort((a, b) => a.weight - b.weight)`: JS `sort` is
stable, and a stable sort under a total preorder equals insertion
sort. -/
def sortedEdges (edges : List MEdge) : List MEdge := List.insertionSort wLE edges

/-- One `sortedEdges.forEach` iteration of `findMST`: union the edge's
endpoints; on success include the edge and add its weight to the
running total. -/
def kruskalStep (fuel : Nat) (acc : UF × List MEdge × Nat) (e : MEdge) :
    UF × List MEdge × Nat :=
  let r := ufUnion fuel acc.1 e.src e.dst
  if r.1 then (r.2, acc.2.1 ++ [e], acc.2.2 + e.weight)
  else (r.2, acc.2.1, acc.2.2)

/-- `findMST`: Kruskal's loop over the stably sorted edge list,
returning the included edges (the set `mstEdgeIndices`, as edge values)
and the accumulated `mstWeight`.  The recursion fuel
`edges.length + 1` covers every union-find chain the loop can build
(ranks never exceed the number of successful unions, proved below). -/
def findMST (edges : List MEdge) : List MEdge × Nat :=
  ((sortedEdges edges).foldl (kruskalStep (edges.length + 1)) (ufInit, [], 0)).2

theorem sortedEdges_sorted (edges : List MEdge) : (sortedEdges edges).Pairwise wLE :=
  List.sorted_insertionSort wLE edges

theorem filter_orderedInsert (c : Nat) (a : MEdge) :
    ∀ l : List MEdge, (List.orderedInsert wLE a l).filter (fun e => e.weight = c) =
      if a.weight = c then a :: l.filter (fun e => e.weight = c)
      else l.filter (fun e => e.weight = c) := by
  intro l
  induction l with
  | nil =>
      by_cases hac : a.weight = c
      · simp [List.orderedInsert, hac]
      · simp [List.orderedInsert, hac]
  | cons b l ih =>
      simp only [List.orderedInsert]
      by_cases hab : wLE a b
      · rw [if_pos hab]
        by_cases hac : a.weight = c
        · simp [List.filter_cons, hac]
        · simp [List.filter_cons, hac]
      · rw [if_neg hab]
        have hba : b.weight < a.weight := by
          unfold wLE at hab
          omega
        rw [List.filter_cons, List.filter_cons, ih]
        by_cases hbc : b.weight = c
        · have hac : ¬a.weight = c := by omega
          simp [hbc, hac]
        · simp [hbc]

/-- Stability of the sort: for every weight, the subsequence of edges
of that weight is exactly as in the input. -/
theorem sortedEdges_stable (edges : List MEdge) (c : Nat) :
    (sortedEdges edges).filter (fun e => e.weight = c) =
      edges.filter (fun e => e.weight = c) := by
  unfold sortedEdges
  induction edges with
  | nil => rfl
  | cons a l ih =>
      simp only [List.insertionSort]
      rw [filter_orderedInsert c a (List.insertionSort wLE l), ih, List.filter_cons]
      by_cases hac : a.weight = c
      · simp [hac]
      · simp [hac]

/-- The loop includes an edge exactly when the two `find` roots differ,
in which case the union is performed and the edge's weight added. -/
theorem kruskalStep_iff (fuel : Nat) (st : UF) (T : List MEdge) (W : Nat) (e : MEdge) :
    kruskalStep fuel (st, T, W) e =
      if (ufFind fuel st.parent e.src).1 ≠
          (ufFind fuel (ufFind fuel st.parent e.src).2 e.dst).1
      then ((ufUnion fuel st e.src e.dst).2, T ++ [e], W + e.weight)
      else ((ufUnion fuel st e.src e.dst).2, T, W) := by
  have hiff : (ufUnion fuel st e.src e.dst).1 = true ↔
      (ufFind fuel st.parent e.src).1 ≠
        (ufFind fuel (ufFind fuel st.parent e.src).2 e.dst).1 := by
    unfold ufUnion
    dsimp only
    by_cases h : (ufFind fuel st.parent e.src).1 =
        (ufFind fuel (ufFind fuel st.parent e.src).2 e.dst).1
    · rw [if_pos h]
      simp [h]
    · rw [if_neg h]
      split
      · simp [h]
      · split
        · simp [h]
        · simp [h]
  unfold kruskalStep
  dsimp only
  by_cases h : (ufUnion fuel st e.src e.dst).1 = true
  · rw [if_pos h, if_pos (hiff.mp h)]
  · rw [if_neg h, if_neg (fun hne => h (hiff.mpr hne))]

/-! ### Union-find verification: path compression preserves roots -/

/-- The root of `x` under repeated parent lookups, without compression. -/
def rootW (p : Nat → Nat) : Nat → Nat → Nat
  | 0, x => x
  | fuel + 1, x => if p x = x then x else rootW p fuel (p x)

/-- The classic rank invariant: ranks strictly increase along parent
links. -/
def RankOK (p rank : Nat → Nat) : Prop := ∀ x, p x ≠ x → rank x < rank (p x)

theorem rootW_self (p : Nat → Nat) (r : Nat) (h : p r = r) :
    ∀ fuel, rootW p fuel r = r := by
  intro fuel
  cases fuel with
  | zero => rfl
  | succ f =>
      rw [rootW, if_pos h]

theorem rootW_fix (p rank : Nat → Nat) (R : Nat) (hok : RankOK p rank)
    (hR : ∀ z, rank z ≤ R) :
    ∀ fuel x, R < fuel + rank x → p (rootW p fuel x) = rootW p fuel x := by
  intro fuel
  induction fuel with
  | zero =>
      intro x hf
      have := hR x
      omega
  | succ f ih =>
      intro x hf
      rw [rootW]
      by_cases hpx : p x = x
      · rw [if_pos hpx]
        exact hpx
      · rw [if_neg hpx]
        exact ih (p x) (by have := hok x hpx; omega)

theorem rootW_stable (p rank : Nat → Nat) (R : Nat) (hok : RankOK p rank)
    (hR : ∀ z, rank z ≤ R) :
    ∀ fuel fuel' x, R < fuel + rank x → R < fuel' + rank x →
      rootW p fuel x = rootW p fuel' x := by
  intro fuel
  induction fuel with
  | zero =>
      intro fuel' x hf
      have := hR x
      omega
  | succ f ih =>
      intro fuel' x hf hf'
      cases fuel' with
      | zero =>
          have := hR x
          omega
      | succ f' =>
          rw [rootW, rootW]
          by_cases hpx : p x = x
          · rw [if_pos hpx, if_pos hpx]
          · rw [if_neg hpx, if_neg hpx]
            exact ih f' (p x) (by have := hok x hpx; omega)
              (by have := hok x hpx; omega)

theorem rootW_rank_le (p rank : Nat → Nat) (hok : RankOK p rank) :
    ∀ fuel x, rank x ≤ rank (rootW p fuel x) := by
  intro fuel
  induction fuel with
  | zero => intro x; exact le_refl _
  | succ f ih =>
      intro x
      rw [rootW]
      by_cases hpx : p x = x
      · rw [if_pos hpx]
      · rw [if_neg hpx]
        have h1 := hok x hpx
        have h2 := ih (p x)
        omega

/-- Redirecting a non-root node to (a node with the same root, of higher
rank, itself a root) preserves every root. -/
theorem rootW_update (p rank : Nat → Nat) (R : Nat) (hok : RankOK p rank)
    (hR : ∀ z, rank z ≤ R) (x r : Nat) (hpx : p x ≠ x) (hrr : p r = r)
    (hroot : rootW p (R + 1) x = r) (hrank : rank x < rank r) :
    RankOK (Function.update p x r) rank ∧
    ∀ v fuel, R < fuel + rank v →
      rootW (Function.update p x r) fuel v = rootW p fuel v := by
  constructor
  · intro z hz
    by_cases hzx : z = x
    · subst hzx
      rw [Function.update_same]
      exact hrank
    · rw [Function.update_noteq hzx] at hz ⊢
      exact hok z hz
  · intro v fuel
    induction fuel generalizing v with
    | zero =>
        intro hf
        have := hR v
        omega
    | succ f ih =>
        intro hf
        by_cases hvx : v = x
        · subst hvx
          have hrx : r ≠ v := by
            intro h0
            rw [h0] at hrank
            omega
          rw [rootW, rootW, Function.update_same,
            if_neg (fun h0 : r = v => hrx h0), if_neg hpx]
          have h1 : rootW (Function.update p v r) f r = r := by
            have hpr' : Function.update p v r r = r := by
              rw [Function.update_noteq (fun h0 : r = v => hrx h0)]
              exact hrr
            exact rootW_self _ r hpr' f
          rw [h1]
          have h2 : rootW p f (p v) = rootW p (R + 1) v := by
            have h3 : rootW p (R + 1) v = rootW p R (p v) := by
              rw [rootW, if_neg hpx]
            rw [h3]
            exact rootW_stable p rank R hok hR f R (p v)
              (by have := hok v hpx; omega) (by have := hok v hpx; omega)
          rw [h2, hroot]
        · rw [rootW, rootW, Function.update_noteq hvx]
          by_cases hpv : p v = v
          · rw [if_pos hpv, if_pos hpv]
          · rw [if_neg hpv, if_neg hpv]
            exact ih (p v) (by have := hok v hpv; omega)

/-- `find` (with path compression) returns the true root and leaves
every node's root, every fixpoint, and the rank invariant intact. -/
theorem ufFind_spec (p rank : Nat → Nat) (R : Nat) (hok : RankOK p rank)
    (hR : ∀ z, rank z ≤ R) :
    ∀ fuel x, R < fuel + rank x →
      (ufFind fuel p x).1 = rootW p (R + 1) x ∧
      RankOK (ufFind fuel p x).2 rank ∧
      (∀ v fv, R < fv + rank v → rootW (ufFind fuel p x).2 fv v = rootW p fv v) ∧
      (∀ v, (ufFind fuel p x).2 v = v ↔ p v = v) := by
  intro fuel
  induction fuel with
  | zero =>
      intro x hf
      have := hR x
      omega
  | succ f ih =>
      intro x hf
      rw [ufFind]
      by_cases hpx : p x = x
      · rw [if_pos hpx]
        refine ⟨?_, hok, fun v fv _ => rfl, fun v => Iff.rfl⟩
        rw [rootW_self p x hpx (R + 1)]
      · rw [if_neg hpx]
        dsimp only
        obtain ⟨ih1, ih2, ih3, ih4⟩ := ih (p x) (by have := hok x hpx; omega)
        have hrootx : rootW p (R + 1) x = rootW p (R + 1) (p x) := by
          have h3 : rootW p (R + 1) x = rootW p R (p x) := by
            rw [rootW, if_neg hpx]
          rw [h3]
          exact rootW_stable p rank R hok hR R (R + 1) (p x)
            (by have := hok x hpx; omega) (by have := hok x hpx; omega)
        have hr1 : (ufFind f p (p x)).1 = rootW p (R + 1) x := by
          rw [ih1, hrootx]
        have hfixr : p (rootW p (R + 1) x) = rootW p (R + 1) x :=
          rootW_fix p rank R hok hR (R + 1) x (by have := hR x; omega)
        have hrankr : rank x < rank (rootW p (R + 1) x) := by
          have h1 := rootW_rank_le p rank hok R (p x)
          have h2 := hok x hpx
          have h4 : rootW p (R + 1) x = rootW p R (p x) := by
            rw [rootW, if_neg hpx]
          rw [← h4] at h1
          omega
        have hq : (ufFind f p (p x)).2 x ≠ x := by
          intro h0
          exact hpx ((ih4 x).mp h0)
        have hqfix : (ufFind f p (p x)).2 ((ufFind f p (p x)).1) =
            (ufFind f p (p x)).1 := by
          rw [hr1]
          exact (ih4 _).mpr hfixr
        have hqroot : rootW (ufFind f p (p x)).2 (R + 1) x = (ufFind f p (p x)).1 := by
          rw [ih3 x (R + 1) (by have := hR x; omega), hr1]
        obtain ⟨hu1, hu2⟩ := rootW_update (ufFind f p (p x)).2 rank R ih2 hR x
          (ufFind f p (p x)).1 hq hqfix hqroot (by rw [hr1]; exact hrankr)
        refine ⟨?_, hu1, ?_, ?_⟩
        · exact hr1
        · intro v fv hfv
          rw [hu2 v fv hfv, ih3 v fv hfv]
        · intro v
          by_cases hvx : v = x
          · subst hvx
            rw [Function.update_same]
            constructor
            · intro h0
              rw [hr1] at h0
              rw [h0] at hrankr
              omega
            · intro h0
              exact absurd h0 hpx
          · rw [Function.update_noteq hvx]
            exact ih4 v

/-- Linking root `r1` beneath root `r2` collapses exactly the class of
`r1` into that of `r2`. -/
theorem rootW_link (p rank : Nat → Nat) (R : Nat) (hok : RankOK p rank)
    (hR : ∀ z, rank z ≤ R) (r1 r2 : Nat) (h1 : p r1 = r1) (h2 : p r2 = r2)
    (hne : r1 ≠ r2) :
    ∀ v fuel, R < fuel + rank v →
      rootW (Function.update p r1 r2) fuel v =
        (if rootW p fuel v = r1 then r2 else rootW p fuel v) := by
  intro v fuel
  induction fuel generalizing v with
  | zero =>
      intro hf
      have := hR v
      omega
  | succ f ih =>
      intro hf
      by_cases hv1 : v = r1
      · subst hv1
        have hL : rootW (Function.update p v r2) (f + 1) v = r2 := by
          rw [rootW, Function.update_same, if_neg (Ne.symm hne)]
          have hr2' : Function.update p v r2 r2 = r2 := by
            rw [Function.update_noteq (Ne.symm hne)]
            exact h2
          exact rootW_self _ r2 hr2' f
        rw [hL, rootW_self p v h1 (f + 1), if_pos rfl]
      · by_cases hpv : p v = v
        · have hL : rootW (Function.update p r1 r2) (f + 1) v = v := by
            rw [rootW, Function.update_noteq hv1, if_pos hpv]
          have hRr : rootW p (f + 1) v = v := by
            rw [rootW, if_pos hpv]
          rw [hL, hRr, if_neg hv1]
        · have hL : rootW (Function.update p r1 r2) (f + 1) v =
              rootW (Function.update p r1 r2) f (p v) := by
            rw [rootW, Function.update_noteq hv1, if_neg hpv]
          have hRr : rootW p (f + 1) v = rootW p f (p v) := by
            rw [rootW, if_neg hpv]
          rw [hL, hRr]
          exact ih (p v) (by have := hok v hpv; omega)

/-- `union(x, y)` either returns `false` with the two roots equal and
every class unchanged, or returns `true` and collapses exactly the two
distinct classes of `x` and `y`; the rank invariant persists and the
rank bound grows by at most one. -/
theorem ufUnion_spec (st : UF) (R fuel : Nat) (hok : RankOK st.parent st.rank)
    (hR : ∀ z, st.rank z ≤ R) (hfuel : R < fuel) (x y : Nat) :
    RankOK (ufUnion fuel st x y).2.parent (ufUnion fuel st x y).2.rank ∧
    (∀ z, (ufUnion fuel st x y).2.rank z ≤ R + 1) ∧
    ((ufUnion fuel st x y).1 = false →
      rootW st.parent (R + 1) x = rootW st.parent (R + 1) y ∧
      (ufUnion fuel st x y).2.rank = st.rank ∧
      (∀ v fv, R < fv →
        rootW (ufUnion fuel st x y).2.parent fv v = rootW st.parent fv v)) ∧
    ((ufUnion fuel st x y).1 = true →
      rootW st.parent (R + 1) x ≠ rootW st.parent (R + 1) y ∧
      ∃ r1 r2, r1 ≠ r2 ∧
        ((r1 = rootW st.parent (R + 1) x ∧ r2 = rootW st.parent (R + 1) y) ∨
         (r1 = rootW st.parent (R + 1) y ∧ r2 = rootW st.parent (R + 1) x)) ∧
        ∀ v fv, R < fv →
          rootW (ufUnion fuel st x y).2.parent fv v =
            (if rootW st.parent fv v = r1 then r2
             else rootW st.parent fv v)) := by
  obtain ⟨hfx1, hfx2, hfx3, hfx4⟩ :=
    ufFind_spec st.parent st.rank R hok hR fuel x (by omega)
  obtain ⟨hfy1, hfy2, hfy3, hfy4⟩ :=
    ufFind_spec (ufFind fuel st.parent x).2 st.rank R hfx2 hR fuel y (by omega)
  have hfy1' : (ufFind fuel (ufFind fuel st.parent x).2 y).1 =
      rootW st.parent (R + 1) y := by
    rw [hfy1, hfx3 y (R + 1) (by have := hR y; omega)]
  have hcomp3 : ∀ v fv, R < fv →
      rootW (ufFind fuel (ufFind fuel st.parent x).2 y).2 fv v =
        rootW st.parent fv v := by
    intro v fv hfv
    rw [hfy3 v fv (by have := hR v; omega), hfx3 v fv (by have := hR v; omega)]
  have hcomp4 : ∀ v,
      ((ufFind fuel (ufFind fuel st.parent x).2 y).2 v = v ↔ st.parent v = v) := by
    intro v
    rw [hfy4 v, hfx4 v]
  have hrxfix : st.parent (rootW st.parent (R + 1) x) = rootW st.parent (R + 1) x :=
    rootW_fix st.parent st.rank R hok hR (R + 1) x (by have := hR x; omega)
  have hryfix : st.parent (rootW st.parent (R + 1) y) = rootW st.parent (R + 1) y :=
    rootW_fix st.parent st.rank R hok hR (R + 1) y (by have := hR y; omega)
  unfold ufUnion
  dsimp only
  rw [hfx1, hfy1']
  by_cases heq : rootW st.parent (R + 1) x = rootW st.parent (R + 1) y
  · rw [if_pos heq]
    dsimp only
    refine ⟨hfy2, fun z => by have := hR z; omega, ?_, ?_⟩
    · intro _
      exact ⟨heq, rfl, hcomp3⟩
    · intro h0
      cases h0
  · rw [if_neg heq]
    have hq2x : (ufFind fuel (ufFind fuel st.parent x).2 y).2
        (rootW st.parent (R + 1) x) = rootW st.parent (R + 1) x :=
      (hcomp4 _).mpr hrxfix
    have hq2y : (ufFind fuel (ufFind fuel st.parent x).2 y).2
        (rootW st.parent (R + 1) y) = rootW st.parent (R + 1) y :=
      (hcomp4 _).mpr hryfix
    by_cases hr1 : st.rank (rootW st.parent (R + 1) x) <
        st.rank (rootW st.parent (R + 1) y)
    · rw [if_pos hr1]
      dsimp only
      have hlink := rootW_link (ufFind fuel (ufFind fuel st.parent x).2 y).2 st.rank R
        hfy2 hR (rootW st.parent (R + 1) x) (rootW st.parent (R + 1) y) hq2x hq2y heq
      refine ⟨?_, fun z => by have := hR z; omega, ?_, ?_⟩
      · intro z hz
        by_cases hzr : z = rootW st.parent (R + 1) x
        · subst hzr
          rw [Function.update_same]
          exact hr1
        · rw [Function.update_noteq hzr] at hz ⊢
          exact hfy2 z hz
      · intro h0
        cases h0
      · intro _
        refine ⟨heq, rootW st.parent (R + 1) x, rootW st.parent (R + 1) y, heq,
          Or.inl ⟨rfl, rfl⟩, ?_⟩
        intro v fv hfv
        rw [hlink v fv (by have := hR v; omega), hcomp3 v fv hfv]
    · rw [if_neg hr1]
      by_cases hr2 : st.rank (rootW st.parent (R + 1) y) <
          st.rank (rootW st.parent (R + 1) x)
      · rw [if_pos hr2]
        dsimp only
        have hlink := rootW_link (ufFind fuel (ufFind fuel st.parent x).2 y).2 st.rank R
          hfy2 hR (rootW st.parent (R + 1) y) (rootW st.parent (R + 1) x) hq2y hq2x
          (Ne.symm heq)
        refine ⟨?_, fun z => by have := hR z; omega, ?_, ?_⟩
        · intro z hz
          by_cases hzr : z = rootW st.parent (R + 1) y
          · subst hzr
            rw [Function.update_same]
            exact hr2
          · rw [Function.update_noteq hzr] at hz ⊢
            exact hfy2 z hz
        · intro h0
          cases h0
        · intro _
          refine ⟨heq, rootW st.parent (R + 1) y, rootW st.parent (R + 1) x,
            Ne.symm heq, Or.inr ⟨rfl, rfl⟩, ?_⟩
          intro v fv hfv
          rw [hlink v fv (by have := hR v; omega), hcomp3 v fv hfv]
      · rw [if_neg hr2]
        dsimp only
        have hrkeq : st.rank (rootW st.parent (R + 1) x) =
            st.rank (rootW st.parent (R + 1) y) := by omega
        have hlink := rootW_link (ufFind fuel (ufFind fuel st.parent x).2 y).2 st.rank R
          hfy2 hR (rootW st.parent (R + 1) y) (rootW st.parent (R + 1) x) hq2y hq2x
          (Ne.symm heq)
        refine ⟨?_, ?_, ?_, ?_⟩
        · intro z hz
          by_cases hzr : z = rootW st.parent (R + 1) y
          · subst hzr
            have e1 : Function.update (ufFind fuel (ufFind fuel st.parent x).2 y).2
                (rootW st.parent (R + 1) y) (rootW st.parent (R + 1) x)
                (rootW st.parent (R + 1) y) = rootW st.parent (R + 1) x := by
              rw [Function.update_same]
            have e2 : Function.update st.rank (rootW st.parent (R + 1) x)
                (st.rank (rootW st.parent (R + 1) x) + 1)
                (rootW st.parent (R + 1) y) = st.rank (rootW st.parent (R + 1) y) := by
              rw [Function.update_noteq (Ne.symm heq)]
            have e3 : Function.update st.rank (rootW st.parent (R + 1) x)
                (st.rank (rootW st.parent (R + 1) x) + 1)
                (rootW st.parent (R + 1) x) =
                st.rank (rootW st.parent (R + 1) x) + 1 := by
              rw [Function.update_same]
            rw [e1, e2, e3]
            omega
          · rw [Function.update_noteq hzr] at hz ⊢
            have hz2 := hfy2 z hz
            have hzx : z ≠ rootW st.parent (R + 1) x := by
              intro h0
              subst h0
              rw [hq2x] at hz
              exact hz rfl
            rw [Function.update_noteq hzx]
            by_cases hpz : (ufFind fuel (ufFind fuel st.parent x).2 y).2 z =
                rootW st.parent (R + 1) x
            · rw [hpz, Function.update_same]
              rw [hpz] at hz2
              omega
            · rw [Function.update_noteq hpz]
              exact hz2
        · intro z
          by_cases hzx : z = rootW st.parent (R + 1) x
          · subst hzx
            rw [Function.update_same]
            have := hR (rootW st.parent (R + 1) x)
            omega
          · rw [Function.update_noteq hzx]
            have := hR z
            omega
        · intro h0
          cases h0
        · intro _
          refine ⟨heq, rootW st.parent (R + 1) y, rootW st.parent (R + 1) x,
            Ne.symm heq, Or.inr ⟨rfl, rfl⟩, ?_⟩
          intro v fv hfv
          rw [hlink v fv (by have := hR v; omega), hcomp3 v fv hfv]

/-! ### Connectivity and the component-count bound -/

/-- One undirected step along an edge of the list. -/
def estep (E : List MEdge) (a b : Nat) : Prop :=
  ∃ e ∈ E, (e.src = a ∧ e.dst = b) ∨ (e.src = b ∧ e.dst = a)

/-- Connectivity over the edges of the list. -/
def Conn (E : List MEdge) : Nat → Nat → Prop := Relation.ReflTransGen (estep E)

theorem conn_refl (E : List MEdge) (a : Nat) : Conn E a a := Relation.ReflTransGen.refl

theorem conn_trans (E : List MEdge) (a b c : Nat) (h1 : Conn E a b) (h2 : Conn E b c) :
    Conn E a c := Relation.ReflTransGen.trans h1 h2

theorem estep_symm (E : List MEdge) (a b : Nat) (h : estep E a b) : estep E b a := by
  obtain ⟨e, he, h1 | h1⟩ := h
  · exact ⟨e, he, Or.inr h1⟩
  · exact ⟨e, he, Or.inl h1⟩

theorem conn_symm (E : List MEdge) (a b : Nat) (h : Conn E a b) : Conn E b a := by
  induction h with
  | refl => exact conn_refl E a
  | tail _ hstep ih =>
      exact conn_trans E _ _ _ (Relation.ReflTransGen.single (estep_symm E _ _ hstep)) ih

theorem conn_single (E : List MEdge) (e : MEdge) (he : e ∈ E) : Conn E e.src e.dst :=
  Relation.ReflTransGen.single ⟨e, he, Or.inl ⟨rfl, rfl⟩⟩

theorem conn_mono (E E' : List MEdge) (hsub : ∀ e ∈ E, e ∈ E') (a b : Nat)
    (h : Conn E a b) : Conn E' a b :=
  Relation.ReflTransGen.mono (fun x y hxy => by
    obtain ⟨e, he, hc⟩ := hxy
    exact ⟨e, hsub e he, hc⟩) h

theorem conn_nil (a b : Nat) : Conn [] a b ↔ a = b := by
  constructor
  · intro h
    induction h with
    | refl => rfl
    | tail _ hstep _ =>
        obtain ⟨e, he, _⟩ := hstep
        exact absurd he (List.not_mem_nil e)
  · intro h
    rw [h]
    exact conn_refl [] b

theorem conn_lift (E : List MEdge) (f : Nat → Nat)
    (hstep : ∀ e ∈ E, f e.src = f e.dst) : ∀ a b, Conn E a b → f a = f b := by
  intro a b h
  induction h with
  | refl => rfl
  | tail _ hstep2 ih =>
      obtain ⟨e, he, hcase⟩ := hstep2
      rcases hcase with ⟨h1, h2⟩ | ⟨h1, h2⟩
      · rw [ih, ← h1, ← h2]
        exact hstep e he
      · rw [ih, ← h2, ← h1]
        exact (hstep e he).symm

/-- One undirected step along a pair list (the quotient graph). -/
def pstep (E : List (Nat × Nat)) (a b : Nat) : Prop :=
  ∃ e ∈ E, e = (a, b) ∨ e = (b, a)

/-- Connectivity over a pair list. -/
def PConn (E : List (Nat × Nat)) : Nat → Nat → Prop := Relation.ReflTransGen (pstep E)

/-- Fold every listed pair into a class map by merging the two classes
of its endpoints. -/
def mergeMap (E : List (Nat × Nat)) (μ : Nat → Nat) : Nat → Nat :=
  E.foldl (fun μ e => fun z => if μ z = μ e.1 then μ e.2 else μ z) μ

theorem collapse_image_card (X : Finset Nat) (r s : Nat) :
    X.card ≤ (X.image (fun z => if z = r then s else z)).card + 1 := by
  by_cases hr : r ∈ X
  · have hsub : X.erase r ⊆ X.image (fun z => if z = r then s else z) := by
      intro z hz
      rw [Finset.mem_erase] at hz
      exact Finset.mem_image.mpr ⟨z, hz.2, by rw [if_neg hz.1]⟩
    have h1 := Finset.card_le_card hsub
    have h2 : (X.erase r).card = X.card - 1 := Finset.card_erase_of_mem hr
    have h3 : 1 ≤ X.card := Finset.card_pos.mpr ⟨r, hr⟩
    omega
  · have hsub2 : X ⊆ X.image (fun z => if z = r then s else z) := by
      intro z hz
      have hzr : z ≠ r := fun h0 => hr (h0 ▸ hz)
      exact Finset.mem_image.mpr ⟨z, hz, by rw [if_neg hzr]⟩
    have := Finset.card_le_card hsub2
    omega

theorem mergeMap_card (V : Finset Nat) :
    ∀ (E : List (Nat × Nat)) (μ : Nat → Nat),
      (V.image μ).card ≤ (V.image (mergeMap E μ)).card + E.length := by
  intro E
  induction E with
  | nil => intro μ; simp [mergeMap]
  | cons e E ih =>
      intro μ
      have hstep : mergeMap (e :: E) μ =
          mergeMap E (fun z => if μ z = μ e.1 then μ e.2 else μ z) := rfl
      rw [hstep]
      have h1 := ih (fun z => if μ z = μ e.1 then μ e.2 else μ z)
      have h2 : V.image (fun z => if μ z = μ e.1 then μ e.2 else μ z) =
          (V.image μ).image (fun w => if w = μ e.1 then μ e.2 else w) := by
        rw [Finset.image_image]
        apply Finset.image_congr
        intro z _
        simp [Function.comp]
      have h3 := collapse_image_card (V.image μ) (μ e.1) (μ e.2)
      rw [h2] at h1
      simp only [List.length_cons]
      omega

theorem mergeMap_congr : ∀ (E : List (Nat × Nat)) (μ : Nat → Nat) (a b : Nat),
    μ a = μ b → mergeMap E μ a = mergeMap E μ b := by
  intro E
  induction E with
  | nil => intro μ a b h; exact h
  | cons e E ih =>
      intro μ a b h
      exact ih _ a b (by dsimp only; rw [h])

theorem mergeMap_edge : ∀ (E : List (Nat × Nat)) (μ : Nat → Nat) (x y : Nat),
    (x, y) ∈ E → mergeMap E μ x = mergeMap E μ y := by
  intro E
  induction E with
  | nil => intro μ x y h; cases h
  | cons e E ih =>
      intro μ x y h
      rcases List.mem_cons.mp h with heq | hmem
      · have heq2 : e = (x, y) := heq.symm
        subst heq2
        show mergeMap E (fun z => if μ z = μ (x, y).1 then μ (x, y).2 else μ z) x =
          mergeMap E (fun z => if μ z = μ (x, y).1 then μ (x, y).2 else μ z) y
        apply mergeMap_congr
        dsimp only
        rw [if_pos rfl]
        by_cases h0 : μ y = μ x
        · rw [if_pos h0]
        · rw [if_neg h0]
      · exact ih _ x y hmem

theorem mergeMap_conn (E : List (Nat × Nat)) (μ : Nat → Nat) (a b : Nat)
    (h : PConn E a b) : mergeMap E μ a = mergeMap E μ b := by
  induction h with
  | refl => rfl
  | tail _ hstep ih =>
      obtain ⟨e, he, hcase⟩ := hstep
      rcases hcase with heq | heq
      · rw [ih]
        exact mergeMap_edge E μ _ _ (heq ▸ he)
      · rw [ih]
        exact (mergeMap_edge E μ _ _ (heq ▸ he)).symm

/-- A pair list connecting every element of `V` has at least
`V.card - 1` entries. -/
theorem conn_card_bound (V : Finset Nat) (E : List (Nat × Nat))
    (hconn : ∀ a ∈ V, ∀ b ∈ V, PConn E a b) : V.card ≤ E.length + 1 := by
  rcases Finset.eq_empty_or_nonempty V with rfl | ⟨v0, hv0⟩
  · simp
  · have h1 : V.image (mergeMap E id) ⊆ {mergeMap E id v0} := by
      intro w hw
      rw [Finset.mem_image] at hw
      obtain ⟨a, ha, hwa⟩ := hw
      rw [Finset.mem_singleton, ← hwa]
      exact mergeMap_conn E id a v0 (hconn a ha v0 hv0)
    have h2 := Finset.card_le_card h1
    rw [Finset.card_singleton] at h2
    have h3 := mergeMap_card V E id
    rw [Finset.image_id] at h3
    omega

/-- Connectivity descends to the quotient by any class map: crossing
edges connect the images. -/
theorem conn_quotient (S : List MEdge) (ρ : Nat → Nat) :
    ∀ x y, Conn S x y →
      PConn ((S.filter (fun e => decide (ρ e.src ≠ ρ e.dst))).map
          (fun e => (ρ e.src, ρ e.dst)))
        (ρ x) (ρ y) := by
  intro x y h
  induction h with
  | refl => exact Relation.ReflTransGen.refl
  | tail _ hstep ih =>
      obtain ⟨e, he, hcase⟩ := hstep
      by_cases hcross : ρ e.src = ρ e.dst
      · rcases hcase with ⟨h1, h2⟩ | ⟨h1, h2⟩
        · rw [← h2, ← hcross, h1]
          exact ih
        · rw [← h1, hcross, h2]
          exact ih
      · apply Relation.ReflTransGen.tail ih
        refine ⟨(ρ e.src, ρ e.dst), ?_, ?_⟩
        · exact List.mem_map.mpr
            ⟨e, List.mem_filter.mpr ⟨he, by simpa using hcross⟩, rfl⟩
        · rcases hcase with ⟨h1, h2⟩ | ⟨h1, h2⟩
          · left
            rw [h1, h2]
          · right
            rw [h1, h2]

theorem collapse_eq_cases (r1 r2 u v : Nat)
    (h : (if u = r1 then r2 else u) = (if v = r1 then r2 else v)) :
    u = v ∨ (u = r1 ∧ v = r2) ∨ (v = r1 ∧ u = r2) := by
  by_cases h1 : u = r1
  · rw [if_pos h1] at h
    by_cases h2 : v = r1
    · rw [if_pos h2] at h
      left
      rw [h1, h2]
    · rw [if_neg h2] at h
      right
      left
      exact ⟨h1, h.symm⟩
  · rw [if_neg h1] at h
    by_cases h2 : v = r1
    · rw [if_pos h2] at h
      right
      right
      exact ⟨h2, h⟩
    · rw [if_neg h2] at h
      left
      exact h

/-- Including an edge that collapses class `r1` into `r2` makes the new
classes exactly the connectivity classes of the extended edge list. -/
theorem classes_collapse (T : List MEdge) (e : MEdge) (ρ ρ' : Nat → Nat) (r1 r2 : Nat)
    (hr12 : r1 ≠ r2)
    (hcase : (r1 = ρ e.src ∧ r2 = ρ e.dst) ∨ (r1 = ρ e.dst ∧ r2 = ρ e.src))
    (hcollapse : ∀ v, ρ' v = if ρ v = r1 then r2 else ρ v)
    (hclasses : ∀ a b, Conn T a b ↔ ρ a = ρ b) :
    ∀ a b, Conn (T ++ [e]) a b ↔ ρ' a = ρ' b := by
  have hcongr : ∀ u v, ρ u = ρ v → ρ' u = ρ' v := by
    intro u v huv
    rw [hcollapse u, hcollapse v, huv]
  have hedge : ρ' e.src = ρ' e.dst := by
    rcases hcase with ⟨h1, h2⟩ | ⟨h1, h2⟩
    · have hx : ρ' e.src = r2 := by
        rw [hcollapse e.src, ← h1, if_pos rfl]
      have hd1 : ρ e.dst ≠ r1 := by
        rw [← h2]
        exact Ne.symm hr12
      have hy : ρ' e.dst = r2 := by
        rw [hcollapse e.dst, if_neg hd1, ← h2]
      rw [hx, hy]
    · have hx : ρ' e.dst = r2 := by
        rw [hcollapse e.dst, ← h1, if_pos rfl]
      have hd1 : ρ e.src ≠ r1 := by
        rw [← h2]
        exact Ne.symm hr12
      have hy : ρ' e.src = r2 := by
        rw [hcollapse e.src, if_neg hd1, ← h2]
      rw [hx, hy]
  have hsub : ∀ e' ∈ T, e' ∈ T ++ [e] := fun e' he' => List.mem_append_left _ he'
  intro a b
  constructor
  · apply conn_lift (T ++ [e]) ρ'
    intro e' he'
    rcases List.mem_append.mp he' with h0 | h0
    · exact hcongr _ _ ((hclasses e'.src e'.dst).mp (conn_single T e' h0))
    · rw [List.mem_singleton] at h0
      subst h0
      exact hedge
  · intro h
    rw [hcollapse a, hcollapse b] at h
    have hconn_src_dst : Conn (T ++ [e]) e.src e.dst :=
      conn_single (T ++ [e]) e (List.mem_append_right _ (List.mem_singleton_self e))
    rcases collapse_eq_cases r1 r2 (ρ a) (ρ b) h with h0 | ⟨h1, h2⟩ | ⟨h1, h2⟩
    · exact conn_mono T _ hsub a b ((hclasses a b).mpr h0)
    · rcases hcase with ⟨hc1, hc2⟩ | ⟨hc1, hc2⟩
      · have ha : Conn T a e.src := (hclasses a e.src).mpr (by rw [h1, hc1])
        have hb : Conn T e.dst b := (hclasses e.dst b).mpr (by rw [h2, hc2])
        exact conn_trans _ _ _ _ (conn_mono T _ hsub _ _ ha)
          (conn_trans _ _ _ _ hconn_src_dst (conn_mono T _ hsub _ _ hb))
      · have ha : Conn T a e.dst := (hclasses a e.dst).mpr (by rw [h1, hc1])
        have hb : Conn T e.src b := (hclasses e.src b).mpr (by rw [h2, hc2])
        exact conn_trans _ _ _ _ (conn_mono T _ hsub _ _ ha)
          (conn_trans _ _ _ _ (conn_symm _ _ _ hconn_src_dst)
            (conn_mono T _ hsub _ _ hb))
    · rcases hcase with ⟨hc1, hc2⟩ | ⟨hc1, hc2⟩
      · have ha : Conn T a e.dst := (hclasses a e.dst).mpr (by rw [h2, hc2])
        have hb : Conn T e.src b := (hclasses e.src b).mpr (by rw [h1, hc1])
        exact conn_trans _ _ _ _ (conn_mono T _ hsub _ _ ha)
          (conn_trans _ _ _ _ (conn_symm _ _ _ hconn_src_dst)
            (conn_mono T _ hsub _ _ hb))
      · have ha : Conn T a e.src := (hclasses a e.src).mpr (by rw [h2, hc2])
        have hb : Conn T e.dst b := (hclasses e.dst b).mpr (by rw [h1, hc1])
        exact conn_trans _ _ _ _ (conn_mono T _ hsub _ _ ha)
          (conn_trans _ _ _ _ hconn_src_dst (conn_mono T _ hsub _ _ hb))

/-- Collapsing one existing class into another drops the class count by
exactly one. -/
theorem count_collapse (n : Nat) (ρ ρ' : Nat → Nat) (r1 r2 : Nat) (hr12 : r1 ≠ r2)
    (hcollapse : ∀ v, ρ' v = if ρ v = r1 then r2 else ρ v)
    (hr1 : r1 ∈ (Finset.range n).image ρ) (hr2 : r2 ∈ (Finset.range n).image ρ) :
    ((Finset.range n).image ρ').card + 1 = ((Finset.range n).image ρ).card := by
  have himg : (Finset.range n).image ρ' =
      ((Finset.range n).image ρ).image (fun w => if w = r1 then r2 else w) := by
    rw [Finset.image_image]
    apply Finset.image_congr
    intro v _
    simp only [Function.comp]
    exact hcollapse v
  have himg2 : ((Finset.range n).image ρ).image (fun w => if w = r1 then r2 else w) =
      ((Finset.range n).image ρ).erase r1 := by
    ext w
    constructor
    · intro hw
      obtain ⟨u, hu, huw⟩ := Finset.mem_image.mp hw
      rw [Finset.mem_erase]
      by_cases h0 : u = r1
      · subst h0
        rw [if_pos rfl] at huw
        rw [← huw]
        exact ⟨Ne.symm hr12, hr2⟩
      · rw [if_neg h0] at huw
        rw [← huw]
        exact ⟨h0, hu⟩
    · intro hw
      rw [Finset.mem_erase] at hw
      exact Finset.mem_image.mpr ⟨w, hw.2, by rw [if_neg hw.1]⟩
  rw [himg, himg2, Finset.card_erase_of_mem hr1]
  have hpos : 1 ≤ ((Finset.range n).image ρ).card := Finset.card_pos.mpr ⟨r1, hr1⟩
  omega

/-- Invariants of the Kruskal fold over processed prefix `P` (all edge
endpoints below `n`): rank soundness with ranks bounded by the number
of included edges, the included edges' connectivity classes are exactly
the union-find root classes, any two cells connected by processed edges
share a root, and the number of distinct roots plus included edges is
`n`. -/
structure KInv (edges : List MEdge) (n : Nat) (P : List MEdge)
    (acc : UF × List MEdge × Nat) : Prop where
  rankOK : RankOK acc.1.parent acc.1.rank
  rankLe : ∀ z, acc.1.rank z ≤ acc.2.1.length
  lenLe : acc.2.1.length ≤ P.length
  plen : P.length ≤ edges.length
  subset : ∀ e ∈ acc.2.1, e ∈ P
  wsum : acc.2.2 = (acc.2.1.map MEdge.weight).sum
  rootRange : ∀ v, v < n → rootW acc.1.parent (edges.length + 1) v < n
  classes : ∀ a b, Conn acc.2.1 a b ↔
    rootW acc.1.parent (edges.length + 1) a = rootW acc.1.parent (edges.length + 1) b
  maximal : ∀ a b, Conn P a b →
    rootW acc.1.parent (edges.length + 1) a = rootW acc.1.parent (edges.length + 1) b
  count : ((Finset.range n).image
      (fun v => rootW acc.1.parent (edges.length + 1) v)).card + acc.2.1.length = n

theorem kinv_init (edges : List MEdge) (n : Nat) : KInv edges n [] (ufInit, [], 0) := by
  have hid : ∀ (v fuel : Nat), rootW ufInit.parent fuel v = v := by
    intro v fuel
    exact rootW_self _ v rfl fuel
  refine ⟨?_, ?_, ?_, ?_, ?_, ?_, ?_, ?_, ?_, ?_⟩
  · intro x hx
    exact absurd rfl hx
  · intro z
    exact le_refl 0
  · exact le_refl 0
  · exact Nat.zero_le _
  · intro e he
    exact absurd he (List.not_mem_nil e)
  · rfl
  · intro v hv
    rw [hid]
    exact hv
  · intro a b
    rw [hid, hid]
    exact conn_nil a b
  · intro a b h
    rw [hid, hid]
    exact (conn_nil a b).mp h
  · have himg : (Finset.range n).image
        (fun v => rootW ufInit.parent (edges.length + 1) v) = Finset.range n := by
      ext w
      constructor
      · intro hw
        obtain ⟨v, hv, hvw⟩ := Finset.mem_image.mp hw
        rw [hid] at hvw
        rw [← hvw]
        exact hv
      · intro hw
        exact Finset.mem_image.mpr ⟨w, hw, hid w _⟩
    rw [himg]
    simp

theorem kinv_step (edges : List MEdge) (n : Nat) (P : List MEdge)
    (acc : UF × List MEdge × Nat) (e : MEdge)
    (hinv : KInv edges n P acc) (hPlt : P.length < edges.length)
    (hes : e.src < n) (hed : e.dst < n) :
    KInv edges n (P ++ [e]) (kruskalStep (edges.length + 1) acc e) := by
  obtain ⟨st, T, W⟩ := acc
  have hRlt : T.length < edges.length + 1 := by
    have h1 := hinv.lenLe
    simp only at h1
    omega
  obtain ⟨hu1, hu2, hufalse, hutrue⟩ := ufUnion_spec st T.length (edges.length + 1)
    hinv.rankOK hinv.rankLe hRlt e.src e.dst
  have hstab : ∀ v, rootW st.parent (T.length + 1) v =
      rootW st.parent (edges.length + 1) v := by
    intro v
    exact rootW_stable st.parent st.rank T.length hinv.rankOK hinv.rankLe
      (T.length + 1) (edges.length + 1) v (by omega) (by omega)
  unfold kruskalStep
  dsimp only
  by_cases hres : (ufUnion (edges.length + 1) st e.src e.dst).1 = true
  · rw [if_pos hres]
    obtain ⟨hne0, r1, r2, hr12, hcase0, hcollapse0⟩ := hutrue hres
    have hcase : (r1 = rootW st.parent (edges.length + 1) e.src ∧
        r2 = rootW st.parent (edges.length + 1) e.dst) ∨
        (r1 = rootW st.parent (edges.length + 1) e.dst ∧
         r2 = rootW st.parent (edges.length + 1) e.src) := by
      rcases hcase0 with ⟨h1, h2⟩ | ⟨h1, h2⟩
      · exact Or.inl ⟨by rw [h1, hstab], by rw [h2, hstab]⟩
      · exact Or.inr ⟨by rw [h1, hstab], by rw [h2, hstab]⟩
    have hcollapse : ∀ v,
        rootW (ufUnion (edges.length + 1) st e.src e.dst).2.parent
          (edges.length + 1) v =
        (if rootW st.parent (edges.length + 1) v = r1 then r2
         else rootW st.parent (edges.length + 1) v) :=
      fun v => hcollapse0 v (edges.length + 1) hRlt
    have hcongr : ∀ u v, rootW st.parent (edges.length + 1) u =
        rootW st.parent (edges.length + 1) v →
        rootW (ufUnion (edges.length + 1) st e.src e.dst).2.parent (edges.length + 1) u =
        rootW (ufUnion (edges.length + 1) st e.src e.dst).2.parent (edges.length + 1) v := by
      intro u v huv
      rw [hcollapse u, hcollapse v, huv]
    have hr1mem : r1 ∈ (Finset.range n).image
        (fun v => rootW st.parent (edges.length + 1) v) := by
      rcases hcase with ⟨h1, _⟩ | ⟨h1, _⟩
      · exact Finset.mem_image.mpr ⟨e.src, Finset.mem_range.mpr hes, h1.symm⟩
      · exact Finset.mem_image.mpr ⟨e.dst, Finset.mem_range.mpr hed, h1.symm⟩
    have hr2mem : r2 ∈ (Finset.range n).image
        (fun v => rootW st.parent (edges.length + 1) v) := by
      rcases hcase with ⟨_, h2⟩ | ⟨_, h2⟩
      · exact Finset.mem_image.mpr ⟨e.dst, Finset.mem_range.mpr hed, h2.symm⟩
      · exact Finset.mem_image.mpr ⟨e.src, Finset.mem_range.mpr hes, h2.symm⟩
    refine ⟨hu1, ?_, ?_, ?_, ?_, ?_, ?_, ?_, ?_, ?_⟩
    · intro z
      have := hu2 z
      simp only [List.length_append, List.length_singleton]
      omega
    · have h1 := hinv.lenLe
      simp only [List.length_append, List.length_singleton] at h1 ⊢
      omega
    · simp only [List.length_append, List.length_singleton]
      omega
    · intro e' he'
      dsimp only at he'
      rcases List.mem_append.mp he' with h0 | h0
      · exact List.mem_append_left _ (hinv.subset e' h0)
      · exact List.mem_append_right _ h0
    · have h1 := hinv.wsum
      simp only at h1 ⊢
      rw [h1, List.map_append, List.sum_append]
      simp
    · intro v hv
      dsimp only
      rw [hcollapse v]
      by_cases h0 : rootW st.parent (edges.length + 1) v = r1
      · rw [if_pos h0]
        rcases hcase with ⟨_, h2⟩ | ⟨_, h2⟩
        · rw [h2]
          exact hinv.rootRange e.dst hed
        · rw [h2]
          exact hinv.rootRange e.src hes
      · rw [if_neg h0]
        exact hinv.rootRange v hv
    · exact classes_collapse T e _ _ r1 r2 hr12 hcase hcollapse hinv.classes
    · intro a b h
      apply conn_lift (P ++ [e]) _ ?_ a b h
      intro e' he'
      rcases List.mem_append.mp he' with h0 | h0
      · exact hcongr _ _ (hinv.maximal _ _ (conn_single P e' h0))
      · rw [List.mem_singleton] at h0
        subst h0
        exact ((classes_collapse T e' _ _ r1 r2 hr12 hcase hcollapse hinv.classes)
          e'.src e'.dst).mp (conn_single (T ++ [e']) e'
            (List.mem_append_right _ (List.mem_singleton_self e')))
    · have hc := count_collapse n
        (fun v => rootW st.parent (edges.length + 1) v)
        (fun v => rootW (ufUnion (edges.length + 1) st e.src e.dst).2.parent
          (edges.length + 1) v)
        r1 r2 hr12 hcollapse hr1mem hr2mem
      have hcount := hinv.count
      simp only at hcount ⊢
      simp only [List.length_append, List.length_singleton]
      omega
  · rw [if_neg hres]
    have hres' : (ufUnion (edges.length + 1) st e.src e.dst).1 = false :=
      bool_eq_false _ hres
    obtain ⟨heq0, hrkeq, hpre0⟩ := hufalse hres'
    have heq : rootW st.parent (edges.length + 1) e.src =
        rootW st.parent (edges.length + 1) e.dst := by
      rw [← hstab, ← hstab]
      exact heq0
    have hpre : ∀ v,
        rootW (ufUnion (edges.length + 1) st e.src e.dst).2.parent
          (edges.length + 1) v = rootW st.parent (edges.length + 1) v :=
      fun v => hpre0 v (edges.length + 1) hRlt
    refine ⟨hu1, ?_, ?_, ?_, ?_, hinv.wsum, ?_, ?_, ?_, ?_⟩
    · intro z
      rw [hrkeq]
      exact hinv.rankLe z
    · have h1 := hinv.lenLe
      simp only [List.length_append, List.length_singleton] at h1 ⊢
      omega
    · simp only [List.length_append, List.length_singleton]
      omega
    · intro e' he'
      exact List.mem_append_left _ (hinv.subset e' he')
    · intro v hv
      dsimp only
      rw [hpre v]
      exact hinv.rootRange v hv
    · intro a b
      dsimp only
      rw [hpre a, hpre b]
      exact hinv.classes a b
    · intro a b h
      dsimp only
      rw [hpre a, hpre b]
      apply conn_lift (P ++ [e]) _ ?_ a b h
      intro e' he'
      rcases List.mem_append.mp he' with h0 | h0
      · exact hinv.maximal _ _ (conn_single P e' h0)
      · rw [List.mem_singleton] at h0
        subst h0
        exact heq
    · have himg : (Finset.range n).image
          (fun v => rootW (ufUnion (edges.length + 1) st e.src e.dst).2.parent
            (edges.length + 1) v) =
          (Finset.range n).image
            (fun v => rootW st.parent (edges.length + 1) v) := by
        apply Finset.image_congr
        intro v _
        exact hpre v
      dsimp only
      rw [himg]
      exact hinv.count

theorem kinv_fold (edges : List MEdge) (n : Nat) :
    ∀ (Q P : List MEdge) (acc : UF × List MEdge × Nat),
      KInv edges n P acc →
      (∀ e ∈ Q, e.src < n ∧ e.dst < n) →
      P.length + Q.length ≤ edges.length →
      KInv edges n (P ++ Q) (Q.foldl (kruskalStep (edges.length + 1)) acc) := by
  intro Q
  induction Q with
  | nil =>
      intro P acc hinv _ _
      rw [List.append_nil]
      exact hinv
  | cons e Q ih =>
      intro P acc hinv hends hlen
      rw [List.foldl_cons]
      have hPlt : P.length < edges.length := by
        simp only [List.length_cons] at hlen
        omega
      have h1 := kinv_step edges n P acc e hinv hPlt
        (hends e (List.mem_cons_self e Q)).1 (hends e (List.mem_cons_self e Q)).2
      have h2 := ih (P ++ [e]) _ h1
        (fun e' he' => hends e' (List.mem_cons_of_mem e he'))
        (by simp only [List.length_append, List.length_singleton, List.length_nil,
              List.length_cons] at hlen ⊢; omega)
      rw [List.append_assoc, List.singleton_append] at h2
      exact h2

/-- The fold only appends to the included-edge list, and only edges
from the processed suffix. -/
theorem kruskal_T_extend (fuel : Nat) :
    ∀ (Q : List MEdge) (acc : UF × List MEdge × Nat),
      ∃ Δ, (Q.foldl (kruskalStep fuel) acc).2.1 = acc.2.1 ++ Δ ∧
        ∀ e ∈ Δ, e ∈ Q := by
  intro Q
  induction Q with
  | nil =>
      intro acc
      exact ⟨[], by simp, fun e he => absurd he (List.not_mem_nil e)⟩
  | cons e Q ih =>
      intro acc
      rw [List.foldl_cons]
      obtain ⟨Δ, hΔ, hΔsub⟩ := ih (kruskalStep fuel acc e)
      unfold kruskalStep at hΔ ⊢
      dsimp only at hΔ ⊢
      by_cases hres : (ufUnion fuel acc.1 e.src e.dst).1 = true
      · rw [if_pos hres] at hΔ ⊢
        refine ⟨[e] ++ Δ, ?_, ?_⟩
        · rw [hΔ]
          dsimp only
          rw [List.append_assoc]
        · intro e' he'
          rcases List.mem_append.mp he' with h0 | h0
          · rw [List.mem_singleton] at h0
            rw [h0]
            exact List.mem_cons_self e Q
          · exact List.mem_cons_of_mem e (hΔsub e' h0)
      · rw [if_neg hres] at hΔ ⊢
        exact ⟨Δ, hΔ, fun e' he' => List.mem_cons_of_mem e (hΔsub e' he')⟩

/-- A weight-sorted list splits as its small-weight prefix followed by
its large-weight suffix. -/
theorem sorted_filter_split (t : Nat) :
    ∀ L : List MEdge, L.Pairwise wLE →
      L = L.filter (fun e => decide (e.weight ≤ t)) ++
        L.filter (fun e => !decide (e.weight ≤ t)) := by
  intro L
  induction L with
  | nil => intro _; rfl
  | cons a L ih =>
      intro hp
      rw [List.pairwise_cons] at hp
      rw [List.filter_cons, List.filter_cons]
      by_cases hat : a.weight ≤ t
      · rw [if_pos (by simp [hat]), if_neg (by simp [hat])]
        rw [List.cons_append, ← ih hp.2]
      · rw [if_neg (by simp [hat]), if_pos (by simp [hat])]
        have hnil : L.filter (fun e => decide (e.weight ≤ t)) = [] := by
          rw [List.filter_eq_nil_iff]
          intro e he
          have h1 := hp.1 e he
          unfold wLE at h1
          simp only [decide_eq_true_eq]
          omega
        have hall : L.filter (fun e => !decide (e.weight ≤ t)) = L := by
          rw [List.filter_eq_self]
          intro e he
          have h1 := hp.1 e he
          unfold wLE at h1
          simp only [Bool.not_eq_true', decide_eq_false_iff_not]
          omega
        rw [hnil, List.nil_append, hall]

theorem filter_length_mono (p q : MEdge → Bool) :
    ∀ L : List MEdge, (∀ e ∈ L, p e = true → q e = true) →
      (L.filter p).length ≤ (L.filter q).length := by
  intro L
  induction L with
  | nil => intro _; exact le_refl 0
  | cons a L ih =>
      intro h
      rw [List.filter_cons, List.filter_cons]
      have hL := ih (fun e he => h e (List.mem_cons_of_mem a he))
      by_cases hpa : p a = true
      · rw [if_pos hpa, if_pos (h a (List.mem_cons_self a L) hpa)]
        simp only [List.length_cons]
        omega
      · rw [if_neg hpa]
        by_cases hqa : q a = true
        · rw [if_pos hqa]
          simp only [List.length_cons]
          omega
        · rw [if_neg hqa]
          exact hL

theorem filter_length_split (p : MEdge → Bool) :
    ∀ L : List MEdge,
      (L.filter p).length + (L.filter (fun e => !p e)).length = L.length := by
  intro L
  induction L with
  | nil => rfl
  | cons a L ih =>
      rw [List.filter_cons, List.filter_cons]
      by_cases hpa : p a = true
      · rw [if_pos hpa, if_neg (by simp [hpa])]
        simp only [List.length_cons]
        omega
      · rw [if_neg hpa, if_pos (by simp [hpa])]
        simp only [List.length_cons]
        omega

/-- The total weight of an edge list, decomposed over thresholds: at
each threshold the edges still exceeding it contribute one. -/
theorem weight_sum_decompose (M : Nat) :
    ∀ L : List MEdge, (∀ e ∈ L, e.weight ≤ M) →
      (L.map MEdge.weight).sum =
        ∑ t ∈ Finset.range M,
          (L.length - (L.filter (fun e => decide (e.weight ≤ t))).length) := by
  intro L
  induction L with
  | nil =>
      intro _
      simp
  | cons a L ih =>
      intro hb
      have hbL : ∀ e ∈ L, e.weight ≤ M := fun e he => hb e (List.mem_cons_of_mem a he)
      have hba : a.weight ≤ M := hb a (List.mem_cons_self a L)
      have hterm : ∀ t ∈ Finset.range M,
          (a :: L).length - ((a :: L).filter (fun e => decide (e.weight ≤ t))).length =
          (if t < a.weight then 1 else 0) +
            (L.length - (L.filter (fun e => decide (e.weight ≤ t))).length) := by
        intro t _
        have hcle : (L.filter (fun e => decide (e.weight ≤ t))).length ≤ L.length :=
          List.length_filter_le _ L
        rw [List.filter_cons]
        by_cases hat : a.weight ≤ t
        · rw [if_pos (by simpa using hat), if_neg (by omega)]
          simp only [List.length_cons]
          omega
        · rw [if_neg (by simpa using hat), if_pos (by omega)]
          simp only [List.length_cons]
          omega
      rw [Finset.sum_congr rfl hterm, Finset.sum_add_distrib]
      have hsum1 : ∑ t ∈ Finset.range M, (if t < a.weight then 1 else 0) = a.weight := by
        rw [Finset.sum_boole]
        have : (Finset.range M).filter (fun t => t < a.weight) =
            Finset.range a.weight := by
          ext w
          simp only [Finset.mem_filter, Finset.mem_range]
          omega
        rw [this]
        simp
      rw [hsum1, List.map_cons, List.sum_cons, ih hbL]

theorem mem_weight_le_sum (e : MEdge) :
    ∀ L : List MEdge, e ∈ L → e.weight ≤ (L.map MEdge.weight).sum := by
  intro L
  induction L with
  | nil => intro h; cases h
  | cons a L ih =>
      intro h
      rw [List.map_cons, List.sum_cons]
      rcases List.mem_cons.mp h with h0 | h0
      · rw [h0]
        omega
      · have := ih h0
        omega

theorem findMST_final_inv (n : Nat) (edges : List MEdge)
    (hend : ∀ e ∈ edges, e.src < n ∧ e.dst < n) :
    KInv edges n (sortedEdges edges)
      ((sortedEdges edges).foldl (kruskalStep (edges.length + 1)) (ufInit, [], 0)) := by
  have h := kinv_fold edges n (sortedEdges edges) [] (ufInit, [], 0) (kinv_init edges n)
    (fun e he => hend e (((List.perm_insertionSort wLE edges).mem_iff).mp he))
    (by
      have := (List.perm_insertionSort wLE edges).length_eq
      unfold sortedEdges
      simp only [List.length_nil]
      omega)
  rw [List.nil_append] at h
  exact h

theorem kruskal_cnt_ge (n : Nat) (edges : List MEdge) (hn : 1 ≤ n)
    (hend : ∀ e ∈ edges, e.src < n ∧ e.dst < n)
    (S : List MEdge) (hS : ∀ e ∈ S, e ∈ edges) (hSlen : S.length = n - 1)
    (hSconn : ∀ x y, x < n → y < n → Conn S x y) (t : Nat) :
    (S.filter (fun e => decide (e.weight ≤ t))).length ≤
    ((((sortedEdges edges).foldl (kruskalStep (edges.length + 1))
        (ufInit, [], 0)).2.1).filter (fun e => decide (e.weight ≤ t))).length := by
  have hsorted := sortedEdges_sorted edges
  have hsplit := sorted_filter_split t (sortedEdges edges) hsorted
  have hperm := List.perm_insertionSort wLE edges
  have hAsub : ∀ e ∈ (sortedEdges edges).filter (fun e => decide (e.weight ≤ t)),
      e ∈ edges := by
    intro e he
    exact (hperm.mem_iff).mp (List.mem_of_mem_filter he)
  have hkA := kinv_fold edges n
    ((sortedEdges edges).filter (fun e => decide (e.weight ≤ t))) [] (ufInit, [], 0)
    (kinv_init edges n) (fun e he => hend e (hAsub e he))
    (by
      have h1 := List.length_filter_le (fun e => decide (e.weight ≤ t)) (sortedEdges edges)
      have h2 := hperm.length_eq
      unfold sortedEdges at h1 ⊢
      simp only [List.length_nil]
      omega)
  rw [List.nil_append] at hkA
  have hfold : (sortedEdges edges).foldl (kruskalStep (edges.length + 1))
      (ufInit, [], 0) =
      ((sortedEdges edges).filter (fun e => !decide (e.weight ≤ t))).foldl
        (kruskalStep (edges.length + 1))
        (((sortedEdges edges).filter (fun e => decide (e.weight ≤ t))).foldl
          (kruskalStep (edges.length + 1)) (ufInit, [], 0)) := by
    conv_lhs => rw [hsplit]
    rw [List.foldl_append]
  obtain ⟨Δ, hΔ, hΔB⟩ := kruskal_T_extend (edges.length + 1)
    ((sortedEdges edges).filter (fun e => !decide (e.weight ≤ t)))
    (((sortedEdges edges).filter (fun e => decide (e.weight ≤ t))).foldl
      (kruskalStep (edges.length + 1)) (ufInit, [], 0))
  have hTfilter : ((((sortedEdges edges).foldl (kruskalStep (edges.length + 1))
      (ufInit, [], 0)).2.1).filter (fun e => decide (e.weight ≤ t))).length =
      ((((sortedEdges edges).filter (fun e => decide (e.weight ≤ t))).foldl
        (kruskalStep (edges.length + 1)) (ufInit, [], 0)).2.1).length := by
    rw [hfold, hΔ, List.filter_append]
    have h1 : ((((sortedEdges edges).filter (fun e => decide (e.weight ≤ t))).foldl
        (kruskalStep (edges.length + 1)) (ufInit, [], 0)).2.1).filter
          (fun e => decide (e.weight ≤ t)) =
        (((sortedEdges edges).filter (fun e => decide (e.weight ≤ t))).foldl
          (kruskalStep (edges.length + 1)) (ufInit, [], 0)).2.1 := by
      rw [List.filter_eq_self]
      intro e he
      have := hkA.subset e he
      exact (List.mem_filter.mp this).2
    have h2 : Δ.filter (fun e => decide (e.weight ≤ t)) = [] := by
      rw [List.filter_eq_nil_iff]
      intro e he
      have := (List.mem_filter.mp (hΔB e he)).2
      simp only [Bool.not_eq_true', decide_eq_false_iff_not] at this
      simp only [decide_eq_true_eq]
      exact this
    rw [h1, h2, List.append_nil]
  rw [hTfilter]
  -- the quotient bound at the prefix state
  have hcross : ∀ e ∈ S,
      decide (rootW (((sortedEdges edges).filter (fun e => decide (e.weight ≤ t))).foldl
          (kruskalStep (edges.length + 1)) (ufInit, [], 0)).1.parent
          (edges.length + 1) e.src ≠
        rootW (((sortedEdges edges).filter (fun e => decide (e.weight ≤ t))).foldl
          (kruskalStep (edges.length + 1)) (ufInit, [], 0)).1.parent
          (edges.length + 1) e.dst) = true →
      (!decide (e.weight ≤ t)) = true := by
    intro e he hcr
    simp only [decide_eq_true_eq] at hcr
    simp only [Bool.not_eq_true', decide_eq_false_iff_not]
    intro hwt
    apply hcr
    apply hkA.maximal
    apply conn_single
    rw [List.mem_filter]
    exact ⟨(hperm.mem_iff).mpr (hS e he), by simpa using hwt⟩
  have hquot := conn_card_bound
    ((Finset.range n).image
      (fun v => rootW (((sortedEdges edges).filter (fun e => decide (e.weight ≤ t))).foldl
        (kruskalStep (edges.length + 1)) (ufInit, [], 0)).1.parent
        (edges.length + 1) v))
    ((S.filter (fun e =>
        decide (rootW (((sortedEdges edges).filter
            (fun e => decide (e.weight ≤ t))).foldl
          (kruskalStep (edges.length + 1)) (ufInit, [], 0)).1.parent
          (edges.length + 1) e.src ≠
          rootW (((sortedEdges edges).filter (fun e => decide (e.weight ≤ t))).foldl
            (kruskalStep (edges.length + 1)) (ufInit, [], 0)).1.parent
            (edges.length + 1) e.dst))).map
      (fun e => (rootW (((sortedEdges edges).filter
            (fun e => decide (e.weight ≤ t))).foldl
          (kruskalStep (edges.length + 1)) (ufInit, [], 0)).1.parent
          (edges.length + 1) e.src,
        rootW (((sortedEdges edges).filter (fun e => decide (e.weight ≤ t))).foldl
          (kruskalStep (edges.length + 1)) (ufInit, [], 0)).1.parent
          (edges.length + 1) e.dst)))
    (by
      intro a ha b hb
      obtain ⟨x, hx, hxa⟩ := Finset.mem_image.mp ha
      obtain ⟨y, hy, hyb⟩ := Finset.mem_image.mp hb
      rw [← hxa, ← hyb]
      exact conn_quotient S _ x y
        (hSconn x y (Finset.mem_range.mp hx) (Finset.mem_range.mp hy)))
  rw [List.length_map] at hquot
  have hmono := filter_length_mono _ _ S hcross
  have hsplitS := filter_length_split (fun e => decide (e.weight ≤ t)) S
  have hcount := hkA.count
  omega

/-- **C6.**  `findMST` processes the edges in ascending weight order
with equal weights kept in their original relative order (stable sort);
each iteration includes an edge exactly when `find(from)` and
`find(to)` differ — performing the union and adding the weight to the
running total, which ends as the weight sum of the included edges — and
on a connected input graph (nodes `0..n-1`) the included edges are a
spanning tree: `n - 1` edges drawn from the input connecting every pair
of nodes, of total weight at most that of every `n - 1`-edge connected
spanning edge selection. -/
theorem findMST_correct (n : Nat) (edges : List MEdge) (hn : 1 ≤ n)
    (hend : ∀ e ∈ edges, e.src < n ∧ e.dst < n)
    (hconn : ∀ x y, x < n → y < n → Conn edges x y) :
    ((sortedEdges edges).Pairwise wLE ∧
      (∀ c : Nat, (sortedEdges edges).filter (fun e => e.weight = c) =
        edges.filter (fun e => e.weight = c))) ∧
    ((∀ (fuel : Nat) (st : UF) (T : List MEdge) (W : Nat) (e : MEdge),
        kruskalStep fuel (st, T, W) e =
          if (ufFind fuel st.parent e.src).1 ≠
              (ufFind fuel (ufFind fuel st.parent e.src).2 e.dst).1
          then ((ufUnion fuel st e.src e.dst).2, T ++ [e], W + e.weight)
          else ((ufUnion fuel st e.src e.dst).2, T, W)) ∧
      (findMST edges).2 = ((findMST edges).1.map MEdge.weight).sum) ∧
    ((∀ e ∈ (findMST edges).1, e ∈ edges) ∧
      (findMST edges).1.length = n - 1 ∧
      (∀ x y, x < n → y < n → Conn (findMST edges).1 x y) ∧
      (∀ S : List MEdge, (∀ e ∈ S, e ∈ edges) → S.length = n - 1 →
        (∀ x y, x < n → y < n → Conn S x y) →
        (findMST edges).2 ≤ (S.map MEdge.weight).sum)) := by
  have hfin := findMST_final_inv n edges hend
  have hperm := List.perm_insertionSort wLE edges
  have hconnS : ∀ x y, x < n → y < n → Conn (sortedEdges edges) x y := by
    intro x y hx hy
    exact conn_mono edges _ (fun e he => (hperm.mem_iff).mpr he) x y (hconn x y hx hy)
  have hone : ∀ x y, x < n → y < n →
      rootW ((sortedEdges edges).foldl (kruskalStep (edges.length + 1))
        (ufInit, [], 0)).1.parent (edges.length + 1) x =
      rootW ((sortedEdges edges).foldl (kruskalStep (edges.length + 1))
        (ufInit, [], 0)).1.parent (edges.length + 1) y :=
    fun x y hx hy => hfin.maximal x y (hconnS x y hx hy)
  have hlenT : ((sortedEdges edges).foldl (kruskalStep (edges.length + 1))
      (ufInit, [], 0)).2.1.length = n - 1 := by
    have himgsub : (Finset.range n).image
        (fun v => rootW ((sortedEdges edges).foldl (kruskalStep (edges.length + 1))
          (ufInit, [], 0)).1.parent (edges.length + 1) v) ⊆
        {rootW ((sortedEdges edges).foldl (kruskalStep (edges.length + 1))
          (ufInit, [], 0)).1.parent (edges.length + 1) 0} := by
      intro w hw
      obtain ⟨v, hv, hvw⟩ := Finset.mem_image.mp hw
      rw [Finset.mem_singleton, ← hvw]
      exact hone v 0 (Finset.mem_range.mp hv) (by omega)
    have hcard_le := Finset.card_le_card himgsub
    rw [Finset.card_singleton] at hcard_le
    have hcard_ge : 1 ≤ ((Finset.range n).image
        (fun v => rootW ((sortedEdges edges).foldl (kruskalStep (edges.length + 1))
          (ufInit, [], 0)).1.parent (edges.length + 1) v)).card :=
      Finset.card_pos.mpr ⟨_, Finset.mem_image.mpr ⟨0, Finset.mem_range.mpr hn, rfl⟩⟩
    have hcount := hfin.count
    omega
  refine ⟨⟨sortedEdges_sorted edges, fun c => sortedEdges_stable edges c⟩,
    ⟨fun fuel st T W e => kruskalStep_iff fuel st T W e, hfin.wsum⟩,
    ⟨fun e he => (hperm.mem_iff).mp (hfin.subset e he), hlenT,
      fun x y hx hy => (hfin.classes x y).mpr (hone x y hx hy), ?_⟩⟩
  intro S hS hSlen hSconn
  show ((sortedEdges edges).foldl (kruskalStep (edges.length + 1))
      (ufInit, [], 0)).2.2 ≤ (S.map MEdge.weight).sum
  have hMT : ∀ e ∈ ((sortedEdges edges).foldl (kruskalStep (edges.length + 1))
      (ufInit, [], 0)).2.1, e.weight ≤ (edges.map MEdge.weight).sum :=
    fun e he => mem_weight_le_sum e edges ((hperm.mem_iff).mp (hfin.subset e he))
  have hMS : ∀ e ∈ S, e.weight ≤ (edges.map MEdge.weight).sum :=
    fun e he => mem_weight_le_sum e edges (hS e he)
  rw [hfin.wsum, weight_sum_decompose ((edges.map MEdge.weight).sum) _ hMT,
    weight_sum_decompose ((edges.map MEdge.weight).sum) S hMS]
  apply Finset.sum_le_sum
  intro t _
  have hcnt := kruskal_cnt_ge n edges hn hend S hS hSlen hSconn t
  have h1 := List.length_filter_le (fun e => decide (e.weight ≤ t)) S
  have h2 := List.length_filter_le (fun e => decide (e.weight ≤ t))
    ((sortedEdges edges).foldl (kruskalStep (edges.length + 1)) (ufInit, [], 0)).2.1
  omega

/-- A triangle on nodes `0, 1, 2` with weights `5, 3, 4`: the MST keeps
the weight-3 and weight-4 edges (total 7) and skips the weight-5 one. -/
def medges3 : List MEdge := [⟨0, 1, 5⟩, ⟨1, 2, 3⟩, ⟨0, 2, 4⟩]

theorem findMST_correct_witness :
    findMST medges3 = ([⟨1, 2, 3⟩, ⟨0, 2, 4⟩], 7) ∧
    (findMST medges3).1.length = 3 - 1 ∧
    (∀ x y, x < 3 → y < 3 → Conn (findMST medges3).1 x y) ∧
    (findMST medges3).2 ≤ (([⟨0, 1, 5⟩, ⟨1, 2, 3⟩] : List MEdge).map MEdge.weight).sum := by
  have h01 : Conn medges3 0 1 := conn_single medges3 ⟨0, 1, 5⟩ (by decide)
  have h12 : Conn medges3 1 2 := conn_single medges3 ⟨1, 2, 3⟩ (by decide)
  have h02 : Conn medges3 0 2 := conn_single medges3 ⟨0, 2, 4⟩ (by decide)
  have hconn : ∀ x y, x < 3 → y < 3 → Conn medges3 x y := by
    intro x y hx hy
    interval_cases x <;> interval_cases y
    · exact conn_refl _ _
    · exact h01
    · exact h02
    · exact conn_symm _ _ _ h01
    · exact conn_refl _ _
    · exact h12
    · exact conn_symm _ _ _ h02
    · exact conn_symm _ _ _ h12
    · exact conn_refl _ _
  have hS01 : Conn [(⟨0, 1, 5⟩ : MEdge), ⟨1, 2, 3⟩] 0 1 :=
    conn_single _ ⟨0, 1, 5⟩ (by decide)
  have hS12 : Conn [(⟨0, 1, 5⟩ : MEdge), ⟨1, 2, 3⟩] 1 2 :=
    conn_single _ ⟨1, 2, 3⟩ (by decide)
  have hSconn : ∀ x y, x < 3 → y < 3 → Conn [(⟨0, 1, 5⟩ : MEdge), ⟨1, 2, 3⟩] x y := by
    intro x y hx hy
    interval_cases x <;> interval_cases y
    · exact conn_refl _ _
    · exact hS01
    · exact conn_trans _ _ _ _ hS01 hS12
    · exact conn_symm _ _ _ hS01
    · exact conn_refl _ _
    · exact hS12
    · exact conn_symm _ _ _ (conn_trans _ _ _ _ hS01 hS12)
    · exact conn_symm _ _ _ hS12
    · exact conn_refl _ _
  obtain ⟨h1, h2, h3⟩ := findMST_correct 3 medges3 (by decide) (by decide) hconn
  exact ⟨by decide, h3.2.1, h3.2.2.1,
    h3.2.2.2 [⟨0, 1, 5⟩, ⟨1, 2, 3⟩] (by decide) (by decide) hSconn⟩

end GraphPlay
